import Mathlib

/-!
Verification of go-prehit, a bounded in-memory cache with a recency list and per-entry TTL.

Shallow embedding of `cache.go` and `options.go`.

* Pointers `*cacheItem` are addresses `Ptr`; `nil` is `Option.none`.  The Go heap is the
  total function `Cache.mem` from addresses to nodes (Go has no dangling pointers).
* `map[K]*cacheItem` is an association list with unique keys (`AList`); a key may be bound
  to `nil`, which is `some none` on lookup.
* `time.Time` is an integer instant, `time.Duration` an integer; `time.Now()` is an argument.
* `sync.Pool` is a last-in-first-out free list; when it is empty `New` returns the address
  `brk`, which has never been handed out, holding a zero node.
* The metrics sink is the trace `Cache.metrics` of the calls it received, oldest first.
  The logging sink has no influence on the cache and is left out.
* A nil-pointer dereference is the result `none` of an operation.
* The counter `size` is a natural number: `size++` cannot wrap (a list of `2 ^ 64` nodes
  does not fit in memory), and the one decrement that is not guarded by `size > 0`, in the
  eviction block of `Set`, wraps at zero as a `uint` does (`udec`).
* The reader/writer lock is not modelled: every operation runs alone.
-/

namespace prehit

/-- Address of a `cacheItem` on the heap. -/
abbrev Ptr := Nat

/-- An instant of `time.Time`. -/
abbrev Time := Int

/-- The Go `error` interface; `none` is `nil`. -/
abbrev error := Option String

/-- Type `cacheItem[K, V]`: a single item in the cache. -/
structure cacheItem (K V : Type) where
  prev : Option Ptr
  next : Option Ptr
  key : K
  value : V
  expiration : Time

/-- One call on the `Metrics` interface. -/
inductive Event where
  | Hit | Miss | Error | Add | Update | Evict | Delete
deriving DecidableEq

/-- Type `Cache[K, V]` together with the heap its pointers live in. -/
structure Cache (K V : Type) where
  index : AList (fun _ : K => Option Ptr)
  head : Option Ptr
  tail : Option Ptr
  maxsize : Nat
  size : Nat
  metrics : List Event
  pool : List (Option Ptr)
  mem : Ptr → cacheItem K V
  brk : Ptr

/-- Type `options` of `options.go` (the two sinks carry no state of the model). -/
structure options where
  maxsize : Nat

/-- Type `Option` of `options.go`. -/
inductive CacheOption where
  | WithLogger
  | WithMaxSize (size : Nat)
  | WithMetrics

/-- Method `apply` of the three option types. -/
def CacheOption.apply : CacheOption → options → options
  | .WithLogger, opts => opts
  | .WithMaxSize size, _ => { maxsize := size }
  | .WithMetrics, opts => opts

section defs

variable {K V : Type}

/-- The zero node `new(cacheItem[K, V])`. -/
def zeroItem [Inhabited K] [Inhabited V] : cacheItem K V :=
  { prev := none, next := none, key := default, value := default, expiration := 0 }

/-- Function `NewCache`. -/
def NewCache [DecidableEq K] [Inhabited K] [Inhabited V] (o : List CacheOption) : Cache K V :=
  let local0 : options := { maxsize := 1000 }
  let local1 := o.foldl (fun opts option => option.apply opts) local0
  { index := ∅, head := none, tail := none, maxsize := local1.maxsize, size := 0,
    metrics := [], pool := [], mem := fun _ => zeroItem, brk := 0 }

/-- Assignment to fields of the node at address `a`. -/
def Cache.modify (c : Cache K V) (a : Ptr) (f : cacheItem K V → cacheItem K V) : Cache K V :=
  { c with mem := Function.update c.mem a (f (c.mem a)) }

/-- Statement `a.prev = p`. -/
def Cache.wPrev (c : Cache K V) (a : Ptr) (p : Option Ptr) : Cache K V :=
  c.modify a fun it => { it with prev := p }

/-- Statement `a.next = n`. -/
def Cache.wNext (c : Cache K V) (a : Ptr) (n : Option Ptr) : Cache K V :=
  c.modify a fun it => { it with next := n }

/-- Statement `a.key = k`. -/
def Cache.wKey (c : Cache K V) (a : Ptr) (k : K) : Cache K V :=
  c.modify a fun it => { it with key := k }

/-- Statement `a.value = v`. -/
def Cache.wValue (c : Cache K V) (a : Ptr) (v : V) : Cache K V :=
  c.modify a fun it => { it with value := v }

/-- Statement `a.expiration = e`. -/
def Cache.wExpiration (c : Cache K V) (a : Ptr) (e : Time) : Cache K V :=
  c.modify a fun it => { it with expiration := e }

/-- A call on the metrics sink. -/
def Cache.emit (c : Cache K V) (e : Event) : Cache K V :=
  { c with metrics := c.metrics ++ [e] }

/-- Statement `c.pool.Put(item)`. -/
def Cache.poolPut (c : Cache K V) (item : Option Ptr) : Cache K V :=
  { c with pool := item :: c.pool }

/-- Expression `c.pool.Get().(*cacheItem[K, V])`. -/
def Cache.poolGet [Inhabited K] [Inhabited V] (c : Cache K V) : Option Ptr × Cache K V :=
  match c.pool with
  | item :: rest => (item, { c with pool := rest })
  | [] => (some c.brk, { c with mem := Function.update c.mem c.brk zeroItem, brk := c.brk + 1 })

/-- Decrement `c.size--` of a `uint`: it wraps around at zero. -/
def udec (n : Nat) : Nat := if n = 0 then 2 ^ 64 - 1 else n - 1

/-- Method `movetohead` (cache.go, lines 102-119). -/
def Cache.movetohead [DecidableEq K] (c : Cache K V) (key : K) : Cache K V :=
  match c.index.lookup key with
  | some (some item) =>
    if (c.mem item).next = none then
      let c := { c with tail := (c.mem item).prev }
      let c := match c.tail with
        | some t => c.wNext t none
        | none => c
      let c := c.wPrev item none
      let c := c.wNext item c.head
      let c := match c.head with
        | some h => c.wPrev h (some item)
        | none => c
      { c with head := some item }
    else c
  | _ => c

/-- The unlinking block shared by `deleteexpired` (lines 125-138) and `Delete`
(lines 227-240). -/
def Cache.unlink (c : Cache K V) (item : Ptr) : Cache K V :=
  let c := match (c.mem item).next with
    | some n => c.wPrev n (c.mem item).prev
    | none => c
  let c := match (c.mem item).prev with
    | some p => c.wNext p (c.mem item).next
    | none => c
  let c := if c.tail = some item then { c with tail := (c.mem item).prev } else c
  let c := if c.head = some item then { c with head := (c.mem item).next } else c
  let c := c.wPrev item none
  c.wNext item none

/-- Method `deleteexpired` (cache.go, lines 121-153). -/
def Cache.deleteexpired [DecidableEq K] (c : Cache K V) (key : K) (tm : Time) : Cache K V :=
  match c.index.lookup key with
  | some item =>
    let c := match item with
      | some it => if (c.mem it).expiration < tm then c.unlink it else c
      | none => c.emit Event.Error
    let c := { c with index := c.index.erase key }
    let c := c.poolPut item
    if c.size > 0 then { c with size := c.size - 1 } else c.emit Event.Error
  | none => c

/-- Method `Get` (cache.go, lines 61-100); `now` is the reading of `time.Now()`. -/
def Cache.Get [DecidableEq K] [Inhabited V] (c : Cache K V) (key : K) (now : Time) :
    (V × Bool) × Cache K V :=
  match c.index.lookup key with
  | some (some item) =>
    if (c.mem item).expiration > now then
      let value := (c.mem item).value
      let movetohead : Bool := decide ((c.mem item).next = none) && decide (c.size > 1)
      let c := if movetohead then c.movetohead key else c
      ((value, true), c.emit Event.Hit)
    else
      let c := c.deleteexpired key now
      ((default, false), ((c.emit Event.Miss).emit Event.Evict).emit Event.Delete)
  | some none => ((default, false), (c.emit Event.Error).emit Event.Miss)
  | none => ((default, false), c.emit Event.Miss)

/-- The branch of `Set` for a key found in the index (cache.go, lines 162-178). -/
def Cache.setFound (c : Cache K V) (item : Option Ptr) (v : V) (expiration : Time) :
    Option (Cache K V) :=
  match item with
  | none => none
  | some it =>
    let c := c.wValue it v
    let c := c.wExpiration it expiration
    if (c.mem it).next = none ∧ c.size > 1 then
      let c := { c with tail := (c.mem it).prev }
      match c.tail with
      | none => none
      | some t =>
        let c := c.wNext t none
        let c := c.wPrev it none
        let c := c.wNext it c.head
        match c.head with
        | none => none
        | some h =>
          let c := c.wPrev h (some it)
          let c := { c with head := some it }
          some (c.emit Event.Update)
    else some (c.emit Event.Update)

/-- The eviction block of `Set` (cache.go, lines 180-197). -/
def Cache.evict [DecidableEq K] (c : Cache K V) : Cache K V :=
  if c.size = c.maxsize then
    match c.tail with
    | some item =>
      let c := { c with tail := (c.mem item).prev }
      let c := match c.tail with
        | some t => c.wNext t none
        | none => { c with head := none }
      let c := { c with size := udec c.size }
      let c := { c with index := c.index.erase (c.mem item).key }
      let c := c.wPrev item none
      let c := c.poolPut (some item)
      (c.emit Event.Delete).emit Event.Evict
    | none => c
  else c

/-- The insertion block of `Set` (cache.go, lines 199-216). -/
def Cache.addHead [DecidableEq K] [Inhabited K] [Inhabited V] (c : Cache K V) (key : K) (v : V)
    (expiration : Time) : Option (Cache K V) :=
  match c.poolGet with
  | (none, _) => none
  | (some item, c) =>
    let c := c.wKey item key
    let c := c.wValue item v
    let c := c.wExpiration item expiration
    let c := c.wPrev item none
    let c := c.wNext item c.head
    let c := match c.head with
      | some h => c.wPrev h (some item)
      | none => { c with tail := some item }
    let c := { c with head := some item }
    let c := { c with index := c.index.insert key (some item) }
    let c := { c with size := c.size + 1 }
    some (c.emit Event.Add)

/-- Method `Set` (cache.go, lines 156-217); `now` is the reading of `time.Now()`. -/
def Cache.Set [DecidableEq K] [Inhabited K] [Inhabited V] (c : Cache K V) (key : K) (v : V)
    (ttl : Int) (now : Time) : Option (Cache K V) :=
  let expiration := now + ttl
  match c.index.lookup key with
  | some item => c.setFound item v expiration
  | none => (c.evict).addHead key v expiration

/-- One round of the loop of `Delete` (cache.go, lines 225-252). -/
def Cache.deleteKey [DecidableEq K] (c : Cache K V) (k : K) : Cache K V :=
  match c.index.lookup k with
  | some item =>
    let c := match item with
      | some it => (c.unlink it).poolPut (some it)
      | none => c
    let c := { c with index := c.index.erase k }
    let c := c.emit Event.Delete
    if c.size > 0 then { c with size := c.size - 1 } else c.emit Event.Error
  | none => c

/-- Method `Delete` (cache.go, lines 220-254). -/
def Cache.Delete [DecidableEq K] (c : Cache K V) (key : List K) : Cache K V :=
  key.foldl Cache.deleteKey c

/-- The loop `for c.head != nil` of `Reset` (cache.go, lines 261-268), run for at most
`fuel` rounds; `none` when the loop has not ended by then. -/
def Cache.resetLoop : Nat → Cache K V → Option (Cache K V)
  | 0, c => if c.head = none then some c else none
  | fuel + 1, c =>
    match c.head with
    | none => some c
    | some item =>
      let c := { c with head := (c.mem item).next }
      let c := c.wPrev item none
      let c := c.wNext item none
      let c := c.poolPut (some item)
      Cache.resetLoop fuel (c.emit Event.Delete)

/-- Method `Reset` (cache.go, lines 257-276). -/
def Cache.Reset [DecidableEq K] (c : Cache K V) (fuel : Nat) : Option (error × Cache K V) :=
  match c.resetLoop fuel with
  | none => none
  | some c => some (none, { c with index := ∅, tail := none, size := 0 })

/-! ### Observations on a state -/

/-- The addresses met when following `next` from `cur`, at most `fuel` of them. -/
def walk (mem : Ptr → cacheItem K V) : Nat → Option Ptr → List Ptr
  | 0, _ => []
  | _ + 1, none => []
  | fuel + 1, some a => a :: walk mem fuel (mem a).next

/-- The nodes of the list, head first. -/
def Cache.nodes (c : Cache K V) : List Ptr := walk c.mem c.size c.head

/-- The keys of the list, head first. -/
def Cache.keys (c : Cache K V) : List K := c.nodes.map fun a => (c.mem a).key

/-- The value and expiration stored for a key. -/
def Cache.entry [DecidableEq K] (c : Cache K V) (k : K) : Option (V × Time) :=
  match c.index.lookup k with
  | some (some a) => some ((c.mem a).value, (c.mem a).expiration)
  | _ => none

/-- Segment of a doubly linked list: following `next` from `cur` visits exactly `l` and
then arrives at `e`, and every node points back to the one before it (`p` for the first). -/
def seg (mem : Ptr → cacheItem K V) : Option Ptr → List Ptr → Option Ptr → Option Ptr → Prop
  | _, [], cur, e => cur = e
  | p, a :: l, cur, e => cur = some a ∧ (mem a).prev = p ∧ seg mem (some a) l (mem a).next e

instance seg.dec (mem : Ptr → cacheItem K V) :
    ∀ (p : Option Ptr) (l : List Ptr) (cur e : Option Ptr), Decidable (seg mem p l cur e)
  | _, [], cur, e => inferInstanceAs (Decidable (cur = e))
  | p, a :: l, cur, e =>
    have := seg.dec mem (some a) l (mem a).next e
    inferInstanceAs (Decidable (cur = some a ∧ (mem a).prev = p ∧ seg mem (some a) l (mem a).next e))

/-- A recycled pointer is usable: not nil, allocated, and not linked in the list. -/
def freeOk (brk : Ptr) (l : List Ptr) : Option Ptr → Prop
  | none => False
  | some a => a < brk ∧ a ∉ l

instance freeOk.dec (brk : Ptr) (l : List Ptr) : ∀ p, Decidable (freeOk brk l p)
  | none => inferInstanceAs (Decidable False)
  | some a => inferInstanceAs (Decidable (a < brk ∧ a ∉ l))

/-- Well-formedness of a cache whose list, head first, is `l`. -/
structure WFl [DecidableEq K] (c : Cache K V) (l : List Ptr) : Prop where
  /-- the links are mutually consistent and the list ends -/
  links : seg c.mem none l c.head none
  /-- the tail is the last node -/
  tail_eq : c.tail = l.getLast?
  /-- the list is acyclic -/
  nodup : l.Nodup
  /-- size is the length of the list -/
  size_eq : c.size = l.length
  /-- size is the number of index keys -/
  card_eq : c.index.keys.length = c.size
  /-- every node of the list is indexed under its key -/
  indexed : ∀ a ∈ l, c.index.lookup (c.mem a).key = some (some a)
  /-- every index key is the key of a node of the list -/
  listed : ∀ k ∈ c.index.keys, ∃ a ∈ l, (c.mem a).key = k
  /-- recycled nodes are allocated, not nil and not in the list -/
  pool_ok : ∀ p ∈ c.pool, freeOk c.brk l p
  /-- no node was recycled twice -/
  pool_nodup : c.pool.Nodup
  /-- the nodes of the list are allocated -/
  alloc : ∀ a ∈ l, a < c.brk

instance WFl.dec [DecidableEq K] (c : Cache K V) (l : List Ptr) : Decidable (WFl c l) :=
  decidable_of_iff (seg c.mem none l c.head none ∧ c.tail = l.getLast? ∧ l.Nodup ∧
      c.size = l.length ∧ c.index.keys.length = c.size ∧
      (∀ a ∈ l, c.index.lookup (c.mem a).key = some (some a)) ∧
      (∀ k ∈ c.index.keys, ∃ a ∈ l, (c.mem a).key = k) ∧
      (∀ p ∈ c.pool, freeOk c.brk l p) ∧ c.pool.Nodup ∧ ∀ a ∈ l, a < c.brk)
    ⟨fun h => ⟨h.1, h.2.1, h.2.2.1, h.2.2.2.1, h.2.2.2.2.1, h.2.2.2.2.2.1, h.2.2.2.2.2.2.1,
      h.2.2.2.2.2.2.2.1, h.2.2.2.2.2.2.2.2.1, h.2.2.2.2.2.2.2.2.2⟩,
     fun h => ⟨h.links, h.tail_eq, h.nodup, h.size_eq, h.card_eq, h.indexed, h.listed,
      h.pool_ok, h.pool_nodup, h.alloc⟩⟩

/-- Well-formedness: the invariants of the data model (the index keys are exactly the
keys of the nodes of the list, without duplicates; the list is acyclic, its links are
mutually consistent and `tail` is its last node; `size` is the length of the list and the
number of index keys), stated on the list walked from `head`, together with the soundness
of the free list that the data model leaves implicit: a recycled node is allocated, is not
nil, is not linked in the list and was recycled once. -/
def WF [DecidableEq K] (c : Cache K V) : Prop := WFl c c.nodes

instance WF.dec [DecidableEq K] (c : Cache K V) : Decidable (WF c) :=
  inferInstanceAs (Decidable (WFl c c.nodes))

/-- The last node of `l`, or `p` when `l` is empty. -/
def lastOr (p : Option Ptr) (l : List Ptr) : Option Ptr := l.getLast?.or p

/-! ### Auxiliary definitions of the proofs -/

/-- The relinking of the tail `a` in front of the head `h`; `t` is the node before `a`
(the statements of lines 106-115 and 168-173 when no pointer is nil). -/
def relinked (c : Cache K V) (a t h : Ptr) : Cache K V :=
  let c := { c with tail := some t }
  let c := c.wNext t none
  let c := c.wPrev a none
  let c := c.wNext a c.head
  let c := c.wPrev h (some a)
  { c with head := some a }

/-- What `Set` does to a well-formed cache for a key that is present. -/
structure SetFoundSpec (c c2 : Cache K V) (a : Ptr) (v : V) (e : Time) : Prop where
  index_eq : c2.index = c.index
  size_eq : c2.size = c.size
  maxsize_eq : c2.maxsize = c.maxsize
  metrics_eq : c2.metrics = c.metrics ++ [Event.Update]
  value_eq : (c2.mem a).value = v
  expiration_eq : (c2.mem a).expiration = e
  key_eq : ∀ b, (c2.mem b).key = (c.mem b).key
  other_eq : ∀ b, b ≠ a → (c2.mem b).value = (c.mem b).value ∧
    (c2.mem b).expiration = (c.mem b).expiration

/-- What the eviction block of `Set` does when it removes the tail `a`. -/
structure EvictSpec [DecidableEq K] (c c2 : Cache K V) (a : Ptr) : Prop where
  index_eq : c2.index = c.index.erase (c.mem a).key
  size_eq : c2.size = c.size - 1
  maxsize_eq : c2.maxsize = c.maxsize
  metrics_eq : c2.metrics = c.metrics ++ [Event.Delete, Event.Evict]
  key_eq : ∀ b, (c2.mem b).key = (c.mem b).key
  value_eq : ∀ b, (c2.mem b).value = (c.mem b).value
  expiration_eq : ∀ b, (c2.mem b).expiration = (c.mem b).expiration

/-- What the insertion block of `Set` does: the new node is `a`. -/
structure AddSpec [DecidableEq K] (c c2 : Cache K V) (a : Ptr) (k : K) (v : V) (e : Time) :
    Prop where
  index_eq : c2.index = c.index.insert k (some a)
  size_eq : c2.size = c.size + 1
  maxsize_eq : c2.maxsize = c.maxsize
  metrics_eq : c2.metrics = c.metrics ++ [Event.Add]
  head_eq : c2.head = some a
  key_new : (c2.mem a).key = k
  value_new : (c2.mem a).value = v
  expiration_new : (c2.mem a).expiration = e
  key_eq : ∀ b, b ≠ a → (c2.mem b).key = (c.mem b).key
  value_eq : ∀ b, b ≠ a → (c2.mem b).value = (c.mem b).value
  expiration_eq : ∀ b, b ≠ a → (c2.mem b).expiration = (c.mem b).expiration

/-- The state after the insertion block of `Set` has linked the node `a` in front. -/
def added [DecidableEq K] (c1 : Cache K V) (a : Ptr) (k : K) (v : V) (e : Time) : Cache K V :=
  let c := c1.wKey a k
  let c := c.wValue a v
  let c := c.wExpiration a e
  let c := c.wPrev a none
  let c := c.wNext a c.head
  let c := match c.head with
    | some h => c.wPrev h (some a)
    | none => { c with tail := some a }
  let c := { c with head := some a }
  let c := { c with index := c.index.insert k (some a) }
  let c := { c with size := c.size + 1 }
  c.emit Event.Add

/-- What one round of `Delete` does for a key whose node is `a`. -/
structure DeleteSpec [DecidableEq K] (c c2 : Cache K V) (a : Ptr) : Prop where
  index_eq : c2.index = c.index.erase (c.mem a).key
  size_eq : c2.size = c.size - 1
  maxsize_eq : c2.maxsize = c.maxsize
  metrics_eq : c2.metrics = c.metrics ++ [Event.Delete]
  key_eq : ∀ b, (c2.mem b).key = (c.mem b).key
  value_eq : ∀ b, (c2.mem b).value = (c.mem b).value
  expiration_eq : ∀ b, (c2.mem b).expiration = (c.mem b).expiration

/-- What a hitting `Get` does to a well-formed cache. -/
structure HitSpec (c c2 : Cache K V) : Prop where
  index_eq : c2.index = c.index
  size_eq : c2.size = c.size
  maxsize_eq : c2.maxsize = c.maxsize
  metrics_eq : c2.metrics = c.metrics ++ [Event.Hit]
  key_eq : ∀ b, (c2.mem b).key = (c.mem b).key
  value_eq : ∀ b, (c2.mem b).value = (c.mem b).value
  expiration_eq : ∀ b, (c2.mem b).expiration = (c.mem b).expiration

/-- What `Reset` leaves behind. -/
structure ResetSpec [DecidableEq K] (c c2 : Cache K V) : Prop where
  index_eq : c2.index = ∅
  head_eq : c2.head = none
  tail_eq : c2.tail = none
  size_eq : c2.size = 0
  maxsize_eq : c2.maxsize = c.maxsize
  metrics_eq : c2.metrics = c.metrics ++ List.replicate c.size Event.Delete

/-! ### Sequences of calls -/

/-- A sequence of `Set` calls, each given by its key, value, ttl and clock reading;
`none` when one of them faults. -/
def runSets [DecidableEq K] [Inhabited K] [Inhabited V] (c : Cache K V) :
    List (K × V × Int × Time) → Option (Cache K V)
  | [] => some c
  | (k, v, ttl, now) :: rest => (c.Set k v ttl now).bind fun c2 => runSets c2 rest

/-- Example state: the cache of capacity 3 after `Set(1, 10)`, `Set(2, 20)`, `Set(3, 30)`,
each at time 0 with ttl 5; its list is 3, 2, 1. -/
def exCache : Cache Nat Nat :=
  (runSets (NewCache [CacheOption.WithMaxSize 3]) [(1, 10, 5, 0), (2, 20, 5, 0), (3, 30, 5, 0)]).getD
    (NewCache [])

/-- A call of the public interface, with the clock reading it sees. -/
inductive Op (K V : Type) where
  | set (key : K) (v : V) (ttl : Int) (now : Time)
  | get (key : K) (now : Time)
  | delete (keys : List K)

/-- A cache together with the history of touches: `clock` counts the calls made so far and
`touch k` is the number of the last call that touched `k` (a `Set` or a hitting `Get`). -/
structure Run (K V : Type) where
  cache : Cache K V
  touch : K → Nat
  clock : Nat

/-- The run that starts on a fresh cache of the given capacity. -/
def freshRun [DecidableEq K] [Inhabited K] [Inhabited V] (maxSize : Nat) : Run K V :=
  { cache := NewCache [CacheOption.WithMaxSize maxSize], touch := fun _ => 0, clock := 0 }

/-- One call of a run; `none` when the call faults. -/
def Run.step [DecidableEq K] [Inhabited K] [Inhabited V] (r : Run K V) :
    Op K V → Option (Run K V)
  | .set k v ttl now =>
    (r.cache.Set k v ttl now).map fun c =>
      { cache := c, touch := Function.update r.touch k (r.clock + 1), clock := r.clock + 1 }
  | .get k now =>
    some { cache := (r.cache.Get k now).2,
           touch := if (r.cache.Get k now).1.2 then Function.update r.touch k (r.clock + 1)
             else r.touch,
           clock := r.clock + 1 }
  | .delete ks => some { cache := r.cache.Delete ks, touch := r.touch, clock := r.clock + 1 }

/-- A sequence of calls. -/
def Run.steps [DecidableEq K] [Inhabited K] [Inhabited V] (r : Run K V) :
    List (Op K V) → Option (Run K V)
  | [] => some r
  | op :: rest => (r.step op).bind fun r2 => r2.steps rest

/-- The call, if it is a `Get`, hits. -/
def hitCall [DecidableEq K] [Inhabited V] (c : Cache K V) : Op K V → Bool
  | .get k now => (c.Get k now).1.2
  | _ => true

/-- No call of the sequence faults and every `Get` in it hits. -/
def Run.hitting [DecidableEq K] [Inhabited K] [Inhabited V] (r : Run K V) :
    List (Op K V) → Bool
  | [] => true
  | op :: rest =>
    hitCall r.cache op && match r.step op with
      | some r2 => r2.hitting rest
      | none => false

/-- The call touches no key strictly inside the list: a `Set` is of a key that is not
resident or is at the head or at the tail, a `Get` hits a key at the head or at the tail. -/
def edgeCall [DecidableEq K] [Inhabited V] (c : Cache K V) : Op K V → Bool
  | .set k _ _ _ =>
    decide (k ∈ c.index.keys → (c.keys.head? = some k ∨ c.keys.getLast? = some k))
  | .get k now =>
    (c.Get k now).1.2 && decide (c.keys.head? = some k ∨ c.keys.getLast? = some k)
  | .delete _ => true

/-- No call of the sequence faults or touches a key strictly inside the list, and every
`Get` in it hits. -/
def Run.edgeOnly [DecidableEq K] [Inhabited K] [Inhabited V] (r : Run K V) :
    List (Op K V) → Bool
  | [] => true
  | op :: rest =>
    edgeCall r.cache op && match r.step op with
      | some r2 => r2.edgeOnly rest
      | none => false

/-- The list, head first, is in strictly decreasing recency of touch. -/
def Run.ordered (r : Run K V) : Prop :=
  (r.cache.keys.map r.touch).Pairwise fun x y => y < x

/-- Example run: capacity 3, `Set` of 1, 2, 3, then `Get(2)` and `Get(1)`, all hits. -/
def exOps : List (Op Nat Nat) :=
  [Op.set 1 10 5 0, Op.set 2 20 5 0, Op.set 3 30 5 0, Op.get 2 1, Op.get 1 1]

instance Run.ordered.dec (r : Run K V) : Decidable r.ordered :=
  inferInstanceAs (Decidable ((r.cache.keys.map r.touch).Pairwise fun x y => y < x))

/-- The invariant of a run whose touches are all at the head or at the tail. -/
structure RunInv [DecidableEq K] (r : Run K V) : Prop where
  wf : WF r.cache
  ordered : r.ordered
  bounded : ∀ x ∈ r.cache.keys, r.touch x ≤ r.clock

/-- The states that a fresh cache reaches by calls of `Set` that return, `Delete`, `Reset`
whose loop ends, and `Get` that hit or that miss on a key that is not in the index. -/
inductive Reach [DecidableEq K] [Inhabited K] [Inhabited V] : Cache K V → Prop where
  | fresh (o : List CacheOption) : Reach (NewCache o)
  | set {c c2 : Cache K V} (k : K) (v : V) (ttl : Int) (now : Time) :
      Reach c → c.Set k v ttl now = some c2 → Reach c2
  | delete {c : Cache K V} (ks : List K) : Reach c → Reach (c.Delete ks)
  | reset {c c2 : Cache K V} (fuel : Nat) (err : error) :
      Reach c → c.Reset fuel = some (err, c2) → Reach c2
  | get {c : Cache K V} (k : K) (now : Time) :
      Reach c → ((c.Get k now).1.2 = true ∨ c.index.lookup k = none) → Reach (c.Get k now).2

/-- The events that the sink received between the state `c` and the later state `c2`. -/
def newEvents (c c2 : Cache K V) : List Event := c2.metrics.drop c.metrics.length

/-- The counter `count` of the test sink `basicmetrics` (cache_test.go, lines 27-38): `Add`
raises it by one and `Delete` lowers it by one. -/
def basicmetricsCount (c : Cache K V) : Int :=
  (c.metrics.count Event.Add : Int) - (c.metrics.count Event.Delete : Int)

/-- Statement `c.index[k] = nil` of the tests (cache_test.go, lines 78, 108, 114, 125). -/
def Cache.corrupt [DecidableEq K] (c : Cache K V) (k : K) : Cache K V :=
  { c with index := c.index.insert k none }

/-- A call of the public interface, `Reset` included. -/
inductive Call (K V : Type) where
  | op (o : Op K V)
  | reset

/-- One call on a cache; `none` when the call faults. The loop of `Reset` is given one
round more than there are allocated nodes. -/
def Cache.call [DecidableEq K] [Inhabited K] [Inhabited V] (c : Cache K V) :
    Call K V → Option (Cache K V)
  | .op (.set k v ttl now) => c.Set k v ttl now
  | .op (.get k now) => some (c.Get k now).2
  | .op (.delete ks) => some (c.Delete ks)
  | .reset => (c.Reset (c.brk + 1)).map Prod.snd

/-- A sequence of calls on a cache. -/
def Cache.calls [DecidableEq K] [Inhabited K] [Inhabited V] (c : Cache K V) :
    List (Call K V) → Option (Cache K V)
  | [] => some c
  | x :: rest => (c.call x).bind fun c2 => c2.calls rest

/-- The call is not a `Get` at exactly the expiration instant of the entry it looks up. -/
def offInstant [DecidableEq K] (c : Cache K V) : Call K V → Bool
  | .op (.get k now) =>
    match c.entry k with
    | some (_, e) => decide (e ≠ now)
    | none => true
  | _ => true

/-- No call of the sequence faults or is a `Get` at exactly the expiration instant of the
entry it looks up. -/
def Cache.offInstants [DecidableEq K] [Inhabited K] [Inhabited V] (c : Cache K V) :
    List (Call K V) → Bool
  | [] => true
  | x :: rest =>
    offInstant c x && match c.call x with
      | some c2 => c2.offInstants rest
      | none => false

/-- Example state: the fresh cache of capacity 3 after `Set(1, 10)` at time 0 with ttl 5;
key 1 is the sole entry, head and tail of the list. -/
def exSole : Cache Nat Nat :=
  ((NewCache [CacheOption.WithMaxSize 3]).Set 1 10 5 0).getD (NewCache [])

/-- What a `Get` has settled under the shared lock when it calls `RUnlock`: a hit with the
value read and the flag `movetohead` (cache.go, lines 68-70), an expired entry (line 81), or
a miss (lines 91-97). -/
inductive GetPlan (V : Type) where
  | hit (value : V) (movetohead : Bool)
  | expired
  | miss

/-- Method `Get`, the part run under the shared lock (cache.go, lines 63-70, 81, 91-97): the
lookup, the expiration check and, on a hit, the reading of the value and of the flag
`movetohead`. The cache is only read; on a nil node `Error` is emitted. -/
def Cache.getShared [DecidableEq K] (c : Cache K V) (key : K) (now : Time) :
    GetPlan V × Cache K V :=
  match c.index.lookup key with
  | some (some item) =>
    if (c.mem item).expiration > now then
      let value := (c.mem item).value
      let movetohead : Bool := decide ((c.mem item).next = none) && decide (c.size > 1)
      (GetPlan.hit value movetohead, c)
    else
      (GetPlan.expired, c)
  | some none => (GetPlan.miss, c.emit Event.Error)
  | none => (GetPlan.miss, c)

/-- Method `Get`, the part run after `RUnlock` (cache.go, lines 72-77, 82-88, 98-100): what
is done under the exclusive lock, if anything, the metrics calls and the result. -/
def Cache.getFinish [DecidableEq K] [Inhabited V] (c : Cache K V) (key : K) (now : Time) :
    GetPlan V → (V × Bool) × Cache K V
  | GetPlan.hit value movetohead =>
    let c := if movetohead then c.movetohead key else c
    ((value, true), c.emit Event.Hit)
  | GetPlan.expired =>
    let c := c.deleteexpired key now
    ((default, false), ((c.emit Event.Miss).emit Event.Evict).emit Event.Delete)
  | GetPlan.miss => ((default, false), c.emit Event.Miss)

/-- A stretch of a run of several goroutines during which one of them holds the lock: a whole
`Set`, `Delete` or `Reset` (exclusive lock for the full call), the first part of the `Get` of
goroutine `g`, or the rest of that `Get`. Between two stretches the lock is free. -/
inductive Stretch (K V : Type) where
  | set (key : K) (v : V) (ttl : Int) (now : Time)
  | delete (keys : List K)
  | reset
  | getShared (g : Nat) (key : K) (now : Time)
  | getFinish (g : Nat)

/-- The cache shared by the goroutines, with the `Get` calls that have released the shared
lock and not yet finished: goroutine, key, clock reading and what was settled. -/
structure Shared (K V : Type) where
  cache : Cache K V
  gets : List (Nat × (K × Time × GetPlan V))

/-- One stretch of a run; `none` when the call faults, when a goroutine starts a `Get`
while it is inside one, or finishes a `Get` it has not started. The loop of `Reset` is given
one round more than there are allocated nodes. -/
def Shared.step [DecidableEq K] [Inhabited K] [Inhabited V] (s : Shared K V) :
    Stretch K V → Option (Shared K V)
  | Stretch.set key v ttl now => (s.cache.Set key v ttl now).map fun c => { s with cache := c }
  | Stretch.delete keys => some { s with cache := s.cache.Delete keys }
  | Stretch.reset => (s.cache.Reset (s.cache.brk + 1)).map fun r => { s with cache := r.2 }
  | Stretch.getShared g key now =>
    match s.gets.lookup g with
    | some _ => none
    | none =>
      some { cache := (s.cache.getShared key now).2
             gets := (g, key, now, (s.cache.getShared key now).1) :: s.gets }
  | Stretch.getFinish g =>
    match s.gets.lookup g with
    | some (key, now, plan) =>
      some { cache := (s.cache.getFinish key now plan).2
             gets := s.gets.filter fun x => x.1 ≠ g }
    | none => none

/-- A run of several goroutines: the stretches in the order in which the lock was taken. -/
def Shared.run [DecidableEq K] [Inhabited K] [Inhabited V] (s : Shared K V) :
    List (Stretch K V) → Option (Shared K V)
  | [] => some s
  | x :: rest => (s.step x).bind fun s2 => s2.run rest

/-- The fresh cache of capacity 3 shared by the goroutines, no `Get` under way. -/
def exShared : Shared Nat Nat :=
  { cache := NewCache [CacheOption.WithMaxSize 3], gets := [] }

/-- The three calls `Set(1, 10)`, `Set(2, 20)`, `Set(3, 30)`, each at time 0 with ttl 5. -/
def exFill : List (Stretch Nat Nat) :=
  [Stretch.set 1 10 5 0, Stretch.set 2 20 5 0, Stretch.set 3 30 5 0]

end defs

/-! ### Lemmas on segments and on the operations -/

section lemmas

variable {K V : Type}

@[simp] theorem lastOr_nil (p : Option Ptr) : lastOr p [] = p := by simp [lastOr]

@[simp] theorem lastOr_concat (p : Option Ptr) (l : List Ptr) (a : Ptr) :
    lastOr p (l ++ [a]) = some a := by simp [lastOr]

theorem lastOr_cons (p : Option Ptr) (a : Ptr) (l : List Ptr) :
    lastOr p (a :: l) = lastOr (some a) l := by
  cases l with
  | nil => simp [lastOr]
  | cons b l =>
    cases h : (b :: l).getLast? with
    | none => simp at h
    | some x => simp [lastOr, List.getLast?_cons_cons, h]

theorem lastOr_none (l : List Ptr) : lastOr none l = l.getLast? := by
  cases h : l.getLast? <;> simp [lastOr, h]

theorem seg_nil (mem : Ptr → cacheItem K V) (p cur e : Option Ptr) :
    seg mem p [] cur e ↔ cur = e := Iff.rfl

theorem seg_cons (mem : Ptr → cacheItem K V) (p cur e : Option Ptr) (a : Ptr) (l : List Ptr) :
    seg mem p (a :: l) cur e ↔
      cur = some a ∧ (mem a).prev = p ∧ seg mem (some a) l (mem a).next e := Iff.rfl

/-- A segment only depends on the links of its own nodes. -/
theorem seg_congr {mem mem2 : Ptr → cacheItem K V} {l : List Ptr}
    (h : ∀ a ∈ l, (mem2 a).prev = (mem a).prev ∧ (mem2 a).next = (mem a).next)
    {p cur e : Option Ptr} (hs : seg mem p l cur e) : seg mem2 p l cur e := by
  induction l generalizing p cur with
  | nil => exact hs
  | cons a l ih =>
    obtain ⟨h1, h2, h3⟩ := hs
    have ha := h a (List.mem_cons_self a l)
    refine ⟨h1, by rw [ha.1, h2], ?_⟩
    rw [ha.2]
    exact ih (fun b hb => h b (List.mem_cons_of_mem a hb)) h3

theorem seg_append {mem : Ptr → cacheItem K V} {l1 l2 : List Ptr} {p cur e : Option Ptr} :
    seg mem p (l1 ++ l2) cur e ↔
      ∃ mid, seg mem p l1 cur mid ∧ seg mem (lastOr p l1) l2 mid e := by
  induction l1 generalizing p cur with
  | nil => simp [seg_nil]
  | cons a l ih =>
    simp only [List.cons_append, seg_cons, ih, lastOr_cons]
    constructor
    · rintro ⟨h1, h2, mid, h3, h4⟩
      exact ⟨mid, ⟨h1, h2, h3⟩, h4⟩
    · rintro ⟨mid, ⟨h1, h2, h3⟩, h4⟩
      exact ⟨h1, h2, mid, h3, h4⟩

/-- Walking a complete segment from its start gives back its nodes. -/
theorem walk_of_seg {mem : Ptr → cacheItem K V} {l : List Ptr} {p cur : Option Ptr}
    (hs : seg mem p l cur none) (fuel : Nat) (hf : l.length ≤ fuel) : walk mem fuel cur = l := by
  induction l generalizing p cur fuel with
  | nil =>
    have : cur = none := hs
    subst this
    cases fuel <;> rfl
  | cons a l ih =>
    obtain ⟨h1, _, h3⟩ := hs
    subst h1
    cases fuel with
    | zero => simp at hf
    | succ n =>
      simp only [walk]
      rw [ih h3 n (by simpa using hf)]

theorem seg_head {mem : Ptr → cacheItem K V} {l : List Ptr} {p cur e : Option Ptr}
    (hs : seg mem p l cur e) : cur = l.head?.or e := by
  cases l with
  | nil => simpa using hs
  | cons a l => simpa using hs.1

/-- Redirecting the `next` of the last node of a segment changes where it ends. -/
theorem seg_setNext_last {mem : Ptr → cacheItem K V} {l : List Ptr} {t : Ptr}
    {p cur e : Option Ptr} (hs : seg mem p (l ++ [t]) cur e) (e2 : Option Ptr)
    {mem2 : Ptr → cacheItem K V}
    (hm : ∀ a ∈ l, (mem2 a).prev = (mem a).prev ∧ (mem2 a).next = (mem a).next)
    (ht1 : (mem2 t).prev = (mem t).prev) (ht2 : (mem2 t).next = e2) :
    seg mem2 p (l ++ [t]) cur e2 := by
  rw [seg_append] at hs ⊢
  obtain ⟨mid, h1, h2, h3, _⟩ := hs
  exact ⟨mid, seg_congr hm h1, h2, by rw [ht1, h3], ht2⟩

/-- Redirecting the `prev` of the first node of a segment changes what it follows. -/
theorem seg_setPrev_first {mem : Ptr → cacheItem K V} {l : List Ptr} {h : Ptr}
    {p cur e : Option Ptr} (hs : seg mem p (h :: l) cur e) (p2 : Option Ptr)
    {mem2 : Ptr → cacheItem K V}
    (hm : ∀ a ∈ l, (mem2 a).prev = (mem a).prev ∧ (mem2 a).next = (mem a).next)
    (hh1 : (mem2 h).prev = p2) (hh2 : (mem2 h).next = (mem h).next) :
    seg mem2 p2 (h :: l) cur e := by
  obtain ⟨h1, _, h3⟩ := hs
  exact ⟨h1, hh1, by rw [hh2]; exact seg_congr hm h3⟩

theorem WF_of_WFl [DecidableEq K] {c : Cache K V} {l : List Ptr} (h : WFl c l) : WF c := by
  have : c.nodes = l := by
    unfold Cache.nodes
    exact walk_of_seg h.links _ (le_of_eq h.size_eq.symm)
  unfold WF
  rw [this]
  exact h

theorem nodes_of_WFl [DecidableEq K] {c : Cache K V} {l : List Ptr} (h : WFl c l) :
    c.nodes = l := walk_of_seg h.links _ (le_of_eq h.size_eq.symm)

/-- In a well-formed cache an index entry points to a node of the list with that key. -/
theorem WFl.lookup_some [DecidableEq K] {c : Cache K V} {l : List Ptr} (h : WFl c l) {k : K}
    {item : Option Ptr} (hk : c.index.lookup k = some item) :
    ∃ a, item = some a ∧ a ∈ l ∧ (c.mem a).key = k := by
  have hmem : k ∈ c.index.keys := by
    rw [← AList.mem_keys, ← AList.lookup_isSome, hk]; rfl
  obtain ⟨a, ha, hka⟩ := h.listed k hmem
  have := h.indexed a ha
  rw [hka, hk] at this
  exact ⟨a, by simpa using this, ha, hka⟩

theorem WFl.key_inj [DecidableEq K] {c : Cache K V} {l : List Ptr} (h : WFl c l) {a b : Ptr}
    (ha : a ∈ l) (hb : b ∈ l) (hab : (c.mem a).key = (c.mem b).key) : a = b := by
  have h1 := h.indexed a ha
  have h2 := h.indexed b hb
  rw [hab, h2] at h1
  simpa using h1.symm

/-- A node of a complete segment whose `next` is nil is the last one. -/
theorem seg_last_of_next_none {mem : Ptr → cacheItem K V} {l : List Ptr} {p cur : Option Ptr}
    (hs : seg mem p l cur none) {a : Ptr} (ha : a ∈ l) (hn : (mem a).next = none) :
    ∃ l0, l = l0 ++ [a] := by
  obtain ⟨l1, l2, rfl⟩ := List.append_of_mem ha
  rw [seg_append] at hs
  obtain ⟨mid, _, _, _, h3⟩ := hs
  rw [hn] at h3
  have := seg_head h3
  cases l2 with
  | nil => exact ⟨l1, rfl⟩
  | cons b l2 => simp at this

/-- The links of the last node of a complete list. -/
theorem seg_concat_last {mem : Ptr → cacheItem K V} {l0 : List Ptr} {a : Ptr}
    {p cur : Option Ptr} (hs : seg mem p (l0 ++ [a]) cur none) :
    seg mem p l0 cur (some a) ∧ (mem a).prev = lastOr p l0 ∧ (mem a).next = none := by
  rw [seg_append] at hs
  obtain ⟨mid, h1, h2, h3, h4⟩ := hs
  subst h2
  exact ⟨h1, h3, h4⟩

/-- Changes that keep the index, the allocator, the keys and the set of nodes. -/
theorem WFl_of_perm [DecidableEq K] {c c2 : Cache K V} {l l2 : List Ptr} (h : WFl c l)
    (hp : l2.Perm l) (hlinks : seg c2.mem none l2 c2.head none)
    (htail : c2.tail = l2.getLast?) (hindex : c2.index = c.index) (hsize : c2.size = c.size)
    (hpool : c2.pool = c.pool) (hbrk : c2.brk = c.brk)
    (hkey : ∀ b, (c2.mem b).key = (c.mem b).key) : WFl c2 l2 where
  links := hlinks
  tail_eq := htail
  nodup := hp.nodup_iff.mpr h.nodup
  size_eq := by rw [hsize, h.size_eq, hp.length_eq]
  card_eq := by rw [hindex, hsize, h.card_eq]
  indexed := fun a ha => by rw [hindex, hkey]; exact h.indexed a (hp.mem_iff.mp ha)
  listed := fun k hk => by
    rw [hindex] at hk
    obtain ⟨a, ha, hka⟩ := h.listed k hk
    exact ⟨a, hp.mem_iff.mpr ha, by rw [hkey, hka]⟩
  pool_ok := fun p hpm => by
    rw [hpool] at hpm
    have := h.pool_ok p hpm
    cases p with
    | none => exact this
    | some a =>
      rw [hbrk]
      exact ⟨this.1, fun hm => this.2 (hp.mem_iff.mp hm)⟩
  pool_nodup := by rw [hpool]; exact h.pool_nodup
  alloc := fun a ha => by rw [hbrk]; exact h.alloc a (hp.mem_iff.mp ha)

theorem relinked_links {c : Cache K V} {l0 : List Ptr} {a t h : Ptr}
    (hs : seg c.mem none (l0 ++ [a]) c.head none) (hnd : (l0 ++ [a]).Nodup)
    (ht : l0.getLast? = some t) (hh : l0.head? = some h) :
    seg (relinked c a t h).mem none (a :: l0) (relinked c a t h).head none := by
  obtain ⟨h1, h2, h3⟩ := seg_concat_last hs
  have hal : a ∉ l0 := by
    intro hm
    have := (List.nodup_append.mp hnd).2.2 hm (List.mem_singleton_self a)
    exact this
  have hat : a ≠ t := fun e => hal (e ▸ List.mem_of_mem_getLast? ht)
  have hah : a ≠ h := fun e => hal (e ▸ List.mem_of_mem_head? hh)
  obtain ⟨r, rfl⟩ : ∃ r, l0 = h :: r := by
    cases l0 with
    | nil => simp at hh
    | cons x r => simp at hh; exact ⟨r, by rw [hh]⟩
  obtain ⟨q, hq⟩ : ∃ q, h :: r = q ++ [t] := by
    have := List.dropLast_append_getLast? t ht
    exact ⟨_, this.symm⟩
  have hc : c.head = some h := by simpa using seg_head h1
  refine ⟨rfl, ?_, ?_⟩
  · simp [relinked, Cache.wNext, Cache.wPrev, Cache.modify, Function.update_apply, hat, hah]
  · have hnd0 : (h :: r).Nodup := (List.nodup_append.mp hnd).1
    have hhr : h ∉ r := (List.nodup_cons.mp hnd0).1
    have htq : t ∉ q := by
      rw [hq] at hnd0
      intro hm
      exact (List.nodup_append.mp hnd0).2.2 hm (List.mem_singleton_self t)
    have s1 : seg (c.wNext t none).mem none (h :: r) c.head none := by
      rw [hq] at h1 ⊢
      refine seg_setNext_last h1 none (fun b hb => ?_) ?_ ?_
      · have : b ≠ t := fun e => htq (e ▸ hb)
        simp [Cache.wNext, Cache.modify, Function.update_apply, this]
      · simp [Cache.wNext, Cache.modify]
      · simp [Cache.wNext, Cache.modify]
    have s2 : seg (relinked c a t h).mem (some a) (h :: r) c.head none := by
      refine seg_setPrev_first s1 (some a) (fun b hb => ?_) ?_ ?_
      · have hbh : b ≠ h := fun e => hhr (e ▸ hb)
        have hba : b ≠ a := fun e => hal (e ▸ List.mem_cons_of_mem h hb)
        simp [relinked, Cache.wNext, Cache.wPrev, Cache.modify, Function.update_apply, hbh, hba]
      · simp [relinked, Cache.wNext, Cache.wPrev, Cache.modify]
      · simp [relinked, Cache.wNext, Cache.wPrev, Cache.modify, Function.update_apply, hah.symm]
    have hn : ((relinked c a t h).mem a).next = c.head := by
      simp [relinked, Cache.wNext, Cache.wPrev, Cache.modify, Function.update_apply, hah]
    rw [hn]
    exact s2


theorem WFl_relinked [DecidableEq K] {c : Cache K V} {l0 : List Ptr} {a t h : Ptr}
    (hw : WFl c (l0 ++ [a])) (ht : l0.getLast? = some t) (hh : l0.head? = some h) :
    WFl (relinked c a t h) (a :: l0) := by
  refine WFl_of_perm hw ?_ (relinked_links hw.links hw.nodup ht hh) ?_ rfl rfl rfl rfl ?_
  · exact (List.perm_append_singleton a l0).symm
  · cases l0 with
    | nil => simp at ht
    | cons x r =>
      rw [List.getLast?_cons_cons, ht]
      rfl
  · intro b
    simp only [relinked, Cache.wNext, Cache.wPrev, Cache.modify, Function.update_apply]
    split_ifs <;> simp_all


theorem WFl_emit [DecidableEq K] {c : Cache K V} {l : List Ptr} (h : WFl c l) (e : Event) :
    WFl (c.emit e) l :=
  ⟨h.links, h.tail_eq, h.nodup, h.size_eq, h.card_eq, h.indexed, h.listed, h.pool_ok,
    h.pool_nodup, h.alloc⟩

/-- Writing the value and the expiration of a node keeps the cache well-formed. -/
theorem WFl_wData [DecidableEq K] {c : Cache K V} {l : List Ptr} (h : WFl c l) (a : Ptr) (v : V)
    (e : Time) : WFl ((c.wValue a v).wExpiration a e) l := by
  refine WFl_of_perm h (List.Perm.refl l) (seg_congr (fun b _ => ?_) h.links) h.tail_eq
    rfl rfl rfl rfl (fun b => ?_)
  · simp only [Cache.wValue, Cache.wExpiration, Cache.modify, Function.update_apply]
    split_ifs <;> simp_all
  · simp only [Cache.wValue, Cache.wExpiration, Cache.modify, Function.update_apply]
    split_ifs <;> simp_all

/-- In a complete list, exactly the last node has a nil `next`. -/
theorem next_none_iff {mem : Ptr → cacheItem K V} {l : List Ptr} {p cur : Option Ptr}
    (hs : seg mem p l cur none) {a : Ptr} (ha : a ∈ l) (hnd : l.Nodup) :
    (mem a).next = none ↔ l.getLast? = some a := by
  constructor
  · intro hn
    obtain ⟨l0, rfl⟩ := seg_last_of_next_none hs ha hn
    simp
  · intro hl
    have := List.dropLast_append_getLast? a hl
    rw [← this] at hs
    exact (seg_concat_last hs).2.2

theorem relinked_key (c : Cache K V) (a t h b : Ptr) :
    ((relinked c a t h).mem b).key = (c.mem b).key := by
  simp only [relinked, Cache.wNext, Cache.wPrev, Cache.modify, Function.update_apply]
  split_ifs <;> simp_all

theorem relinked_value (c : Cache K V) (a t h b : Ptr) :
    ((relinked c a t h).mem b).value = (c.mem b).value := by
  simp only [relinked, Cache.wNext, Cache.wPrev, Cache.modify, Function.update_apply]
  split_ifs <;> simp_all

theorem relinked_expiration (c : Cache K V) (a t h b : Ptr) :
    ((relinked c a t h).mem b).expiration = (c.mem b).expiration := by
  simp only [relinked, Cache.wNext, Cache.wPrev, Cache.modify, Function.update_apply]
  split_ifs <;> simp_all

/-- What is known of a nonempty list that ends in `a` and has more than one node. -/
theorem tail_shape {c : Cache K V} {l : List Ptr} {a : Ptr} (hs : seg c.mem none l c.head none)
    (hl : l.getLast? = some a) (hlen : 1 < l.length) :
    ∃ t h, l = l.dropLast ++ [a] ∧ l.dropLast.getLast? = some t ∧ l.dropLast.head? = some h ∧
      (c.mem a).prev = some t ∧ (c.mem a).next = none ∧ c.head = some h := by
  have hl0 := List.dropLast_append_getLast? a hl
  have hne : l.dropLast ≠ [] := by
    intro h0
    rw [h0] at hl0
    rw [← hl0] at hlen
    simp at hlen
  obtain ⟨t, ht⟩ : ∃ t, l.dropLast.getLast? = some t := by
    cases h : l.dropLast.getLast? with
    | none => exact absurd (List.getLast?_eq_none_iff.mp h) hne
    | some t => exact ⟨t, rfl⟩
  obtain ⟨h, hh⟩ : ∃ h, l.dropLast.head? = some h := by
    cases h : l.dropLast.head? with
    | none => exact absurd (List.head?_eq_none_iff.mp h) hne
    | some t => exact ⟨t, rfl⟩
  rw [← hl0] at hs
  obtain ⟨s1, s2, s3⟩ := seg_concat_last hs
  refine ⟨t, h, hl0.symm, ht, hh, by rw [s2, lastOr_none, ht], s3, ?_⟩
  have := seg_head s1
  rw [hh] at this
  simpa using this

theorem setFound_eq_move {c : Cache K V} {a t h : Ptr} (v : V) (e : Time)
    (hn : (c.mem a).next = none) (hsz : 1 < c.size) (hp : (c.mem a).prev = some t)
    (hh : c.head = some h) :
    c.setFound (some a) v e =
      some ((relinked ((c.wValue a v).wExpiration a e) a t h).emit Event.Update) := by
  simp [Cache.setFound, Cache.wValue, Cache.wExpiration, Cache.modify, hn, hsz, hp, hh,
    relinked, Cache.wNext, Cache.wPrev]

theorem setFound_eq_stay {c : Cache K V} {a : Ptr} (v : V) (e : Time)
    (hn : ¬ ((c.mem a).next = none ∧ 1 < c.size)) :
    c.setFound (some a) v e = some (((c.wValue a v).wExpiration a e).emit Event.Update) := by
  simp only [Cache.setFound]
  rw [if_neg]
  simpa [Cache.wValue, Cache.wExpiration, Cache.modify] using hn

theorem wData_key (c : Cache K V) (a : Ptr) (v : V) (e : Time) (b : Ptr) :
    (((c.wValue a v).wExpiration a e).mem b).key = (c.mem b).key := by
  simp only [Cache.wValue, Cache.wExpiration, Cache.modify, Function.update_apply]
  split_ifs <;> simp_all

theorem wData_same (c : Cache K V) (a : Ptr) (v : V) (e : Time) :
    (((c.wValue a v).wExpiration a e).mem a).value = v ∧
      (((c.wValue a v).wExpiration a e).mem a).expiration = e := by
  simp [Cache.wValue, Cache.wExpiration, Cache.modify]

theorem wData_other (c : Cache K V) (a : Ptr) (v : V) (e : Time) {b : Ptr} (hb : b ≠ a) :
    (((c.wValue a v).wExpiration a e).mem b).value = (c.mem b).value ∧
      (((c.wValue a v).wExpiration a e).mem b).expiration = (c.mem b).expiration := by
  simp [Cache.wValue, Cache.wExpiration, Cache.modify, Function.update_apply, hb]

theorem wData_links (c : Cache K V) (a : Ptr) (v : V) (e : Time) (b : Ptr) :
    (((c.wValue a v).wExpiration a e).mem b).prev = (c.mem b).prev ∧
      (((c.wValue a v).wExpiration a e).mem b).next = (c.mem b).next := by
  simp only [Cache.wValue, Cache.wExpiration, Cache.modify, Function.update_apply]
  split_ifs <;> simp_all

/-- The branch of `Set` for a present key on a well-formed cache: it does not fault, keeps the
cache well-formed, and moves the node to the head exactly when it is the tail of a longer list. -/
theorem setFound_WFl [DecidableEq K] {c : Cache K V} {l : List Ptr} (hw : WFl c l) {a : Ptr}
    (ha : a ∈ l) (v : V) (e : Time) :
    ∃ c2, c.setFound (some a) v e = some c2 ∧
      WFl c2 (if l.getLast? = some a ∧ 1 < l.length then a :: l.dropLast else l) ∧
      SetFoundSpec c c2 a v e := by
  have hw1 := WFl_wData hw a v e
  by_cases hcond : l.getLast? = some a ∧ 1 < l.length
  · rw [if_pos hcond]
    obtain ⟨t, h, hl, ht, hh, hp, hn, hhd⟩ := tail_shape hw.links hcond.1 hcond.2
    have hsz : 1 < c.size := by rw [hw.size_eq]; exact hcond.2
    rw [hl] at hw1
    refine ⟨_, setFound_eq_move v e hn hsz hp hhd, WFl_emit (WFl_relinked hw1 ht hh) _, ?_⟩
    constructor
    · rfl
    · rfl
    · rfl
    · rfl
    · show ((relinked _ a t h).mem a).value = v
      rw [relinked_value]; exact (wData_same c a v e).1
    · show ((relinked _ a t h).mem a).expiration = e
      rw [relinked_expiration]; exact (wData_same c a v e).2
    · intro b
      show ((relinked _ a t h).mem b).key = _
      rw [relinked_key, wData_key]
    · intro b hb
      show ((relinked _ a t h).mem b).value = _ ∧ ((relinked _ a t h).mem b).expiration = _
      rw [relinked_value, relinked_expiration]
      exact wData_other c a v e hb
  · rw [if_neg hcond]
    have hiff := next_none_iff hw.links ha hw.nodup
    have hn : ¬ ((c.mem a).next = none ∧ 1 < c.size) := by
      rw [hiff, hw.size_eq]; exact hcond
    refine ⟨_, setFound_eq_stay v e hn, WFl_emit hw1 _, ?_⟩
    exact ⟨rfl, rfl, rfl, rfl, (wData_same c a v e).1, (wData_same c a v e).2,
      wData_key c a v e, fun b hb => wData_other c a v e hb⟩

/-- Changes that take one node out of the list, drop its key from the index and recycle it. -/
theorem WFl_remove [DecidableEq K] {c : Cache K V} (c2 : Cache K V) {l : List Ptr}
    (h : WFl c l) {a : Ptr}
    (ha : a ∈ l) (hlinks : seg c2.mem none (l.erase a) c2.head none)
    (htail : c2.tail = (l.erase a).getLast?)
    (hindex : c2.index = c.index.erase (c.mem a).key) (hsize : c2.size = c.size - 1)
    (hpool : c2.pool = some a :: c.pool) (hbrk : c2.brk = c.brk)
    (hkey : ∀ b, (c2.mem b).key = (c.mem b).key) : WFl c2 (l.erase a) where
  links := hlinks
  tail_eq := htail
  nodup := h.nodup.erase a
  size_eq := by rw [hsize, h.size_eq, List.length_erase_of_mem ha]
  card_eq := by
    have hk : (c.mem a).key ∈ c.index.keys := by
      rw [← AList.mem_keys, ← AList.lookup_isSome, h.indexed a ha]; rfl
    rw [hindex, hsize, AList.keys_erase, List.length_erase_of_mem hk, h.card_eq]
  indexed := fun b hb => by
    obtain ⟨hba, hbl⟩ := (h.nodup.mem_erase_iff).mp hb
    have hne : (c.mem b).key ≠ (c.mem a).key := fun e => hba (h.key_inj hbl ha e)
    rw [hindex, hkey, AList.lookup_erase_ne hne]
    exact h.indexed b hbl
  listed := fun k hk => by
    rw [hindex, AList.keys_erase] at hk
    obtain ⟨hne, hkk⟩ := ((AList.keys_nodup c.index).mem_erase_iff).mp hk
    obtain ⟨b, hb, hkb⟩ := h.listed k hkk
    refine ⟨b, (h.nodup.mem_erase_iff).mpr ⟨?_, hb⟩, by rw [hkey, hkb]⟩
    intro e
    exact hne (by rw [← hkb, e])
  pool_ok := fun p hp => by
    rw [hpool] at hp
    rw [hbrk]
    rcases List.mem_cons.mp hp with rfl | hp
    · exact ⟨h.alloc a ha, fun hm => ((h.nodup.mem_erase_iff).mp hm).1 rfl⟩
    · have := h.pool_ok p hp
      cases p with
      | none => exact this
      | some x => exact ⟨this.1, fun hm => this.2 (List.mem_of_mem_erase hm)⟩
  pool_nodup := by
    rw [hpool]
    refine List.nodup_cons.mpr ⟨fun hm => ?_, h.pool_nodup⟩
    exact (h.pool_ok _ hm).2 ha
  alloc := fun b hb => by rw [hbrk]; exact h.alloc b (List.mem_of_mem_erase hb)

theorem erase_concat_self {l0 : List Ptr} {a : Ptr} (h : (l0 ++ [a]).Nodup) :
    (l0 ++ [a]).erase a = l0 := by
  have hal : a ∉ l0 := fun hm =>
    (List.nodup_append.mp h).2.2 hm (List.mem_singleton_self a)
  rw [List.erase_append_right _ hal]
  simp

theorem udec_pos {n : Nat} (h : 0 < n) : udec n = n - 1 := by
  unfold udec
  rw [if_neg (by omega)]

theorem evict_noop [DecidableEq K] {c : Cache K V}
    (h : c.size ≠ c.maxsize ∨ c.tail = none) : c.evict = c := by
  unfold Cache.evict
  rcases h with h | h
  · rw [if_neg h]
  · rw [h]; simp

/-- The eviction block of `Set` at full capacity removes the tail of a well-formed cache. -/
theorem evict_WFl [DecidableEq K] {c : Cache K V} {l0 : List Ptr} {a : Ptr}
    (hw : WFl c (l0 ++ [a])) (hsz : c.size = c.maxsize) :
    WFl c.evict l0 ∧ EvictSpec c c.evict a := by
  have ht : c.tail = some a := by rw [hw.tail_eq]; simp
  obtain ⟨s1, s2, s3⟩ := seg_concat_last hw.links
  have hal : a ∉ l0 := fun hm =>
    (List.nodup_append.mp hw.nodup).2.2 hm (List.mem_singleton_self a)
  have hpos : 0 < c.size := by rw [hw.size_eq]; simp
  rw [lastOr_none] at s2
  have hmem : a ∈ l0 ++ [a] := by simp
  have herase := erase_concat_self hw.nodup
  rcases List.eq_nil_or_concat l0 with rfl | ⟨q, t, rfl⟩
  · have hp : (c.mem a).prev = none := by simpa using s2
    have heq : c.evict = (((({ c with
        tail := none, head := none, size := c.size - 1,
        index := c.index.erase (c.mem a).key } : Cache K V).wPrev a none).poolPut (some a)).emit
          Event.Delete).emit Event.Evict := by
      unfold Cache.evict
      rw [if_pos hsz, ht]
      simp [hp, udec_pos hpos, Cache.wPrev, Cache.modify, Cache.poolPut, Cache.emit]
    rw [heq]
    constructor
    · refine WFl_emit (WFl_emit ?_ _) _
      have := WFl_remove ((({ c with
        tail := none, head := none, size := c.size - 1,
        index := c.index.erase (c.mem a).key } : Cache K V).wPrev a none).poolPut (some a))
        hw hmem (by rw [herase]; rfl) (by rw [herase]; rfl) rfl rfl rfl rfl (fun b => by
          simp only [Cache.wPrev, Cache.modify, Cache.poolPut, Function.update_apply]
          split_ifs <;> simp_all)
      rw [herase] at this
      exact this
    · refine ⟨rfl, rfl, rfl, by simp [Cache.emit, Cache.poolPut, Cache.wPrev, Cache.modify],
        fun b => ?_, fun b => ?_, fun b => ?_⟩ <;>
      · simp only [Cache.wPrev, Cache.modify, Cache.poolPut, Cache.emit, Function.update_apply]
        split_ifs <;> simp_all
  · rw [List.concat_eq_append] at *
    have hp : (c.mem a).prev = some t := by simpa using s2
    have hta : t ≠ a := fun e => hal (by rw [← e]; simp)
    have htq : t ∉ q := fun hm =>
      (List.nodup_append.mp (List.nodup_append.mp hw.nodup).1).2.2 hm (List.mem_singleton_self t)
    have heq : c.evict = ((((({ c with
        tail := some t, size := c.size - 1,
        index := c.index.erase (c.mem a).key } : Cache K V).wNext t none).wPrev a none).poolPut
          (some a)).emit Event.Delete).emit Event.Evict := by
      unfold Cache.evict
      rw [if_pos hsz, ht]
      simp [hp, udec_pos hpos, Cache.wPrev, Cache.wNext, Cache.modify, Cache.poolPut, Cache.emit,
        Function.update_apply, hta.symm]
    rw [heq]
    constructor
    · refine WFl_emit (WFl_emit ?_ _) _
      have := WFl_remove (((({ c with
        tail := some t, size := c.size - 1,
        index := c.index.erase (c.mem a).key } : Cache K V).wNext t none).wPrev a none).poolPut
          (some a)) hw hmem ?_ (by rw [herase]; simp [Cache.wPrev, Cache.wNext, Cache.modify,
            Cache.poolPut]) rfl rfl rfl rfl (fun b => by
          simp only [Cache.wPrev, Cache.wNext, Cache.modify, Cache.poolPut, Function.update_apply]
          split_ifs <;> simp_all)
      · rw [herase] at this
        exact this
      · rw [herase]
        refine seg_setNext_last s1 none (fun b hb => ?_) ?_ ?_
        · have hbt : b ≠ t := fun e => htq (e ▸ hb)
          have hba : b ≠ a := fun e => hal (by rw [← e]; simp [hb])
          simp [Cache.wPrev, Cache.wNext, Cache.modify, Cache.poolPut, Function.update_apply,
            hbt, hba]
        · simp [Cache.wPrev, Cache.wNext, Cache.modify, Cache.poolPut, Function.update_apply, hta]
        · simp [Cache.wPrev, Cache.wNext, Cache.modify, Cache.poolPut, Function.update_apply, hta]
    · refine ⟨rfl, rfl, rfl, by simp [Cache.emit, Cache.poolPut, Cache.wPrev, Cache.wNext,
        Cache.modify], fun b => ?_, fun b => ?_, fun b => ?_⟩ <;>
      · simp only [Cache.wPrev, Cache.wNext, Cache.modify, Cache.poolPut, Cache.emit,
          Function.update_apply]
        split_ifs <;> simp_all

/-- On a well-formed cache the pool hands out a node that is not nil and not in the list. -/
theorem poolGet_spec [DecidableEq K] [Inhabited K] [Inhabited V] {c : Cache K V} {l : List Ptr}
    (hw : WFl c l) :
    ∃ a c1, c.poolGet = (some a, c1) ∧ WFl c1 l ∧ a ∉ l ∧ a < c1.brk ∧ some a ∉ c1.pool ∧
      c1.index = c.index ∧ c1.head = c.head ∧ c1.tail = c.tail ∧ c1.size = c.size ∧
      c1.maxsize = c.maxsize ∧ c1.metrics = c.metrics ∧ ∀ b, b ≠ a → c1.mem b = c.mem b := by
  cases hp : c.pool with
  | nil =>
    have hbl : c.brk ∉ l := fun hm => lt_irrefl _ (hw.alloc _ hm)
    refine ⟨c.brk, { c with mem := Function.update c.mem c.brk zeroItem, brk := c.brk + 1 },
      by simp [Cache.poolGet, hp], ?_, hbl, Nat.lt_succ_self _, by simp [hp], rfl, rfl, rfl,
      rfl, rfl, rfl, fun b hb => by simp [Function.update_apply, hb]⟩
    have hm : ∀ b ∈ l, Function.update c.mem c.brk zeroItem b = c.mem b := by
      intro b hb
      have : b ≠ c.brk := fun e => hbl (e ▸ hb)
      simp [Function.update_apply, this]
    refine ⟨seg_congr (fun b hb => by simp only [hm b hb, and_self]) hw.links, hw.tail_eq,
      hw.nodup, hw.size_eq, hw.card_eq, fun b hb => ?_, fun k hk => ?_, ?_, ?_, ?_⟩
    · show c.index.lookup (Function.update c.mem c.brk zeroItem b).key = some (some b)
      rw [hm b hb]; exact hw.indexed b hb
    · obtain ⟨b, hb, hkb⟩ := hw.listed k hk
      refine ⟨b, hb, ?_⟩
      show (Function.update c.mem c.brk zeroItem b).key = k
      rw [hm b hb]; exact hkb
    · simp [hp]
    · simp [hp]
    · intro b hb; exact Nat.lt_succ_of_lt (hw.alloc b hb)
  | cons p rest =>
    have hpm : p ∈ c.pool := by rw [hp]; simp
    have hok := hw.pool_ok p hpm
    have hnd := hw.pool_nodup
    rw [hp] at hnd
    cases p with
    | none => exact absurd hok (by simp [freeOk])
    | some a =>
      refine ⟨a, { c with pool := rest }, by simp [Cache.poolGet, hp], ?_, hok.2, hok.1,
        (List.nodup_cons.mp hnd).1, rfl, rfl, rfl, rfl, rfl, rfl, fun b _ => rfl⟩
      refine ⟨hw.links, hw.tail_eq, hw.nodup, hw.size_eq, hw.card_eq, hw.indexed, hw.listed,
        fun q hq => hw.pool_ok q (by rw [hp]; exact List.mem_cons_of_mem _ hq),
        (List.nodup_cons.mp hnd).2, hw.alloc⟩

theorem addHead_eq [DecidableEq K] [Inhabited K] [Inhabited V] {c c1 : Cache K V} {a : Ptr}
    (h : c.poolGet = (some a, c1)) (k : K) (v : V) (e : Time) :
    c.addHead k v e = some (added c1 a k v e) := by
  unfold Cache.addHead
  rw [h]
  rfl

theorem added_mem_other [DecidableEq K] (c1 : Cache K V) (a : Ptr) (k : K) (v : V) (e : Time)
    {b : Ptr} (hb : b ≠ a) :
    ((added c1 a k v e).mem b).key = (c1.mem b).key ∧
    ((added c1 a k v e).mem b).value = (c1.mem b).value ∧
    ((added c1 a k v e).mem b).expiration = (c1.mem b).expiration ∧
    ((added c1 a k v e).mem b).next = (c1.mem b).next ∧
    ((added c1 a k v e).mem b).prev = if c1.head = some b then some a else (c1.mem b).prev := by
  unfold added
  cases hh : c1.head with
  | none =>
    simp [Cache.wKey, Cache.wValue, Cache.wExpiration, Cache.wPrev, Cache.wNext, Cache.modify,
      Cache.emit, Function.update_apply, hb, hh]
  | some h =>
    by_cases hbh : b = h
    · subst hbh
      simp [Cache.wKey, Cache.wValue, Cache.wExpiration, Cache.wPrev, Cache.wNext, Cache.modify,
        Cache.emit, Function.update_apply, hb, hh]
    · have hhb : h ≠ b := fun e => hbh e.symm
      simp [Cache.wKey, Cache.wValue, Cache.wExpiration, Cache.wPrev, Cache.wNext, Cache.modify,
        Cache.emit, Function.update_apply, hb, hh, hbh, hhb]

theorem added_mem_self [DecidableEq K] (c1 : Cache K V) (a : Ptr) (k : K) (v : V) (e : Time)
    (hh : c1.head ≠ some a) :
    ((added c1 a k v e).mem a).key = k ∧
    ((added c1 a k v e).mem a).value = v ∧
    ((added c1 a k v e).mem a).expiration = e ∧
    ((added c1 a k v e).mem a).next = c1.head ∧
    ((added c1 a k v e).mem a).prev = none := by
  unfold added
  cases hd : c1.head with
  | none =>
    simp [Cache.wKey, Cache.wValue, Cache.wExpiration, Cache.wPrev, Cache.wNext, Cache.modify,
      Cache.emit, hd]
  | some h =>
    have hah : a ≠ h := fun e => hh (by rw [hd, e])
    simp [Cache.wKey, Cache.wValue, Cache.wExpiration, Cache.wPrev, Cache.wNext, Cache.modify,
      Cache.emit, Function.update_apply, hd, hah]

theorem added_fields [DecidableEq K] (c1 : Cache K V) (a : Ptr) (k : K) (v : V) (e : Time) :
    (added c1 a k v e).index = c1.index.insert k (some a) ∧
    (added c1 a k v e).size = c1.size + 1 ∧
    (added c1 a k v e).maxsize = c1.maxsize ∧
    (added c1 a k v e).metrics = c1.metrics ++ [Event.Add] ∧
    (added c1 a k v e).head = some a ∧
    (added c1 a k v e).pool = c1.pool ∧
    (added c1 a k v e).brk = c1.brk ∧
    (added c1 a k v e).tail = if c1.head = none then some a else c1.tail := by
  unfold added
  cases hd : c1.head <;>
    simp [Cache.wKey, Cache.wValue, Cache.wExpiration, Cache.wPrev, Cache.wNext, Cache.modify,
      Cache.emit, hd]

/-- The insertion block of `Set` on a well-formed cache that does not hold the key: it does
not fault and puts a new node in front of the list. -/
theorem addHead_WFl [DecidableEq K] [Inhabited K] [Inhabited V] {c : Cache K V} {l : List Ptr}
    (hw : WFl c l) {k : K} (hk : c.index.lookup k = none) (v : V) (e : Time) :
    ∃ a c2, c.addHead k v e = some c2 ∧ WFl c2 (a :: l) ∧ a ∉ l ∧ AddSpec c c2 a k v e := by
  obtain ⟨a, c1, hpg, hw1, hal, habrk, hapool, hidx, hhead, htail, hsize, hmax, hmet, hmem⟩ :=
    poolGet_spec hw
  have hha : c1.head ≠ some a := by
    intro hc
    have := seg_head hw1.links
    rw [hc] at this
    cases l with
    | nil => simp at this
    | cons x r => simp at this; exact hal (by rw [this]; simp)
  obtain ⟨f1, f2, f3, f4, f5, f6, f7, f8⟩ := added_fields c1 a k v e
  obtain ⟨m1, m2, m3, m4, m5⟩ := added_mem_self c1 a k v e hha
  have hne : ∀ b ∈ l, b ≠ a := fun b hb e => hal (e ▸ hb)
  have hkn : k ∉ c1.index.keys := by
    rw [hidx, ← AList.mem_keys, ← AList.lookup_eq_none]; exact hk
  refine ⟨a, added c1 a k v e, addHead_eq hpg k v e, ?_, hal, ?_⟩
  · constructor
    · refine ⟨f5, m5, ?_⟩
      rw [m4]
      cases l with
      | nil => exact hw1.links
      | cons h r =>
        have hh : c1.head = some h := hw1.links.1
        have hnd := List.nodup_cons.mp hw1.nodup
        refine seg_setPrev_first hw1.links (some a) (fun b hb => ?_) ?_ ?_
        · have hb1 := added_mem_other c1 a k v e (hne b (List.mem_cons_of_mem _ hb))
          have : c1.head ≠ some b := by
            rw [hh]; intro e; exact hnd.1 (by rw [Option.some.inj e]; exact hb)
          rw [hb1.2.2.2.2, if_neg this, hb1.2.2.2.1]
          exact ⟨rfl, rfl⟩
        · have hb1 := added_mem_other c1 a k v e (hne h (List.mem_cons_self _ _))
          rw [hb1.2.2.2.2, if_pos hh]
        · exact (added_mem_other c1 a k v e (hne h (List.mem_cons_self _ _))).2.2.2.1
    · rw [f8]
      cases l with
      | nil =>
        have : c1.head = none := hw1.links
        rw [if_pos this]; rfl
      | cons h r =>
        have hh : c1.head = some h := hw1.links.1
        rw [if_neg (by rw [hh]; simp), hw1.tail_eq, List.getLast?_cons_cons]
    · exact List.nodup_cons.mpr ⟨hal, hw1.nodup⟩
    · rw [f2, hw1.size_eq]; rfl
    · rw [f1, f2, AList.keys_insert, List.erase_of_not_mem hkn, List.length_cons, hw1.card_eq]
    · intro b hb
      rw [f1]
      rcases List.mem_cons.mp hb with rfl | hb
      · rw [m1, AList.lookup_insert]
      · have hb1 := added_mem_other c1 a k v e (hne b hb)
        rw [hb1.1]
        have hkb : (c1.mem b).key ≠ k := by
          intro e
          apply hkn
          rw [← e, ← AList.mem_keys, ← AList.lookup_isSome, hw1.indexed b hb]; rfl
        rw [AList.lookup_insert_ne hkb]
        exact hw1.indexed b hb
    · intro k2 hk2
      rw [f1, AList.keys_insert, List.erase_of_not_mem hkn] at hk2
      rcases List.mem_cons.mp hk2 with rfl | hk2
      · exact ⟨a, List.mem_cons_self _ _, m1⟩
      · obtain ⟨b, hb, hkb⟩ := hw1.listed k2 hk2
        exact ⟨b, List.mem_cons_of_mem _ hb, by
          rw [(added_mem_other c1 a k v e (hne b hb)).1, hkb]⟩
    · intro p hp
      rw [f6] at hp
      rw [f7]
      have := hw1.pool_ok p hp
      cases p with
      | none => exact this
      | some x =>
        refine ⟨this.1, fun hm => ?_⟩
        rcases List.mem_cons.mp hm with rfl | hm
        · exact hapool hp
        · exact this.2 hm
    · rw [f6]; exact hw1.pool_nodup
    · intro b hb
      rw [f7]
      rcases List.mem_cons.mp hb with rfl | hb
      · exact habrk
      · exact hw1.alloc b hb
  · refine ⟨by rw [f1, hidx], by rw [f2, hsize], by rw [f3, hmax], by rw [f4, hmet], f5, m1, m2,
      m3, fun b hb => ?_, fun b hb => ?_, fun b hb => ?_⟩
    · rw [(added_mem_other c1 a k v e hb).1, hmem b hb]
    · rw [(added_mem_other c1 a k v e hb).2.1, hmem b hb]
    · rw [(added_mem_other c1 a k v e hb).2.2.1, hmem b hb]

theorem keys_of_WFl [DecidableEq K] {c : Cache K V} {l : List Ptr} (h : WFl c l) :
    c.keys = l.map fun a => (c.mem a).key := by
  unfold Cache.keys
  rw [nodes_of_WFl h]

theorem WF_iff_exists [DecidableEq K] {c : Cache K V} : WF c ↔ ∃ l, WFl c l :=
  ⟨fun h => ⟨_, h⟩, fun ⟨_, h⟩ => WF_of_WFl h⟩

/-- The eviction block of `Set` keeps a cache well-formed; at full capacity the list loses
its last node. -/
theorem evict_WFl_gen [DecidableEq K] {c : Cache K V} {l : List Ptr} (hw : WFl c l) :
    WFl c.evict (if c.size = c.maxsize then l.dropLast else l) := by
  by_cases hsz : c.size = c.maxsize
  · rw [if_pos hsz]
    rcases List.eq_nil_or_concat l with rfl | ⟨l0, a, rfl⟩
    · have : c.tail = none := hw.tail_eq
      rw [evict_noop (Or.inr this)]
      exact hw
    · rw [List.concat_eq_append] at hw ⊢
      rw [List.dropLast_concat]
      exact (evict_WFl hw hsz).1
  · rw [if_neg hsz, evict_noop (Or.inl hsz)]
    exact hw

/-- The eviction block of `Set` leaves the data of every node and the capacity as they are,
and a key that is not in the index stays out of it. -/
theorem evict_data [DecidableEq K] {c : Cache K V} {l : List Ptr} (hw : WFl c l) :
    c.evict.maxsize = c.maxsize ∧
    (∀ b, (c.evict.mem b).key = (c.mem b).key ∧ (c.evict.mem b).value = (c.mem b).value ∧
      (c.evict.mem b).expiration = (c.mem b).expiration) ∧
    (∀ k, c.index.lookup k = none → c.evict.index.lookup k = none) := by
  by_cases hsz : c.size = c.maxsize
  · rcases List.eq_nil_or_concat l with rfl | ⟨l0, a, rfl⟩
    · have : c.tail = none := hw.tail_eq
      rw [evict_noop (Or.inr this)]
      exact ⟨rfl, fun b => ⟨rfl, rfl, rfl⟩, fun k hk => hk⟩
    · rw [List.concat_eq_append] at hw
      have hs := (evict_WFl hw hsz).2
      refine ⟨hs.maxsize_eq, fun b => ⟨hs.key_eq b, hs.value_eq b, hs.expiration_eq b⟩,
        fun k hk => ?_⟩
      rw [hs.index_eq]
      by_cases hka : k = (c.mem a).key
      · rw [hka]; exact AList.lookup_erase _ _
      · rw [AList.lookup_erase_ne hka]; exact hk
  · rw [evict_noop (Or.inl hsz)]
    exact ⟨rfl, fun b => ⟨rfl, rfl, rfl⟩, fun k hk => hk⟩

/-- Method `Set` on a well-formed cache, for a key that is present. -/
theorem Set_found_WFl [DecidableEq K] [Inhabited K] [Inhabited V] {c : Cache K V}
    {l : List Ptr} (hw : WFl c l) {k : K} {a : Ptr} (hk : c.index.lookup k = some (some a))
    (v : V) (ttl : Int) (now : Time) :
    ∃ c2, c.Set k v ttl now = some c2 ∧
      WFl c2 (if l.getLast? = some a ∧ 1 < l.length then a :: l.dropLast else l) ∧
      SetFoundSpec c c2 a v (now + ttl) := by
  obtain ⟨a2, ha2, hal, _⟩ := hw.lookup_some hk
  cases ha2
  have := setFound_WFl hw hal v (now + ttl)
  unfold Cache.Set
  rw [hk]
  exact this

/-- Method `Set` on a well-formed cache, for a key that is not in the index. -/
theorem Set_new_WFl [DecidableEq K] [Inhabited K] [Inhabited V] {c : Cache K V}
    {l : List Ptr} (hw : WFl c l) {k : K} (hk : c.index.lookup k = none)
    (v : V) (ttl : Int) (now : Time) :
    ∃ a c2, c.Set k v ttl now = some c2 ∧
      WFl c2 (a :: (if c.size = c.maxsize then l.dropLast else l)) ∧
      a ∉ (if c.size = c.maxsize then l.dropLast else l) ∧
      AddSpec c.evict c2 a k v (now + ttl) := by
  have hw1 := evict_WFl_gen hw
  have := addHead_WFl hw1 ((evict_data hw).2.2 k hk) v (now + ttl)
  unfold Cache.Set
  rw [hk]
  exact this

/-- A `Get` of a key whose entry has not expired returns its value. -/
theorem Get_hit [DecidableEq K] [Inhabited V] {c : Cache K V} {k : K} {a : Ptr}
    (hk : c.index.lookup k = some (some a)) {now : Time} (he : now < (c.mem a).expiration) :
    (c.Get k now).1 = ((c.mem a).value, true) := by
  unfold Cache.Get
  rw [hk]
  simp [he]

/-- A `Get` of a key that is not in the index misses and only records the miss. -/
theorem Get_absent [DecidableEq K] [Inhabited V] {c : Cache K V} {k : K}
    (hk : c.index.lookup k = none) (now : Time) :
    c.Get k now = ((default, false), c.emit Event.Miss) := by
  unfold Cache.Get
  rw [hk]

theorem Set_entry [DecidableEq K] [Inhabited K] [Inhabited V] {c : Cache K V}
    {l : List Ptr} (hw : WFl c l) (k : K) (v : V) (ttl : Int) (now : Time) :
    ∃ c2 a, c.Set k v ttl now = some c2 ∧ WF c2 ∧ c2.index.lookup k = some (some a) ∧
      (c2.mem a).value = v ∧ (c2.mem a).expiration = now + ttl := by
  cases hk : c.index.lookup k with
  | none =>
    obtain ⟨a, c2, h1, h2, _, h4⟩ := Set_new_WFl hw hk v ttl now
    refine ⟨c2, a, h1, WF_of_WFl h2, ?_, h4.value_new, h4.expiration_new⟩
    rw [h4.index_eq, AList.lookup_insert]
  | some item =>
    obtain ⟨a, rfl, _, _⟩ := hw.lookup_some hk
    obtain ⟨c2, h1, h2, h3⟩ := Set_found_WFl hw hk v ttl now
    exact ⟨c2, a, h1, WF_of_WFl h2, by rw [h3.index_eq, hk], h3.value_eq, h3.expiration_eq⟩

/-- The effect of the unlinking block on the memory and on the two ends, for a node that
does not point to itself. -/
theorem unlink_effect (c : Cache K V) (a : Ptr) (hn : (c.mem a).next ≠ some a)
    (hp : (c.mem a).prev ≠ some a) :
    (c.unlink a).head = (if c.head = some a then (c.mem a).next else c.head) ∧
    (c.unlink a).tail = (if c.tail = some a then (c.mem a).prev else c.tail) ∧
    (c.unlink a).index = c.index ∧ (c.unlink a).size = c.size ∧
    (c.unlink a).maxsize = c.maxsize ∧ (c.unlink a).metrics = c.metrics ∧
    (c.unlink a).pool = c.pool ∧ (c.unlink a).brk = c.brk ∧
    (∀ b, ((c.unlink a).mem b).key = (c.mem b).key ∧
      ((c.unlink a).mem b).value = (c.mem b).value ∧
      ((c.unlink a).mem b).expiration = (c.mem b).expiration) ∧
    (∀ b, b ≠ a →
      ((c.unlink a).mem b).prev =
        (if (c.mem a).next = some b then (c.mem a).prev else (c.mem b).prev) ∧
      ((c.unlink a).mem b).next =
        (if (c.mem a).prev = some b then (c.mem a).next else (c.mem b).next)) := by
  have hna : ∀ n, (c.mem a).next = some n → n ≠ a := fun n h e => hn (by rw [h, e])
  have hpa : ∀ p, (c.mem a).prev = some p → p ≠ a := fun p h e => hp (by rw [h, e])
  unfold Cache.unlink
  cases hnx : (c.mem a).next with
  | none =>
    cases hpv : (c.mem a).prev with
    | none =>
      by_cases ht : c.tail = some a <;> by_cases hh : c.head = some a <;>
        simp [hnx, hpv, ht, hh, Cache.wPrev, Cache.wNext, Cache.modify, Function.update_apply] <;>
        refine ⟨fun b => ?_, fun b hb => ?_⟩ <;> split_ifs <;> simp_all
    | some p =>
      have hpa2 := hpa p hpv
      have hap : a ≠ p := fun e => hpa2 e.symm
      by_cases ht : c.tail = some a <;> by_cases hh : c.head = some a <;>
        simp [hnx, hpv, ht, hh, hap, hpa2, Cache.wPrev, Cache.wNext, Cache.modify,
          Function.update_apply] <;>
        refine ⟨fun b => ?_, fun b hb => ?_⟩ <;>
        rcases eq_or_ne b p with rfl | hbp <;>
        (try have hbp2 := hbp.symm) <;>
        (first | done | (split_ifs <;> simp_all))
  | some n =>
    have hna2 := hna n hnx
    have han : a ≠ n := fun e => hna2 e.symm
    cases hpv : (c.mem a).prev with
    | none =>
      by_cases ht : c.tail = some a <;> by_cases hh : c.head = some a <;>
        simp [hnx, hpv, ht, hh, han, hna2, Cache.wPrev, Cache.wNext, Cache.modify,
          Function.update_apply] <;>
        refine ⟨fun b => ?_, fun b hb => ?_⟩ <;>
        rcases eq_or_ne b n with rfl | hbn <;>
        (try have hbn2 := hbn.symm) <;>
        (first | done | (split_ifs <;> simp_all))
    | some p =>
      have hpa2 := hpa p hpv
      have hap : a ≠ p := fun e => hpa2 e.symm
      by_cases ht : c.tail = some a <;> by_cases hh : c.head = some a <;>
        simp [hnx, hpv, ht, hh, han, hna2, hap, hpa2, Cache.wPrev, Cache.wNext, Cache.modify,
          Function.update_apply] <;>
        refine ⟨fun b => ?_, fun b hb => ?_⟩ <;>
        rcases eq_or_ne b n with rfl | hbn <;>
        (try have hbn2 := hbn.symm) <;>
        rcases eq_or_ne b p with rfl | hbp <;>
        (try have hbp2 := hbp.symm) <;>
        (first | done | (split_ifs <;> simp_all))

/-- The shape of a complete list around one of its nodes. -/
theorem seg_split {mem : Ptr → cacheItem K V} {l1 l2 : List Ptr} {a : Ptr} {cur : Option Ptr}
    (hs : seg mem none (l1 ++ a :: l2) cur none) :
    seg mem none l1 cur (some a) ∧ (mem a).prev = l1.getLast? ∧
      seg mem (some a) l2 (mem a).next none ∧ (mem a).next = l2.head? := by
  rw [seg_append] at hs
  obtain ⟨mid, h1, h2, h3, h4⟩ := hs
  subst h2
  rw [lastOr_none] at h3
  refine ⟨h1, h3, h4, ?_⟩
  have := seg_head h4
  rw [this]
  cases l2 <;> simp

/-- The unlinking block takes the node out of the list of a well-formed cache. -/
theorem unlink_links [DecidableEq K] {c : Cache K V} {l : List Ptr} (hw : WFl c l) {a : Ptr}
    (ha : a ∈ l) :
    seg (c.unlink a).mem none (l.erase a) (c.unlink a).head none ∧
      (c.unlink a).tail = (l.erase a).getLast? := by
  obtain ⟨l1, l2, rfl⟩ := List.append_of_mem ha
  have hnd := hw.nodup
  obtain ⟨hnd1, hnd2, hdisj⟩ := List.nodup_append.mp hnd
  have hal1 : a ∉ l1 := fun hm => hdisj hm (List.mem_cons_self _ _)
  have hal2 : a ∉ l2 := (List.nodup_cons.mp hnd2).1
  have hnd2b : l2.Nodup := (List.nodup_cons.mp hnd2).2
  have hd12 : ∀ b, b ∈ l1 → b ∉ l2 := fun b h1 h2 => hdisj h1 (List.mem_cons_of_mem _ h2)
  have herase : (l1 ++ a :: l2).erase a = l1 ++ l2 := by
    rw [List.erase_append_right _ hal1, List.erase_cons_head]
  obtain ⟨s1, s2, s3, s4⟩ := seg_split hw.links
  have hn : (c.mem a).next ≠ some a := by
    rw [s4]; intro e; exact hal2 (List.mem_of_mem_head? e)
  have hp : (c.mem a).prev ≠ some a := by
    rw [s2]; intro e; exact hal1 (List.mem_of_mem_getLast? e)
  obtain ⟨e1, e2, -, -, -, -, -, -, -, e4⟩ := unlink_effect c a hn hp
  have hne1 : ∀ b ∈ l1, b ≠ a := fun b hb e => hal1 (e ▸ hb)
  have hne2 : ∀ b ∈ l2, b ≠ a := fun b hb e => hal2 (e ▸ hb)
  rw [herase]
  constructor
  · rw [seg_append]
    refine ⟨(c.mem a).next, ?_, ?_⟩
    · rcases List.eq_nil_or_concat l1 with rfl | ⟨q, p, rfl⟩
      · have hh : c.head = some a := by simpa using seg_head hw.links
        rw [e1, if_pos hh]
        exact rfl
      · rw [List.concat_eq_append] at *
        have hh : c.head ≠ some a := by
          have := seg_head s1
          rw [this]
          intro e
          have : a ∈ q ++ [p] := by
            cases q with
            | nil => simp at e; simp [e]
            | cons x r => simp at e; simp [e]
          exact hal1 this
        rw [e1, if_neg hh]
        have hpq : p ∉ q := fun hm =>
          (List.nodup_append.mp hnd1).2.2 hm (List.mem_singleton_self p)
        have hprev : (c.mem a).prev = some p := by rw [s2]; simp
        have hpl1 : p ∈ q ++ [p] := by simp
        refine seg_setNext_last s1 _ (fun b hb => ?_) ?_ ?_
        · have hb1 : b ∈ q ++ [p] := List.mem_append_left _ hb
          obtain ⟨f1, f2⟩ := e4 b (hne1 b hb1)
          rw [f1, f2, if_neg, if_neg]
          · exact ⟨rfl, rfl⟩
          · rw [hprev]; intro e; exact hpq (by rw [Option.some.inj e]; exact hb)
          · rw [s4]; intro e; exact hd12 b hb1 (List.mem_of_mem_head? e)
        · rw [(e4 p (hne1 p hpl1)).1, if_neg]
          rw [s4]; intro e; exact hd12 p hpl1 (List.mem_of_mem_head? e)
        · rw [(e4 p (hne1 p hpl1)).2, if_pos hprev]
    · rw [lastOr_none, ← s2]
      cases l2 with
      | nil =>
        have : (c.mem a).next = none := by simpa using s4
        rw [this]; exact rfl
      | cons n r =>
        have hnext : (c.mem a).next = some n := by simpa using s4
        have hnr : n ∉ r := (List.nodup_cons.mp hnd2b).1
        have hnl2 : n ∈ n :: r := List.mem_cons_self _ _
        refine seg_setPrev_first s3 _ (fun b hb => ?_) ?_ ?_
        · have hb2 : b ∈ n :: r := List.mem_cons_of_mem _ hb
          obtain ⟨f1, f2⟩ := e4 b (hne2 b hb2)
          rw [f1, f2, if_neg, if_neg]
          · exact ⟨rfl, rfl⟩
          · rw [s2]; intro e; exact hd12 b (List.mem_of_mem_getLast? e) hb2
          · rw [hnext]; intro e; exact hnr (by rw [Option.some.inj e]; exact hb)
        · rw [(e4 n (hne2 n hnl2)).1, if_pos hnext]
        · rw [(e4 n (hne2 n hnl2)).2, if_neg]
          rw [s2]; intro e; exact hd12 n (List.mem_of_mem_getLast? e) hnl2
  · rw [e2, hw.tail_eq, s2]
    cases l2 with
    | nil => simp
    | cons n r =>
      have : (l1 ++ a :: n :: r).getLast? = (n :: r).getLast? := by
        rw [List.getLast?_append, List.getLast?_cons_cons]
        cases h : (n :: r).getLast? with
        | none => simp at h
        | some x => simp
      rw [this]
      have hne : (n :: r).getLast? ≠ some a := fun e => hal2 (List.mem_of_mem_getLast? e)
      rw [if_neg hne, List.getLast?_append]
      cases h : (n :: r).getLast? with
      | none => simp at h
      | some x => simp

theorem unlink_effect_of_WFl [DecidableEq K] {c : Cache K V} {l : List Ptr} (hw : WFl c l)
    {a : Ptr} (ha : a ∈ l) :
    (c.unlink a).index = c.index ∧ (c.unlink a).size = c.size ∧
    (c.unlink a).maxsize = c.maxsize ∧ (c.unlink a).metrics = c.metrics ∧
    (c.unlink a).pool = c.pool ∧ (c.unlink a).brk = c.brk ∧
    (∀ b, ((c.unlink a).mem b).key = (c.mem b).key ∧
      ((c.unlink a).mem b).value = (c.mem b).value ∧
      ((c.unlink a).mem b).expiration = (c.mem b).expiration) := by
  obtain ⟨l1, l2, rfl⟩ := List.append_of_mem ha
  obtain ⟨_, hnd2, hdisj⟩ := List.nodup_append.mp hw.nodup
  have hal1 : a ∉ l1 := fun hm => hdisj hm (List.mem_cons_self _ _)
  have hal2 : a ∉ l2 := (List.nodup_cons.mp hnd2).1
  obtain ⟨_, s2, _, s4⟩ := seg_split hw.links
  have hn : (c.mem a).next ≠ some a := by
    rw [s4]; intro e; exact hal2 (List.mem_of_mem_head? e)
  have hp : (c.mem a).prev ≠ some a := by
    rw [s2]; intro e; exact hal1 (List.mem_of_mem_getLast? e)
  obtain ⟨-, -, e3, e4, e5, e6, e7, e8, e9, -⟩ := unlink_effect c a hn hp
  exact ⟨e3, e4, e5, e6, e7, e8, e9⟩

/-- One round of `Delete` for a key of a well-formed cache removes its node. -/
theorem deleteKey_present [DecidableEq K] {c : Cache K V} {l : List Ptr} (hw : WFl c l) {k : K}
    {a : Ptr} (hk : c.index.lookup k = some (some a)) :
    WFl (c.deleteKey k) (l.erase a) ∧ DeleteSpec c (c.deleteKey k) a := by
  obtain ⟨a2, ha2, ha, hkey⟩ := hw.lookup_some hk
  cases ha2
  have hpos : 0 < c.size := by
    rw [hw.size_eq]; exact List.length_pos_of_mem ha
  obtain ⟨e3, e4, e5, e6, e7, e8, e9⟩ := unlink_effect_of_WFl hw ha
  obtain ⟨u1, u2⟩ := unlink_links hw ha
  have heq : c.deleteKey k = { (((c.unlink a).poolPut (some a)).emit Event.Delete) with
      index := c.index.erase k, size := c.size - 1 } := by
    unfold Cache.deleteKey
    rw [hk]
    have : 0 < (c.unlink a).size := by rw [e4]; exact hpos
    have hpos2 : c.size ≠ 0 := Nat.pos_iff_ne_zero.mp hpos
    simp [Cache.poolPut, Cache.emit, this, e3, e4, hpos2]
  rw [heq]
  constructor
  · exact WFl_remove _ hw ha u1 u2 (by rw [hkey]) rfl (by simp [Cache.poolPut, Cache.emit, e7])
      e8 (fun b => (e9 b).1)
  · exact ⟨by rw [hkey], rfl, e5, by simp [Cache.poolPut, Cache.emit, e6], fun b => (e9 b).1,
      fun b => (e9 b).2.1, fun b => (e9 b).2.2⟩

theorem deleteKey_absent [DecidableEq K] {c : Cache K V} {k : K}
    (hk : c.index.lookup k = none) : c.deleteKey k = c := by
  unfold Cache.deleteKey
  rw [hk]

theorem deleteKey_WF [DecidableEq K] {c : Cache K V} (hw : WF c) (k : K) :
    WF (c.deleteKey k) := by
  cases hk : c.index.lookup k with
  | none => rw [deleteKey_absent hk]; exact hw
  | some item =>
    obtain ⟨a, rfl, _, _⟩ := WFl.lookup_some hw hk
    exact WF_of_WFl (deleteKey_present hw hk).1

theorem Delete_WF [DecidableEq K] {c : Cache K V} (hw : WF c) (ks : List K) :
    WF (c.Delete ks) := by
  unfold Cache.Delete
  induction ks generalizing c with
  | nil => exact hw
  | cons k ks ih => exact ih (deleteKey_WF hw k)

theorem movetohead_eq [DecidableEq K] {c : Cache K V} {k : K} {a t h : Ptr}
    (hk : c.index.lookup k = some (some a)) (hn : (c.mem a).next = none)
    (hp : (c.mem a).prev = some t) (hh : c.head = some h) :
    c.movetohead k = relinked c a t h := by
  unfold Cache.movetohead
  rw [hk]
  simp [hn, hp, hh, relinked, Cache.wNext, Cache.wPrev, Cache.modify]

/-- A hitting `Get` on a well-formed cache: the node moves to the head exactly when it is
the tail of a list with more than one node. -/
theorem Get_hit_WFl [DecidableEq K] [Inhabited V] {c : Cache K V} {l : List Ptr} (hw : WFl c l)
    {k : K} {a : Ptr} (hk : c.index.lookup k = some (some a)) {now : Time}
    (he : now < (c.mem a).expiration) :
    WFl (c.Get k now).2 (if l.getLast? = some a ∧ 1 < l.length then a :: l.dropLast else l) ∧
      HitSpec c (c.Get k now).2 := by
  obtain ⟨a2, ha2, ha, _⟩ := hw.lookup_some hk
  cases ha2
  have hiff := next_none_iff hw.links ha hw.nodup
  by_cases hcond : l.getLast? = some a ∧ 1 < l.length
  · rw [if_pos hcond]
    obtain ⟨t, h, hl, ht, hh, hp, hn, hhd⟩ := tail_shape hw.links hcond.1 hcond.2
    have hsz : 1 < c.size := by rw [hw.size_eq]; exact hcond.2
    have heq : (c.Get k now).2 = (relinked c a t h).emit Event.Hit := by
      unfold Cache.Get
      rw [hk]
      simp [he, hn, hsz, movetohead_eq hk hn hp hhd]
    rw [heq]
    have hw2 := hw
    rw [hl] at hw2
    exact ⟨WFl_emit (WFl_relinked hw2 ht hh) _, rfl, rfl, rfl, rfl,
      fun b => relinked_key c a t h b, fun b => relinked_value c a t h b,
      fun b => relinked_expiration c a t h b⟩
  · rw [if_neg hcond]
    have hn : ¬ ((c.mem a).next = none ∧ 1 < c.size) := by
      rw [hiff, hw.size_eq]; exact hcond
    have heq : (c.Get k now).2 = c.emit Event.Hit := by
      unfold Cache.Get
      rw [hk]
      simp only [gt_iff_lt, he, if_true]
      rw [if_neg]
      simpa using hn
    rw [heq]
    exact ⟨WFl_emit hw _, rfl, rfl, rfl, rfl, fun _ => rfl, fun _ => rfl, fun _ => rfl⟩

/-- The loop of `Reset` on a complete list of `fuel` nodes or fewer: it ends, leaves `head`
nil, recycles every node and reports one deletion per node. -/
theorem resetLoop_spec {l : List Ptr} :
    ∀ (c : Cache K V) (p : Option Ptr) (fuel : Nat), seg c.mem p l c.head none → l.Nodup →
      l.length ≤ fuel →
      ∃ c2, c.resetLoop fuel = some c2 ∧ c2.head = none ∧
        c2.pool = (l.reverse.map some) ++ c.pool ∧ c2.brk = c.brk ∧
        c2.maxsize = c.maxsize ∧
        c2.metrics = c.metrics ++ List.replicate l.length Event.Delete := by
  induction l with
  | nil =>
    intro c p fuel hs _ _
    have hh : c.head = none := hs
    refine ⟨c, ?_, hh, by simp, rfl, rfl, by simp⟩
    cases fuel with
    | zero => simp [Cache.resetLoop, hh]
    | succ n => simp [Cache.resetLoop, hh]
  | cons a l ih =>
    intro c p fuel hs hnd hf
    obtain ⟨h1, _, h3⟩ := hs
    cases fuel with
    | zero => simp at hf
    | succ n =>
      have hal : a ∉ l := (List.nodup_cons.mp hnd).1
      have hs2 : seg (((({ c with head := (c.mem a).next } : Cache K V).wPrev a none).wNext a
          none).poolPut (some a) |>.emit Event.Delete).mem (some a) l (c.mem a).next none := by
        refine seg_congr (fun b hb => ?_) h3
        have : b ≠ a := fun e => hal (e ▸ hb)
        simp [Cache.wPrev, Cache.wNext, Cache.modify, Cache.poolPut, Cache.emit,
          Function.update_apply, this]
      obtain ⟨c2, r1, r2, r3, r4, r5, r6⟩ := ih _ (some a) n hs2 (List.nodup_cons.mp hnd).2
        (by simpa using hf)
      refine ⟨c2, ?_, r2, ?_, r4, r5, ?_⟩
      · simp only [Cache.resetLoop, h1]
        exact r1
      · rw [r3]
        simp [Cache.poolPut, Cache.emit, Cache.wPrev, Cache.wNext, Cache.modify]
      · rw [r6]
        simp [Cache.poolPut, Cache.emit, Cache.wPrev, Cache.wNext, Cache.modify,
          List.replicate_succ]

/-- Method `Reset` on a well-formed cache ends within `size` rounds of its loop, returns a nil
error and leaves a well-formed empty cache. -/
theorem Reset_WFl [DecidableEq K] {c : Cache K V} {l : List Ptr} (hw : WFl c l) {fuel : Nat}
    (hf : c.size ≤ fuel) :
    ∃ c2, c.Reset fuel = some (none, c2) ∧ WFl c2 [] ∧ ResetSpec c c2 := by
  obtain ⟨c1, r1, r2, r3, r4, r5, r6⟩ := resetLoop_spec c none fuel hw.links hw.nodup
    (by rw [← hw.size_eq]; exact hf)
  refine ⟨{ c1 with index := ∅, tail := none, size := 0 }, ?_, ?_, ?_⟩
  · unfold Cache.Reset
    rw [r1]
  · refine ⟨r2, rfl, List.nodup_nil, rfl, rfl, fun a ha => absurd ha (List.not_mem_nil a),
      fun k hk => absurd hk (List.not_mem_nil k), ?_, ?_,
      fun a ha => absurd ha (List.not_mem_nil a)⟩
    · intro p hp
      show freeOk c1.brk [] p
      rw [r4]
      have hp2 : p ∈ l.reverse.map some ++ c.pool := by rw [← r3]; exact hp
      rcases List.mem_append.mp hp2 with hp3 | hp3
      · obtain ⟨a, ha, rfl⟩ := List.mem_map.mp hp3
        exact ⟨hw.alloc a (List.mem_reverse.mp ha), List.not_mem_nil a⟩
      · have := hw.pool_ok p hp3
        cases p with
        | none => exact this
        | some x => exact ⟨this.1, List.not_mem_nil x⟩
    · show c1.pool.Nodup
      rw [r3]
      refine List.nodup_append.mpr ⟨?_, hw.pool_nodup, ?_⟩
      · exact (List.nodup_reverse.mpr hw.nodup).map (Option.some_injective _)
      · intro p hp1 hp2
        obtain ⟨a, ha, rfl⟩ := List.mem_map.mp hp1
        exact (hw.pool_ok _ hp2).2 (List.mem_reverse.mp ha)
  · exact ⟨rfl, r2, rfl, rfl, r5, by rw [hw.size_eq]; exact r6⟩

theorem walk_length_le {mem : Ptr → cacheItem K V} {l : List Ptr} {p cur : Option Ptr}
    (hs : seg mem p l cur none) (fuel : Nat) : (walk mem fuel cur).length ≤ l.length := by
  induction l generalizing p cur fuel with
  | nil =>
    have : cur = none := hs
    subst this
    cases fuel <;> simp [walk]
  | cons a l ih =>
    obtain ⟨h1, _, h3⟩ := hs
    subst h1
    cases fuel with
    | zero => simp [walk]
    | succ n =>
      simp only [walk, List.length_cons]
      exact Nat.succ_le_succ (ih h3 n)

/-- Method `Set` keeps a well-formed cache of capacity at least 1 within its capacity. -/
theorem Set_bounded [DecidableEq K] [Inhabited K] [Inhabited V] {c : Cache K V} (hw : WF c)
    (hmax : 1 ≤ c.maxsize) (hsz : c.size ≤ c.maxsize) (k : K) (v : V) (ttl : Int) (now : Time) :
    ∃ c2, c.Set k v ttl now = some c2 ∧ WF c2 ∧ c2.size ≤ c2.maxsize ∧
      c2.maxsize = c.maxsize := by
  cases hk : c.index.lookup k with
  | some item =>
    obtain ⟨a, rfl, _, _⟩ := WFl.lookup_some hw hk
    obtain ⟨c2, h1, h2, h3⟩ := Set_found_WFl hw hk v ttl now
    exact ⟨c2, h1, WF_of_WFl h2, by rw [h3.size_eq, h3.maxsize_eq]; exact hsz, h3.maxsize_eq⟩
  | none =>
    obtain ⟨a, c2, h1, h2, _, h4⟩ := Set_new_WFl hw hk v ttl now
    have hm := (evict_data hw).1
    refine ⟨c2, h1, WF_of_WFl h2, ?_, by rw [h4.maxsize_eq, hm]⟩
    rw [h4.size_eq, h4.maxsize_eq, hm]
    by_cases hfull : c.size = c.maxsize
    · have hpos : 0 < c.nodes.length := by rw [← WFl.size_eq hw, hfull]; exact hmax
      rcases List.eq_nil_or_concat c.nodes with h0 | ⟨l0, t, hl⟩
      · rw [h0] at hpos; simp at hpos
      · rw [List.concat_eq_append] at hl
        have hw2 : WFl c (l0 ++ [t]) := by rw [← hl]; exact hw
        have := (evict_WFl hw2 hfull).2.size_eq
        rw [this]
        omega
    · rw [evict_noop (Or.inl hfull)]
      omega

theorem NewCache_WF [DecidableEq K] [Inhabited K] [Inhabited V] (o : List CacheOption) :
    WFl (NewCache o : Cache K V) [] :=
  ⟨rfl, rfl, List.nodup_nil, rfl, rfl, fun a ha => absurd ha (List.not_mem_nil a),
    fun k hk => absurd hk (List.not_mem_nil k), fun p hp => absurd hp (List.not_mem_nil p),
    List.nodup_nil, fun a ha => absurd ha (List.not_mem_nil a)⟩

theorem runSets_bounded [DecidableEq K] [Inhabited K] [Inhabited V]
    (calls : List (K × V × Int × Time)) :
    ∀ (c : Cache K V), WF c → 1 ≤ c.maxsize → c.size ≤ c.maxsize →
      ∃ c2, runSets c calls = some c2 ∧ WF c2 ∧ c2.size ≤ c2.maxsize ∧
        c2.maxsize = c.maxsize := by
  induction calls with
  | nil => intro c hw _ hsz; exact ⟨c, rfl, hw, hsz, rfl⟩
  | cons x rest ih =>
    intro c hw hmax hsz
    obtain ⟨k, v, ttl, now⟩ := x
    obtain ⟨c1, h1, h2, h3, h4⟩ := Set_bounded hw hmax hsz k v ttl now
    obtain ⟨c2, g1, g2, g3, g4⟩ := ih c1 h2 (by rw [h4]; exact hmax) h3
    refine ⟨c2, ?_, g2, g3, by rw [g4, h4]⟩
    simp only [runSets, h1, Option.some_bind]
    exact g1

theorem keys_getLast_iff [DecidableEq K] {c : Cache K V} {l : List Ptr} (hw : WFl c l) {a : Ptr}
    (ha : a ∈ l) : c.keys.getLast? = some (c.mem a).key ↔ l.getLast? = some a := by
  rw [keys_of_WFl hw, List.getLast?_map]
  cases h : l.getLast? with
  | none => simp
  | some b =>
    simp only [Option.map_some', Option.some.injEq]
    constructor
    · intro e
      exact (hw.key_inj ha (List.mem_of_mem_getLast? h) e.symm).symm
    · intro e; rw [e]

theorem keys_head_iff [DecidableEq K] {c : Cache K V} {l : List Ptr} (hw : WFl c l) {a : Ptr}
    (ha : a ∈ l) : c.keys.head? = some (c.mem a).key ↔ l.head? = some a := by
  rw [keys_of_WFl hw, List.head?_map]
  cases h : l.head? with
  | none => simp
  | some b =>
    simp only [Option.map_some', Option.some.injEq]
    constructor
    · intro e
      exact (hw.key_inj ha (List.mem_of_mem_head? h) e.symm).symm
    · intro e; rw [e]

theorem keys_length [DecidableEq K] {c : Cache K V} {l : List Ptr} (hw : WFl c l) :
    c.keys.length = l.length := by
  rw [keys_of_WFl hw, List.length_map]

/-- The keys of a list of nodes do not change when the key of no node changes. -/
theorem map_key_congr {c c2 : Cache K V} (hkey : ∀ b, (c2.mem b).key = (c.mem b).key)
    (l : List Ptr) : (l.map fun a => (c2.mem a).key) = l.map fun a => (c.mem a).key :=
  List.map_congr_left fun b _ => hkey b

/-- The key order after `Set` of a present key: the key goes to the front when it was the
last of several, and the order is unchanged otherwise. -/
theorem Set_found_keys [DecidableEq K] [Inhabited K] [Inhabited V] {c : Cache K V}
    (hw : WF c) {k : K} {a : Ptr} (hk : c.index.lookup k = some (some a))
    (v : V) (ttl : Int) (now : Time) :
    ∃ c2, c.Set k v ttl now = some c2 ∧ WF c2 ∧ SetFoundSpec c c2 a v (now + ttl) ∧
      c2.keys = if c.keys.getLast? = some k ∧ 1 < c.keys.length then k :: c.keys.dropLast
        else c.keys := by
  obtain ⟨a2, ha2, ha, hkey⟩ := WFl.lookup_some hw hk
  cases ha2
  obtain ⟨c2, h1, h2, h3⟩ := Set_found_WFl hw hk v ttl now
  refine ⟨c2, h1, WF_of_WFl h2, h3, ?_⟩
  have hcond : (c.keys.getLast? = some k ∧ 1 < c.keys.length) ↔
      (c.nodes.getLast? = some a ∧ 1 < c.nodes.length) := by
    rw [← hkey, keys_getLast_iff hw ha, keys_length hw]
  rw [keys_of_WFl h2]
  by_cases hc : c.nodes.getLast? = some a ∧ 1 < c.nodes.length
  · rw [if_pos hc, if_pos (hcond.mpr hc), List.map_cons, h3.key_eq, hkey,
      map_key_congr h3.key_eq, keys_of_WFl hw, List.map_dropLast]
  · rw [if_neg hc, if_neg (fun h => hc (hcond.mp h)), map_key_congr h3.key_eq, keys_of_WFl hw]

/-- The key order after a hitting `Get`: as after `Set` of a present key. -/
theorem Get_hit_keys [DecidableEq K] [Inhabited V] {c : Cache K V}
    (hw : WF c) {k : K} {a : Ptr} (hk : c.index.lookup k = some (some a)) {now : Time}
    (he : now < (c.mem a).expiration) :
    WF (c.Get k now).2 ∧ HitSpec c (c.Get k now).2 ∧
      (c.Get k now).2.keys = if c.keys.getLast? = some k ∧ 1 < c.keys.length
        then k :: c.keys.dropLast else c.keys := by
  obtain ⟨a2, ha2, ha, hkey⟩ := WFl.lookup_some hw hk
  cases ha2
  obtain ⟨h2, h3⟩ := Get_hit_WFl hw hk he
  refine ⟨WF_of_WFl h2, h3, ?_⟩
  have hcond : (c.keys.getLast? = some k ∧ 1 < c.keys.length) ↔
      (c.nodes.getLast? = some a ∧ 1 < c.nodes.length) := by
    rw [← hkey, keys_getLast_iff hw ha, keys_length hw]
  rw [keys_of_WFl h2]
  by_cases hc : c.nodes.getLast? = some a ∧ 1 < c.nodes.length
  · rw [if_pos hc, if_pos (hcond.mpr hc), List.map_cons, h3.key_eq, hkey,
      map_key_congr h3.key_eq, keys_of_WFl hw, List.map_dropLast]
  · rw [if_neg hc, if_neg (fun h => hc (hcond.mp h)), map_key_congr h3.key_eq, keys_of_WFl hw]

theorem entry_eq_some [DecidableEq K] {c : Cache K V} {k : K} {val : V} {e : Time} :
    c.entry k = some (val, e) ↔
      ∃ a, c.index.lookup k = some (some a) ∧ (c.mem a).value = val ∧
        (c.mem a).expiration = e := by
  unfold Cache.entry
  cases h : c.index.lookup k with
  | none => simp
  | some item =>
    cases item with
    | none => simp
    | some a => simp

theorem entry_of_lookup [DecidableEq K] {c : Cache K V} {k : K} {a : Ptr}
    (h : c.index.lookup k = some (some a)) :
    c.entry k = some ((c.mem a).value, (c.mem a).expiration) := by
  unfold Cache.entry
  rw [h]

/-- In a well-formed cache every index key is bound to a node of the list. -/
theorem WFl.lookup_of_mem_keys [DecidableEq K] {c : Cache K V} {l : List Ptr} (h : WFl c l)
    {k : K} (hk : k ∈ c.index.keys) :
    ∃ a, c.index.lookup k = some (some a) ∧ a ∈ l ∧ (c.mem a).key = k := by
  obtain ⟨a, ha, hka⟩ := h.listed k hk
  exact ⟨a, by rw [← hka]; exact h.indexed a ha, ha, hka⟩

theorem mem_keys_of_lookup [DecidableEq K] {c : Cache K V} {k : K} {item : Option Ptr}
    (h : c.index.lookup k = some item) : k ∈ c.index.keys := by
  rw [← AList.mem_keys, ← AList.lookup_isSome, h]; rfl

/-- A `Get` that reports a hit found an entry that has not expired. -/
theorem Get_found [DecidableEq K] [Inhabited V] {c : Cache K V} {k : K} {now : Time}
    (h : (c.Get k now).1.2 = true) :
    ∃ a, c.index.lookup k = some (some a) ∧ now < (c.mem a).expiration := by
  unfold Cache.Get at h
  cases hk : c.index.lookup k with
  | none => rw [hk] at h; simp at h
  | some item =>
    cases item with
    | none => rw [hk] at h; simp at h
    | some a =>
      refine ⟨a, rfl, ?_⟩
      rw [hk] at h
      by_contra hn
      simp [hn] at h

/-- Method `Set` at full capacity, for a key that is not in the index: the node `t` at the
tail goes, and a node `a` for the key comes in front of the others. -/
theorem Set_full_WFl [DecidableEq K] [Inhabited K] [Inhabited V] {c : Cache K V}
    {l0 : List Ptr} {t : Ptr} (hw : WFl c (l0 ++ [t])) (hfull : c.size = c.maxsize) {k : K}
    (hk : c.index.lookup k = none) (v : V) (ttl : Int) (now : Time) :
    ∃ a c2, c.Set k v ttl now = some c2 ∧ WFl c2 (a :: l0) ∧ a ∉ l0 ∧
      c2.index = (c.index.erase (c.mem t).key).insert k (some a) ∧
      c2.size = c.size ∧ c2.maxsize = c.maxsize ∧
      c2.metrics = c.metrics ++ [Event.Delete, Event.Evict, Event.Add] ∧
      (c2.mem a).key = k ∧ (c2.mem a).value = v ∧ (c2.mem a).expiration = now + ttl ∧
      ∀ b, b ≠ a → (c2.mem b).key = (c.mem b).key ∧ (c2.mem b).value = (c.mem b).value ∧
        (c2.mem b).expiration = (c.mem b).expiration := by
  obtain ⟨a, c2, h1, h2, h3, h4⟩ := Set_new_WFl hw hk v ttl now
  rw [if_pos hfull, List.dropLast_concat] at h2 h3
  have hs := (evict_WFl hw hfull).2
  have hpos : 0 < c.size := by rw [hw.size_eq]; simp
  refine ⟨a, c2, h1, h2, h3, by rw [h4.index_eq, hs.index_eq], ?_, by
    rw [h4.maxsize_eq, hs.maxsize_eq], by rw [h4.metrics_eq, hs.metrics_eq]; simp,
    h4.key_new, h4.value_new, h4.expiration_new, fun b hb => ⟨?_, ?_, ?_⟩⟩
  · rw [h4.size_eq, hs.size_eq]; omega
  · rw [h4.key_eq b hb, hs.key_eq]
  · rw [h4.value_eq b hb, hs.value_eq]
  · rw [h4.expiration_eq b hb, hs.expiration_eq]

/-- A `Get` at or after the expiration of the entry misses and lowers `size` by one. -/
theorem Get_expired_size [DecidableEq K] [Inhabited V] (c : Cache K V) (hwf : WF c) (k : K)
    (a : Ptr) (hk : c.index.lookup k = some (some a)) (now : Time)
    (hexp : (c.mem a).expiration ≤ now) :
    (c.Get k now).1 = (default, false) ∧ (c.Get k now).2.size + 1 = c.size := by
  obtain ⟨a2, ha2, ha, _⟩ := WFl.lookup_some hwf hk
  cases ha2
  have hpos : 0 < c.size := by
    rw [WFl.size_eq hwf]; exact List.length_pos_of_mem ha
  have hne : c.size ≠ 0 := Nat.pos_iff_ne_zero.mp hpos
  have hnot : ¬ now < (c.mem a).expiration := not_lt.mpr hexp
  have hu := (unlink_effect_of_WFl hwf ha).2.1
  unfold Cache.Get
  rw [hk]
  simp only [gt_iff_lt, hnot, if_false, true_and]
  unfold Cache.deleteexpired
  rw [hk]
  by_cases hlt : (c.mem a).expiration < now
  · simp [hlt, Cache.poolPut, Cache.emit, hu, hpos, hne]
    omega
  · simp [hlt, Cache.poolPut, Cache.emit, hpos, hne]
    omega

theorem head_of_getLast_single {α : Type} {l : List α} {x : α} (h : l.getLast? = some x)
    (hlen : ¬ 1 < l.length) : l.head? = some x := by
  cases l with
  | nil => simp at h
  | cons y r =>
    cases r with
    | nil => simpa using h
    | cons z r => simp at hlen

theorem Set_WF [DecidableEq K] [Inhabited K] [Inhabited V] {c : Cache K V} (hw : WF c) (k : K)
    (v : V) (ttl : Int) (now : Time) : ∃ c2, c.Set k v ttl now = some c2 ∧ WF c2 := by
  obtain ⟨c2, _, h1, h2, _⟩ := Set_entry hw k v ttl now
  exact ⟨c2, h1, h2⟩

theorem Get_WF_of_hit_or_absent [DecidableEq K] [Inhabited V] {c : Cache K V} (hw : WF c)
    (k : K) (now : Time) (h : (c.Get k now).1.2 = true ∨ c.index.lookup k = none) :
    WF (c.Get k now).2 := by
  rcases h with h | h
  · obtain ⟨a, ha, hlt⟩ := Get_found h
    exact (Get_hit_keys hw ha hlt).1
  · rw [Get_absent h]
    exact WFl_emit hw _

theorem keys_nodup [DecidableEq K] {c : Cache K V} {l : List Ptr} (hw : WFl c l) :
    c.keys.Nodup := by
  rw [keys_of_WFl hw]
  exact List.Nodup.map_on (fun a ha b hb e => hw.key_inj ha hb e) hw.nodup

/-- The key order after `Set` of a key that is not in the index. -/
theorem Set_new_keys [DecidableEq K] [Inhabited K] [Inhabited V] {c : Cache K V}
    (hw : WF c) {k : K} (hk : c.index.lookup k = none) (v : V) (ttl : Int) (now : Time) :
    ∃ c2, c.Set k v ttl now = some c2 ∧ WF c2 ∧
      c2.keys = k :: (if c.size = c.maxsize then c.keys.dropLast else c.keys) := by
  obtain ⟨a, c2, h1, h2, h3, h4⟩ := Set_new_WFl hw hk v ttl now
  refine ⟨c2, h1, WF_of_WFl h2, ?_⟩
  have hd := (evict_data hw).2.1
  have hmap : ∀ l : List Ptr, a ∉ l →
      (l.map fun b => (c2.mem b).key) = l.map fun b => (c.mem b).key := by
    intro l hal
    refine List.map_congr_left fun b hb => ?_
    have : b ≠ a := fun e => hal (e ▸ hb)
    rw [h4.key_eq b this, (hd b).1]
  rw [keys_of_WFl h2, List.map_cons, h4.key_new, hmap _ h3, keys_of_WFl hw]
  by_cases hf : c.size = c.maxsize
  · simp only [if_pos hf, List.map_dropLast]
  · simp only [if_neg hf]

theorem deleteKey_keys_sublist [DecidableEq K] {c : Cache K V} (hw : WF c) (k : K) :
    (c.deleteKey k).keys.Sublist c.keys := by
  cases hk : c.index.lookup k with
  | none => rw [deleteKey_absent hk]
  | some item =>
    obtain ⟨a, rfl, _, _⟩ := WFl.lookup_some hw hk
    obtain ⟨h1, h2⟩ := deleteKey_present hw hk
    rw [keys_of_WFl h1, keys_of_WFl hw, map_key_congr h2.key_eq]
    exact List.Sublist.map _ (List.erase_sublist a _)

theorem Delete_keys_sublist [DecidableEq K] {c : Cache K V} (hw : WF c) (ks : List K) :
    (c.Delete ks).keys.Sublist c.keys := by
  unfold Cache.Delete
  induction ks generalizing c with
  | nil => exact List.Sublist.refl _
  | cons k ks ih =>
    exact (ih (deleteKey_WF hw k)).trans (deleteKey_keys_sublist hw k)

/-- A touch at the head or at the tail puts the key in front and keeps the other keys in
their order. -/
theorem edge_keys {α : Type} [DecidableEq α] {keys : List α} {k : α} (hnd : keys.Nodup)
    (h : keys.head? = some k ∨ keys.getLast? = some k) :
    (if keys.getLast? = some k ∧ 1 < keys.length then k :: keys.dropLast else keys) =
      k :: keys.erase k := by
  by_cases hc : keys.getLast? = some k ∧ 1 < keys.length
  · rw [if_pos hc]
    have := List.dropLast_append_getLast? k hc.1
    have hnd2 := hnd
    rw [← this] at hnd2
    have hk : k ∉ keys.dropLast := fun hm =>
      (List.nodup_append.mp hnd2).2.2 hm (List.mem_singleton_self k)
    conv_rhs => rw [← this, List.erase_append_right _ hk]
    simp
  · rw [if_neg hc]
    have hh : keys.head? = some k := by
      rcases h with h | h
      · exact h
      · exact head_of_getLast_single h (fun hlen => hc ⟨h, hlen⟩)
    cases keys with
    | nil => simp at hh
    | cons x r =>
      simp at hh
      subst hh
      simp

/-- Touching the key that comes to the front keeps the list in decreasing recency. -/
theorem ordered_touch {α : Type} [DecidableEq α] {keys rest : List α} {k : α}
    {touch : α → Nat} {clock : Nat} (hs : rest.Sublist keys) (hk : k ∉ rest)
    (hord : (keys.map touch).Pairwise fun x y => y < x) (hb : ∀ x ∈ keys, touch x ≤ clock) :
    (((k :: rest).map (Function.update touch k (clock + 1))).Pairwise fun x y => y < x) ∧
      ∀ x ∈ k :: rest, Function.update touch k (clock + 1) x ≤ clock + 1 := by
  have hmap : rest.map (Function.update touch k (clock + 1)) = rest.map touch := by
    refine List.map_congr_left fun x hx => ?_
    have : x ≠ k := fun e => hk (e ▸ hx)
    simp [Function.update_apply, this]
  constructor
  · rw [List.map_cons, hmap, List.pairwise_cons]
    constructor
    · intro y hy
      obtain ⟨x, hx, rfl⟩ := List.mem_map.mp hy
      have := hb x (hs.subset hx)
      simp only [Function.update_same]
      omega
    · exact hord.sublist (hs.map touch)
  · intro x hx
    rcases List.mem_cons.mp hx with rfl | hx
    · simp
    · have : x ≠ k := fun e => hk (e ▸ hx)
      simp only [Function.update_apply, this, if_false]
      have := hb x (hs.subset hx)
      omega

theorem mem_index_of_mem_keys [DecidableEq K] {c : Cache K V} (hw : WF c) {k : K}
    (hk : k ∈ c.keys) : k ∈ c.index.keys := by
  rw [keys_of_WFl hw] at hk
  obtain ⟨a, ha, rfl⟩ := List.mem_map.mp hk
  exact mem_keys_of_lookup (WFl.indexed hw a ha)

theorem lookup_none_of_not_mem [DecidableEq K] {c : Cache K V} {k : K}
    (hk : k ∉ c.index.keys) : c.index.lookup k = none := by
  rw [AList.lookup_eq_none, AList.mem_keys]; exact hk

theorem Set_maxsize [DecidableEq K] [Inhabited K] [Inhabited V] {c c2 : Cache K V}
    (hw : WF c) {k : K} {v : V} {ttl : Int} {now : Time} (h : c.Set k v ttl now = some c2) :
    c2.maxsize = c.maxsize := by
  cases hk : c.index.lookup k with
  | none =>
    obtain ⟨a, c3, h1, _, _, h4⟩ := Set_new_WFl hw hk v ttl now
    rw [h] at h1
    cases h1
    rw [h4.maxsize_eq, (evict_data hw).1]
  | some item =>
    obtain ⟨a, rfl, _, _⟩ := WFl.lookup_some hw hk
    obtain ⟨c3, h1, _, h3⟩ := Set_found_WFl hw hk v ttl now
    rw [h] at h1
    cases h1
    exact h3.maxsize_eq

theorem deleteKey_maxsize [DecidableEq K] {c : Cache K V} (hw : WF c) (k : K) :
    (c.deleteKey k).maxsize = c.maxsize := by
  cases hk : c.index.lookup k with
  | none => rw [deleteKey_absent hk]
  | some item =>
    obtain ⟨a, rfl, _, _⟩ := WFl.lookup_some hw hk
    exact (deleteKey_present hw hk).2.maxsize_eq

theorem Delete_maxsize [DecidableEq K] {c : Cache K V} (hw : WF c) (ks : List K) :
    (c.Delete ks).maxsize = c.maxsize := by
  unfold Cache.Delete
  induction ks generalizing c with
  | nil => rfl
  | cons k ks ih =>
    exact (ih (deleteKey_WF hw k)).trans (deleteKey_maxsize hw k)

/-- One call that touches no key strictly inside the list keeps the invariant of the run. -/
theorem step_inv [DecidableEq K] [Inhabited K] [Inhabited V] {r : Run K V} (hi : RunInv r)
    (op : Op K V) (he : edgeCall r.cache op = true) :
    ∃ r2, r.step op = some r2 ∧ RunInv r2 ∧ r2.cache.maxsize = r.cache.maxsize := by
  have hnd := keys_nodup hi.wf
  cases op with
  | set k v ttl now =>
    by_cases hk : k ∈ r.cache.index.keys
    · obtain ⟨a, ha, _, _⟩ := WFl.lookup_of_mem_keys hi.wf hk
      obtain ⟨c2, h1, h2, h3, h4⟩ := Set_found_keys hi.wf ha v ttl now
      have hedge : r.cache.keys.head? = some k ∨ r.cache.keys.getLast? = some k := by
        simp only [edgeCall, decide_eq_true_eq] at he
        exact he hk
      rw [edge_keys hnd hedge] at h4
      obtain ⟨o1, o2⟩ := ordered_touch (List.erase_sublist k _) (hnd.not_mem_erase)
        hi.ordered hi.bounded
      refine ⟨{ cache := c2, touch := Function.update r.touch k (r.clock + 1),
                clock := r.clock + 1 },
        by simp only [Run.step, h1, Option.map_some'], ⟨h2, ?_, ?_⟩, h3.maxsize_eq⟩
      · show ((c2.keys.map _).Pairwise _)
        rw [h4]; exact o1
      · show ∀ x ∈ c2.keys, _
        rw [h4]; exact o2
    · have hl := lookup_none_of_not_mem hk
      obtain ⟨c2, h1, h2, h4⟩ := Set_new_keys hi.wf hl v ttl now
      have hkk : k ∉ r.cache.keys := fun hm => hk (mem_index_of_mem_keys hi.wf hm)
      have hsub : (if r.cache.size = r.cache.maxsize then r.cache.keys.dropLast
          else r.cache.keys).Sublist r.cache.keys := by
        split_ifs
        · exact List.dropLast_sublist _
        · exact List.Sublist.refl _
      obtain ⟨o1, o2⟩ := ordered_touch hsub (fun hm => hkk (hsub.subset hm))
        hi.ordered hi.bounded
      refine ⟨{ cache := c2, touch := Function.update r.touch k (r.clock + 1),
                clock := r.clock + 1 },
        by simp only [Run.step, h1, Option.map_some'], ⟨h2, ?_, ?_⟩, Set_maxsize hi.wf h1⟩
      · show ((c2.keys.map _).Pairwise _)
        rw [h4]; exact o1
      · show ∀ x ∈ c2.keys, _
        rw [h4]; exact o2
  | get k now =>
    simp only [edgeCall, Bool.and_eq_true, decide_eq_true_eq] at he
    obtain ⟨hhit, hedge⟩ := he
    obtain ⟨a, ha, hlt⟩ := Get_found hhit
    obtain ⟨h2, h3, h4⟩ := Get_hit_keys hi.wf ha hlt
    rw [edge_keys hnd hedge] at h4
    obtain ⟨o1, o2⟩ := ordered_touch (List.erase_sublist k _) (hnd.not_mem_erase)
      hi.ordered hi.bounded
    refine ⟨_, rfl, ⟨h2, ?_, ?_⟩, h3.maxsize_eq⟩
    · show (((r.cache.Get k now).2.keys.map _).Pairwise _)
      rw [h4, if_pos hhit]; exact o1
    · show ∀ x ∈ (r.cache.Get k now).2.keys, _
      rw [h4]
      simp only [if_pos hhit]
      exact o2
  | delete ks =>
    have hsub := Delete_keys_sublist hi.wf ks
    refine ⟨_, rfl, ⟨Delete_WF hi.wf ks, ?_, ?_⟩, Delete_maxsize hi.wf ks⟩
    · exact hi.ordered.sublist (hsub.map _)
    · intro x hx
      exact Nat.le_succ_of_le (hi.bounded x (hsub.subset hx))

/-- A sequence of calls that touch no key strictly inside the list does not fault and keeps
the invariant of the run. -/
theorem steps_inv [DecidableEq K] [Inhabited K] [Inhabited V] (ops : List (Op K V)) :
    ∀ r : Run K V, RunInv r → r.edgeOnly ops = true →
      ∃ r2, r.steps ops = some r2 ∧ RunInv r2 ∧ r2.cache.maxsize = r.cache.maxsize := by
  induction ops with
  | nil => intro r hi _; exact ⟨r, rfl, hi, rfl⟩
  | cons op rest ih =>
    intro r hi he
    simp only [Run.edgeOnly, Bool.and_eq_true] at he
    obtain ⟨he1, he2⟩ := he
    obtain ⟨r1, h1, h2, h3⟩ := step_inv hi op he1
    rw [h1] at he2
    obtain ⟨r2, g1, g2, g3⟩ := ih r1 h2 he2
    refine ⟨r2, ?_, g2, by rw [g3, h3]⟩
    simp only [Run.steps, h1, Option.some_bind]
    exact g1

theorem freshRun_inv [DecidableEq K] [Inhabited K] [Inhabited V] (maxSize : Nat) :
    RunInv (freshRun maxSize : Run K V) :=
  ⟨WF_of_WFl (NewCache_WF _), List.Pairwise.nil, fun x hx => absurd hx (List.not_mem_nil x)⟩

/-- In a list in strictly decreasing recency the last key is the least recently touched. -/
theorem last_is_oldest {α : Type} {keys : List α} {touch : α → Nat} {ev : α}
    (hord : (keys.map touch).Pairwise fun x y => y < x)
    (hl : keys.getLast? = some ev) : ∀ k2 ∈ keys, k2 ≠ ev → touch ev < touch k2 := by
  have := List.dropLast_append_getLast? ev hl
  rw [← this] at hord
  rw [← this]
  intro k2 hk2 hne
  rw [List.map_append, List.pairwise_append] at hord
  rcases List.mem_append.mp hk2 with h | h
  · exact hord.2.2 (touch k2) (List.mem_map_of_mem _ h) (touch ev) (by simp)
  · simp at h; exact absurd h hne

theorem exCache_run :
    runSets (NewCache [CacheOption.WithMaxSize 3])
      [(1, 10, 5, 0), (2, 20, 5, 0), (3, 30, 5, 0)] = some exCache := rfl

/-- A well-formed cache has no more nodes in its list than were allocated. -/
theorem size_le_brk [DecidableEq K] {c : Cache K V} {l : List Ptr} (hw : WFl c l) :
    c.size ≤ c.brk := by
  rw [hw.size_eq]
  have hsub : l ⊆ List.range c.brk := fun a ha => List.mem_range.mpr (hw.alloc a ha)
  have := (List.subperm_of_subset hw.nodup hsub).length_le
  simpa using this

/-- The result of the loop of `Reset` does not depend on the fuel that lets it end. -/
theorem resetLoop_det (n : Nat) : ∀ (c d : Cache K V), c.resetLoop n = some d →
    ∀ m d2, c.resetLoop m = some d2 → d = d2 := by
  induction n with
  | zero =>
    intro c d hd m d2 hd2
    have hh : c.head = none := by
      by_contra hne
      simp [Cache.resetLoop, hne] at hd
    cases m with
    | zero => simp [Cache.resetLoop, hh] at hd hd2; rw [← hd, ← hd2]
    | succ m => simp [Cache.resetLoop, hh] at hd hd2; rw [← hd, ← hd2]
  | succ n ih =>
    intro c d hd m d2 hd2
    cases hh : c.head with
    | none =>
      cases m with
      | zero => simp [Cache.resetLoop, hh] at hd hd2; rw [← hd, ← hd2]
      | succ m => simp [Cache.resetLoop, hh] at hd hd2; rw [← hd, ← hd2]
    | some a =>
      cases m with
      | zero => simp [Cache.resetLoop, hh] at hd2
      | succ m =>
        simp only [Cache.resetLoop, hh] at hd hd2
        exact ih _ d hd m d2 hd2

/-- Whenever the loop of `Reset` ends on a well-formed cache, the result is well-formed. -/
theorem Reset_WF_of_eq [DecidableEq K] {c c2 : Cache K V} (hw : WF c) {fuel : Nat}
    {err : error} (h : c.Reset fuel = some (err, c2)) : WF c2 := by
  obtain ⟨c3, h1, h2, _⟩ := Reset_WFl hw (le_refl c.size)
  unfold Cache.Reset at h h1
  cases hf : c.resetLoop fuel with
  | none => rw [hf] at h; simp at h
  | some d =>
    cases hs : c.resetLoop c.size with
    | none => rw [hs] at h1; simp at h1
    | some d2 =>
      rw [hf] at h
      rw [hs] at h1
      have hd := resetLoop_det fuel c d hf c.size d2 hs
      simp only [Option.some.injEq, Prod.mk.injEq] at h h1
      rw [← h.2, hd, h1.2]
      exact WF_of_WFl h2

/-- Every state reached from a fresh cache without an expiring `Get` is well-formed. -/
theorem Reach_WF [DecidableEq K] [Inhabited K] [Inhabited V] {c : Cache K V} (h : Reach c) :
    WF c := by
  induction h with
  | fresh o => exact WF_of_WFl (NewCache_WF o)
  | set k v ttl now _ hs ih =>
    obtain ⟨c3, h1, h2⟩ := Set_WF ih k v ttl now
    rw [hs] at h1
    cases h1
    exact h2
  | delete ks _ ih => exact Delete_WF ih ks
  | reset fuel err _ hr ih => exact Reset_WF_of_eq ih hr
  | get k now _ hg ih => exact Get_WF_of_hit_or_absent ih k now hg

/-- Method `deleteexpired` for a key whose entry expired strictly before `tm`: the node is
taken out of the list, the key out of the index, and the cache stays well-formed. -/
theorem deleteexpired_strict [DecidableEq K] {c : Cache K V} {l : List Ptr} (hw : WFl c l)
    {k : K} {a : Ptr} (hk : c.index.lookup k = some (some a)) {tm : Time}
    (he : (c.mem a).expiration < tm) :
    WFl (c.deleteexpired k tm) (l.erase a) ∧ (c.deleteexpired k tm).index = c.index.erase k ∧
      (c.deleteexpired k tm).size = c.size - 1 ∧
      (c.deleteexpired k tm).metrics = c.metrics := by
  obtain ⟨a2, ha2, ha, hkey⟩ := hw.lookup_some hk
  cases ha2
  have hpos : 0 < c.size := by
    rw [hw.size_eq]; exact List.length_pos_of_mem ha
  have hpos2 : c.size ≠ 0 := Nat.pos_iff_ne_zero.mp hpos
  obtain ⟨e3, e4, e5, e6, e7, e8, e9⟩ := unlink_effect_of_WFl hw ha
  obtain ⟨u1, u2⟩ := unlink_links hw ha
  have heq : c.deleteexpired k tm = { ((c.unlink a).poolPut (some a)) with
      index := c.index.erase k, size := c.size - 1 } := by
    unfold Cache.deleteexpired
    rw [hk]
    simp [Cache.poolPut, he, e3, e4, hpos, hpos2]
  rw [heq]
  refine ⟨?_, rfl, rfl, by simp [Cache.poolPut, e6]⟩
  exact WFl_remove _ hw ha u1 u2 (by rw [hkey]) rfl (by simp [Cache.poolPut, e7])
    e8 (fun b => (e9 b).1)

/-- A `Get` strictly after the expiration of the entry removes it: the key leaves the
index, its node leaves the list, and the cache stays well-formed. -/
theorem Get_expired_strict [DecidableEq K] [Inhabited V] {c : Cache K V} {l : List Ptr}
    (hw : WFl c l) {k : K} {a : Ptr} (hk : c.index.lookup k = some (some a)) {now : Time}
    (he : (c.mem a).expiration < now) :
    WFl (c.Get k now).2 (l.erase a) ∧ (c.Get k now).2.index.lookup k = none ∧
      (c.Get k now).2.metrics = c.metrics ++ [Event.Miss, Event.Evict, Event.Delete] := by
  obtain ⟨d1, d2, _, d4⟩ := deleteexpired_strict hw hk he
  have hnot : ¬ now < (c.mem a).expiration := not_lt.mpr (le_of_lt he)
  have heq : (c.Get k now).2 =
      (((c.deleteexpired k now).emit Event.Miss).emit Event.Evict).emit Event.Delete := by
    unfold Cache.Get
    rw [hk]
    simp [hnot]
  rw [heq]
  refine ⟨WFl_emit (WFl_emit (WFl_emit d1 _) _) _, ?_, ?_⟩
  · show (c.deleteexpired k now).index.lookup k = none
    rw [d2, AList.lookup_erase]
  · show (c.deleteexpired k now).metrics ++ [Event.Miss] ++ [Event.Evict] ++ [Event.Delete] = _
    rw [d4]; simp

theorem mem_keys_iff_mem_index [DecidableEq K] {c : Cache K V} (hw : WF c) (k : K) :
    k ∈ c.keys ↔ k ∈ c.index.keys := by
  constructor
  · exact mem_index_of_mem_keys hw
  · intro hk
    obtain ⟨a, ha, hka⟩ := WFl.listed hw k hk
    rw [keys_of_WFl hw]
    exact List.mem_map.mpr ⟨a, ha, hka⟩

/-- One round of `Delete` takes the key out of the key order and leaves the rest in place. -/
theorem deleteKey_keys [DecidableEq K] {c : Cache K V} (hw : WF c) (k : K) :
    (c.deleteKey k).keys = c.keys.filter fun x => decide (x ≠ k) := by
  cases hk : c.index.lookup k with
  | none =>
    rw [deleteKey_absent hk]
    have hkn : k ∉ c.keys := by
      rw [mem_keys_iff_mem_index hw, ← AList.mem_keys, ← AList.lookup_eq_none]; exact hk
    symm
    rw [List.filter_eq_self]
    intro x hx
    simp only [ne_eq, decide_eq_true_eq]
    exact fun e => hkn (e ▸ hx)
  | some item =>
    obtain ⟨a, rfl, ha, hka⟩ := WFl.lookup_some hw hk
    obtain ⟨h1, h2⟩ := deleteKey_present hw hk
    rw [keys_of_WFl h1, keys_of_WFl hw, map_key_congr h2.key_eq,
      (WFl.nodup hw).erase_eq_filter, List.filter_map]
    congr 1
    refine List.filter_congr fun b hb => ?_
    simp only [bne_iff_ne, ne_eq, Function.comp_apply]
    by_cases hba : b = a
    · subst hba; simp [hka]
    · have : (c.mem b).key ≠ k := fun e => hba (WFl.key_inj hw hb ha (e.trans hka.symm))
      simp [hba, this]

/-- The effect of one round of `Delete` on the counter and on the trace of events. -/
theorem deleteKey_count [DecidableEq K] {c : Cache K V} (hw : WF c) (k : K) :
    ∃ n, (c.deleteKey k).metrics = c.metrics ++ List.replicate n Event.Delete ∧
      (c.deleteKey k).size + n = c.size := by
  cases hk : c.index.lookup k with
  | none => rw [deleteKey_absent hk]; exact ⟨0, by simp, rfl⟩
  | some item =>
    obtain ⟨a, rfl, ha, hka⟩ := WFl.lookup_some hw hk
    obtain ⟨_, h2⟩ := deleteKey_present hw hk
    have hpos : 0 < c.size := by rw [WFl.size_eq hw]; exact List.length_pos_of_mem ha
    exact ⟨1, by rw [h2.metrics_eq]; rfl, by rw [h2.size_eq]; omega⟩

theorem Delete_keys [DecidableEq K] {c : Cache K V} (hw : WF c) (ks : List K) :
    (c.Delete ks).keys = c.keys.filter fun x => decide (x ∉ ks) := by
  unfold Cache.Delete
  induction ks generalizing c with
  | nil => simp
  | cons k ks ih =>
    rw [List.foldl_cons, ih (deleteKey_WF hw k), deleteKey_keys hw k, List.filter_filter]
    refine List.filter_congr fun x _ => ?_
    simp only [List.mem_cons, not_or, ne_eq, Bool.decide_and, decide_not]
    rw [Bool.and_comm]

theorem Delete_count [DecidableEq K] {c : Cache K V} (hw : WF c) (ks : List K) :
    ∃ n, (c.Delete ks).metrics = c.metrics ++ List.replicate n Event.Delete ∧
      (c.Delete ks).size + n = c.size := by
  unfold Cache.Delete
  induction ks generalizing c with
  | nil => exact ⟨0, by simp, rfl⟩
  | cons k ks ih =>
    obtain ⟨n1, h1, h2⟩ := deleteKey_count hw k
    obtain ⟨n2, g1, g2⟩ := ih (deleteKey_WF hw k)
    refine ⟨n1 + n2, ?_, ?_⟩
    · rw [List.foldl_cons, g1, h1, List.append_assoc, ← List.replicate_add]
    · rw [List.foldl_cons]; omega

/-- The number of distinct keys of `ks` that are in the index is the number of resident keys
that occur in `ks`. -/
theorem present_count [DecidableEq K] {c : Cache K V} (hw : WF c) (ks : List K) :
    (ks.dedup.filter fun k => decide (k ∈ c.index.keys)).length =
      (c.keys.filter fun x => decide (x ∈ ks)).length := by
  apply List.Perm.length_eq
  rw [List.perm_ext_iff_of_nodup ((List.nodup_dedup ks).filter _) ((keys_nodup hw).filter _)]
  intro x
  simp only [List.mem_filter, List.mem_dedup, decide_eq_true_eq, mem_keys_iff_mem_index hw]
  exact And.comm

theorem filter_split_length {α : Type} (p : α → Bool) (l : List α) :
    (l.filter fun x => !p x).length + (l.filter p).length = l.length := by
  induction l with
  | nil => rfl
  | cons x l ih =>
    cases h : p x <;> simp [List.filter_cons, h] <;> omega

theorem resetLoop_head_none {c : Cache K V} (h : c.head = none) (fuel : Nat) :
    c.resetLoop fuel = some c := by
  cases fuel <;> simp [Cache.resetLoop, h]

theorem newEvents_of_append {c c2 : Cache K V} {evs : List Event}
    (h : c2.metrics = c.metrics ++ evs) : newEvents c c2 = evs := by
  unfold newEvents
  rw [h, List.drop_left]

/-- The events of `Set` of a key that is not in the index: the eviction, if there is one,
then the addition. -/
theorem Set_new_metrics [DecidableEq K] [Inhabited K] [Inhabited V] {c : Cache K V}
    (hw : WF c) {k : K} (hk : c.index.lookup k = none) (v : V) (ttl : Int) (now : Time) :
    ∃ c2, c.Set k v ttl now = some c2 ∧
      c2.metrics = c.metrics ++ (if c.size = c.maxsize ∧ 0 < c.size
        then [Event.Delete, Event.Evict, Event.Add] else [Event.Add]) := by
  obtain ⟨a, c2, h1, _, _, h4⟩ := Set_new_WFl hw hk v ttl now
  refine ⟨c2, h1, ?_⟩
  rw [h4.metrics_eq]
  by_cases hfull : c.size = c.maxsize
  · rcases List.eq_nil_or_concat c.nodes with h0 | ⟨l0, t, hl⟩
    · have hz : c.size = 0 := by rw [WFl.size_eq hw, h0]; rfl
      have ht : c.tail = none := by rw [WFl.tail_eq hw, h0]; rfl
      rw [evict_noop (Or.inr ht), if_neg (by omega)]
    · rw [List.concat_eq_append] at hl
      have hw2 : WFl c (l0 ++ [t]) := by rw [← hl]; exact hw
      have hpos : 0 < c.size := by rw [WFl.size_eq hw, hl]; simp
      rw [(evict_WFl hw2 hfull).2.metrics_eq, if_pos ⟨hfull, hpos⟩]
      simp
  · rw [evict_noop (Or.inl hfull), if_neg (fun h => hfull h.1)]

/-- A `Get` at or after the expiration of the entry, on a well-formed cache: it misses and
reports a miss, an eviction and a deletion, and no error. -/
theorem Get_expired_metrics [DecidableEq K] [Inhabited V] {c : Cache K V} (hw : WF c) {k : K}
    {a : Ptr} (hk : c.index.lookup k = some (some a)) {now : Time}
    (hexp : (c.mem a).expiration ≤ now) :
    (c.Get k now).1 = (default, false) ∧
      (c.Get k now).2.metrics = c.metrics ++ [Event.Miss, Event.Evict, Event.Delete] := by
  obtain ⟨a2, ha2, ha, _⟩ := WFl.lookup_some hw hk
  cases ha2
  have hpos : 0 < c.size := by
    rw [WFl.size_eq hw]; exact List.length_pos_of_mem ha
  have hne : c.size ≠ 0 := Nat.pos_iff_ne_zero.mp hpos
  have hnot : ¬ now < (c.mem a).expiration := not_lt.mpr hexp
  have hu := unlink_effect_of_WFl hw ha
  unfold Cache.Get
  rw [hk]
  simp only [gt_iff_lt, hnot, if_false, true_and]
  unfold Cache.deleteexpired
  rw [hk]
  by_cases hlt : (c.mem a).expiration < now
  · simp [hlt, Cache.poolPut, Cache.emit, hu.2.1, hu.2.2.2.1, hpos, hne]
  · simp [hlt, Cache.poolPut, Cache.emit, hpos, hne]

theorem Delete_single_present [DecidableEq K] {c : Cache K V} (hw : WF c) {k : K}
    (hk : k ∈ c.index.keys) : (c.Delete [k]).metrics = c.metrics ++ [Event.Delete] := by
  obtain ⟨a, ha, _, _⟩ := WFl.lookup_of_mem_keys hw hk
  exact (deleteKey_present hw ha).2.metrics_eq

/-- Method `Set` dereferences the node of a key that is found in the index without a nil
check: on a key bound to nil it faults. -/
theorem Set_nil_faults [DecidableEq K] [Inhabited K] [Inhabited V] {c : Cache K V} {k : K}
    (hk : c.index.lookup k = some none) (v : V) (ttl : Int) (now : Time) :
    c.Set k v ttl now = none := by
  unfold Cache.Set
  rw [hk]
  rfl

/-- Method `Get` on a key bound to nil reports an error and a miss and changes nothing
else. -/
theorem Get_nil [DecidableEq K] [Inhabited V] {c : Cache K V} {k : K}
    (hk : c.index.lookup k = some none) (now : Time) :
    c.Get k now = ((default, false), (c.emit Event.Error).emit Event.Miss) := by
  unfold Cache.Get
  rw [hk]

/-- With capacity 0 the eviction block of `Set` never removes anything. -/
theorem evict_zero [DecidableEq K] {c : Cache K V} (hw : WF c) (hz : c.maxsize = 0) :
    c.evict = c := by
  by_cases hs : c.size = c.maxsize
  · apply evict_noop
    right
    have hl : c.nodes = [] := by
      have := WFl.size_eq hw
      rw [hs, hz] at this
      exact List.length_eq_zero.mp this.symm
    rw [WFl.tail_eq hw, hl]
    rfl
  · exact evict_noop (Or.inl hs)

/-- With capacity 0 every `Set` keeps all the keys of the index and adds its own. -/
theorem Set_zero [DecidableEq K] [Inhabited K] [Inhabited V] {c : Cache K V} (hw : WF c)
    (hz : c.maxsize = 0) (k : K) (v : V) (ttl : Int) (now : Time) :
    ∃ c2, c.Set k v ttl now = some c2 ∧ WF c2 ∧ c2.maxsize = 0 ∧
      ∀ x, x ∈ c2.index.keys ↔ x = k ∨ x ∈ c.index.keys := by
  cases hk : c.index.lookup k with
  | none =>
    obtain ⟨a, c2, h1, h2, _, h4⟩ := Set_new_WFl hw hk v ttl now
    rw [evict_zero hw hz] at h4
    refine ⟨c2, h1, WF_of_WFl h2, by rw [h4.maxsize_eq, hz], fun x => ?_⟩
    rw [h4.index_eq, ← AList.mem_keys, AList.mem_insert, AList.mem_keys]
  | some item =>
    obtain ⟨a, rfl, _, _⟩ := WFl.lookup_some hw hk
    obtain ⟨c2, h1, h2, h3⟩ := Set_found_WFl hw hk v ttl now
    refine ⟨c2, h1, WF_of_WFl h2, by rw [h3.maxsize_eq, hz], fun x => ?_⟩
    rw [h3.index_eq]
    constructor
    · exact fun h => Or.inr h
    · rintro (rfl | h)
      · exact mem_keys_of_lookup hk
      · exact h

theorem runSets_zero [DecidableEq K] [Inhabited K] [Inhabited V]
    (calls : List (K × V × Int × Time)) :
    ∀ c : Cache K V, WF c → c.maxsize = 0 →
      ∃ c2, runSets c calls = some c2 ∧ WF c2 ∧ c2.maxsize = 0 ∧
        ∀ x, x ∈ c2.index.keys ↔ x ∈ calls.map Prod.fst ∨ x ∈ c.index.keys := by
  induction calls with
  | nil => intro c hw hz; exact ⟨c, rfl, hw, hz, fun x => by simp⟩
  | cons call rest ih =>
    intro c hw hz
    obtain ⟨k, v, ttl, now⟩ := call
    obtain ⟨c1, h1, h2, h3, h4⟩ := Set_zero hw hz k v ttl now
    obtain ⟨c2, g1, g2, g3, g4⟩ := ih c1 h2 h3
    refine ⟨c2, ?_, g2, g3, fun x => ?_⟩
    · simp only [runSets, h1, Option.some_bind]
      exact g1
    · rw [g4, h4]
      simp only [List.map_cons, List.mem_cons]
      tauto

theorem basicmetricsCount_append {c c2 : Cache K V} {evs : List Event}
    (h : c2.metrics = c.metrics ++ evs) :
    basicmetricsCount c2 =
      basicmetricsCount c + (evs.count Event.Add : Int) - (evs.count Event.Delete : Int) := by
  unfold basicmetricsCount
  rw [h, List.count_append, List.count_append]
  push_cast
  ring

/-- The size after `Set` of a key that is not in the index. -/
theorem Set_new_size [DecidableEq K] [Inhabited K] [Inhabited V] {c c2 : Cache K V}
    (hw : WF c) {k : K} (hk : c.index.lookup k = none) {v : V} {ttl : Int} {now : Time}
    (h : c.Set k v ttl now = some c2) :
    c2.size = if c.size = c.maxsize ∧ 0 < c.size then c.size else c.size + 1 := by
  obtain ⟨a, c3, h1, _, _, h4⟩ := Set_new_WFl hw hk v ttl now
  rw [h] at h1
  cases h1
  rw [h4.size_eq]
  by_cases hfull : c.size = c.maxsize
  · rcases List.eq_nil_or_concat c.nodes with h0 | ⟨l0, t, hl⟩
    · have hz : c.size = 0 := by rw [WFl.size_eq hw, h0]; rfl
      have ht : c.tail = none := by rw [WFl.tail_eq hw, h0]; rfl
      rw [evict_noop (Or.inr ht), if_neg (by omega)]
    · rw [List.concat_eq_append] at hl
      have hw2 : WFl c (l0 ++ [t]) := by rw [← hl]; exact hw
      have hpos : 0 < c.size := by rw [WFl.size_eq hw, hl]; simp
      rw [(evict_WFl hw2 hfull).2.size_eq, if_pos ⟨hfull, hpos⟩]
      omega
  · rw [evict_noop (Or.inl hfull), if_neg (fun h => hfull h.1)]

/-- On a well-formed cache, a call that is not a `Get` at exactly an expiration instant
does not fault, keeps the cache well-formed and keeps the counter of the test sink in step
with `size`. -/
theorem call_count [DecidableEq K] [Inhabited K] [Inhabited V] {c : Cache K V} (hw : WF c)
    (x : Call K V) (hoff : offInstant c x = true) :
    ∃ c2, c.call x = some c2 ∧ WF c2 ∧
      basicmetricsCount c2 - (c2.size : Int) = basicmetricsCount c - (c.size : Int) := by
  cases x with
  | reset =>
    have hf : c.size ≤ c.brk + 1 := Nat.le_succ_of_le (size_le_brk hw)
    obtain ⟨c2, h1, h2, h3⟩ := Reset_WFl hw hf
    refine ⟨c2, by simp only [Cache.call, h1, Option.map_some'], WF_of_WFl h2, ?_⟩
    rw [basicmetricsCount_append h3.metrics_eq, h3.size_eq]
    simp [List.count_replicate]
  | op o =>
    cases o with
    | set k v ttl now =>
      cases hk : c.index.lookup k with
      | none =>
        obtain ⟨c2, h1, h2⟩ := Set_new_metrics hw hk v ttl now
        obtain ⟨c3, g1, g2⟩ := Set_WF hw k v ttl now
        rw [h1] at g1
        cases g1
        have hs := Set_new_size hw hk h1
        refine ⟨c2, h1, g2, ?_⟩
        rw [basicmetricsCount_append h2, hs]
        split_ifs
        · simp [List.count_cons]
        · simp [List.count_cons]
      | some item =>
        obtain ⟨a, rfl, _, _⟩ := WFl.lookup_some hw hk
        obtain ⟨c2, h1, h2, h3⟩ := Set_found_WFl hw hk v ttl now
        refine ⟨c2, h1, WF_of_WFl h2, ?_⟩
        rw [basicmetricsCount_append h3.metrics_eq, h3.size_eq]
        simp [List.count_cons]
    | delete ks =>
      obtain ⟨n, h1, h2⟩ := Delete_count hw ks
      refine ⟨_, rfl, Delete_WF hw ks, ?_⟩
      rw [basicmetricsCount_append h1, ← h2]
      simp [List.count_replicate]
      ring
    | get k now =>
      refine ⟨_, rfl, ?_⟩
      cases hk : c.index.lookup k with
      | none =>
        rw [Get_absent hk]
        refine ⟨WFl_emit hw _, ?_⟩
        have hm : (c.emit Event.Miss).metrics = c.metrics ++ [Event.Miss] := rfl
        rw [basicmetricsCount_append hm]
        simp [List.count_cons, Cache.emit]
      | some item =>
        obtain ⟨a, rfl, _, _⟩ := WFl.lookup_some hw hk
        by_cases hlt : now < (c.mem a).expiration
        · obtain ⟨h2, h3⟩ := Get_hit_WFl hw hk hlt
          refine ⟨WF_of_WFl h2, ?_⟩
          rw [basicmetricsCount_append h3.metrics_eq, h3.size_eq]
          simp [List.count_cons]
        · have hne : (c.mem a).expiration ≠ now := by
            simp only [offInstant, entry_of_lookup hk, ne_eq, decide_eq_true_eq] at hoff
            exact hoff
          have hstrict : (c.mem a).expiration < now :=
            lt_of_le_of_ne (not_lt.mp hlt) hne
          obtain ⟨g1, _, g3⟩ := Get_expired_strict hw hk hstrict
          have hsz := (Get_expired_size c hw k a hk now (le_of_lt hstrict)).2
          refine ⟨WF_of_WFl g1, ?_⟩
          rw [basicmetricsCount_append g3, ← hsz]
          simp [List.count_cons]
          ring

/-- On a fresh cache, or any well-formed cache on which the counter of the test sink equals
`size`, a sequence of calls with no `Get` at exactly an expiration instant does not fault and
leaves the counter equal to `size`. -/
theorem calls_count [DecidableEq K] [Inhabited K] [Inhabited V] (xs : List (Call K V)) :
    ∀ c : Cache K V, WF c → basicmetricsCount c = c.size → c.offInstants xs = true →
      ∃ c2, c.calls xs = some c2 ∧ WF c2 ∧ basicmetricsCount c2 = c2.size := by
  induction xs with
  | nil => intro c hw hc _; exact ⟨c, rfl, hw, hc⟩
  | cons x rest ih =>
    intro c hw hc hoff
    simp only [Cache.offInstants, Bool.and_eq_true] at hoff
    obtain ⟨ho1, ho2⟩ := hoff
    obtain ⟨c1, h1, h2, h3⟩ := call_count hw x ho1
    rw [h1] at ho2
    have hc1 : basicmetricsCount c1 = c1.size := by
      have : basicmetricsCount c - (c.size : Int) = 0 := by rw [hc]; ring
      rw [this] at h3
      linarith
    obtain ⟨c2, g1, g2, g3⟩ := ih c1 h2 hc1 ho2
    refine ⟨c2, ?_, g2, g3⟩
    simp only [Cache.calls, h1, Option.some_bind]
    exact g1

theorem exSole_run :
    (NewCache [CacheOption.WithMaxSize 3] : Cache Nat Nat).Set 1 10 5 0 = some exSole := rfl

/-- Method `deleteexpired` on a key that is not in the index changes nothing. -/
theorem deleteexpired_absent [DecidableEq K] {c : Cache K V} {k : K}
    (hk : c.index.lookup k = none) (tm : Time) : c.deleteexpired k tm = c := by
  unfold Cache.deleteexpired
  rw [hk]

/-- Method `deleteexpired` on a present key whose expiration is not before `tm`, on a cache
that holds an entry: the node is not unlinked, but the key is deleted from the index, the
node is recycled and `size` is lowered all the same. -/
theorem deleteexpired_not_before [DecidableEq K] {c : Cache K V} {k : K} {a : Ptr}
    (hk : c.index.lookup k = some (some a)) {tm : Time} (he : ¬ (c.mem a).expiration < tm)
    (hpos : 0 < c.size) :
    c.deleteexpired k tm =
      { c with index := c.index.erase k, pool := some a :: c.pool, size := c.size - 1 } := by
  unfold Cache.deleteexpired
  rw [hk]
  have hne : c.size ≠ 0 := Nat.pos_iff_ne_zero.mp hpos
  simp [he, Cache.poolPut, hpos, hne]

/-- Method `movetohead` on a key that is not in the index changes nothing. -/
theorem movetohead_absent [DecidableEq K] {c : Cache K V} {k : K}
    (hk : c.index.lookup k = none) : c.movetohead k = c := by
  unfold Cache.movetohead
  rw [hk]

/-- Method `movetohead` on a node that has a successor changes nothing. -/
theorem movetohead_has_next [DecidableEq K] {c : Cache K V} {k : K} {a : Ptr}
    (hk : c.index.lookup k = some (some a)) (hn : (c.mem a).next ≠ none) :
    c.movetohead k = c := by
  unfold Cache.movetohead
  rw [hk]
  simp [hn]

/-- Method `movetohead` on the head of a well-formed list of more than one node changes
nothing. -/
theorem movetohead_head [DecidableEq K] {c : Cache K V} (hw : WF c) {k : K}
    (hh : c.keys.head? = some k) (hlen : 1 < c.size) : c.movetohead k = c := by
  have hkm : k ∈ c.keys := List.mem_of_mem_head? hh
  obtain ⟨a, ha, hal, hka⟩ := WFl.lookup_of_mem_keys hw ((mem_keys_iff_mem_index hw k).mp hkm)
  have hhead : c.nodes.head? = some a := by
    rw [← keys_head_iff hw hal, hka]; exact hh
  apply movetohead_has_next ha
  intro hnone
  have hlast := (next_none_iff (WFl.links hw) hal (WFl.nodup hw)).mp hnone
  have hl := WFl.size_eq hw
  cases hnodes : c.nodes with
  | nil => rw [hnodes] at hhead; simp at hhead
  | cons x r =>
    rw [hnodes] at hhead hlast hl
    simp at hhead
    subst hhead
    cases r with
    | nil => simp at hl; omega
    | cons y r2 =>
      have hnd := WFl.nodup hw
      rw [hnodes] at hnd
      have hmem : x ∈ y :: r2 := by
        rw [List.getLast?_cons_cons] at hlast
        exact List.mem_of_mem_getLast? hlast
      exact (List.nodup_cons.mp hnd).1 hmem

/-- Method `movetohead` on the sole node of a well-formed cache: the node becomes its own
successor and predecessor and `tail` becomes nil. -/
theorem movetohead_sole [DecidableEq K] {c : Cache K V} (hw : WF c) {k : K} {a : Ptr}
    (hk : c.index.lookup k = some (some a)) (hone : c.size = 1) :
    (c.movetohead k).head = some a ∧ (c.movetohead k).tail = none ∧
      ((c.movetohead k).mem a).next = some a ∧ ((c.movetohead k).mem a).prev = some a := by
  obtain ⟨a2, ha2, hal, _⟩ := WFl.lookup_some hw hk
  cases ha2
  have hl := WFl.size_eq hw
  rw [hone] at hl
  have hnodes : c.nodes = [a] := by
    cases hn : c.nodes with
    | nil => rw [hn] at hl; simp at hl
    | cons x r =>
      rw [hn] at hl hal
      cases r with
      | nil => simp at hal; rw [hal]
      | cons y r2 => simp at hl
  have hlinks := WFl.links hw
  rw [hnodes] at hlinks
  obtain ⟨h1, h2, h3⟩ := hlinks
  have h3b : (c.mem a).next = none := h3
  unfold Cache.movetohead
  rw [hk]
  simp [h3b, h2, h1, Cache.wNext, Cache.wPrev, Cache.modify]

/-- Method `Get` run without another goroutine in between is its two parts in a row. -/
theorem getFinish_getShared [DecidableEq K] [Inhabited V] (c : Cache K V) (key : K)
    (now : Time) :
    (c.getShared key now).2.getFinish key now (c.getShared key now).1 = c.Get key now := by
  unfold Cache.getShared Cache.Get
  rcases h : c.index.lookup key with _ | (_ | item)
  · rfl
  · rfl
  · by_cases he : (c.mem item).expiration > now
    · simp [he, Cache.getFinish]
    · simp [he, Cache.getFinish]

/-- A `Get` whose two parts are run in a row, by a goroutine that is not inside a `Get`,
acts on the cache as the call `Get`, and leaves the calls under way as they are. -/
theorem run_get_in_a_row [DecidableEq K] [Inhabited K] [Inhabited V] (s : Shared K V)
    (g : Nat) (key : K) (now : Time) (hg : s.gets.lookup g = none) :
    ∃ s2, s.run [Stretch.getShared g key now, Stretch.getFinish g] = some s2 ∧
      s2.cache = (s.cache.Get key now).2 ∧ s2.gets = s.gets := by
  have hf : (s.gets.filter fun x => x.1 ≠ g) = s.gets := by
    rw [List.filter_eq_self]
    intro x hx
    have hne : x.1 ≠ g := by
      intro hxg
      have := List.lookup_eq_none_iff.mp hg x hx
      simp [hxg] at this
    simpa using hne
  refine ⟨{ cache := (s.cache.Get key now).2, gets := s.gets }, ?_, rfl, rfl⟩
  simp [Shared.run, Shared.step, hg, List.lookup, getFinish_getShared, hf]
  intro a a1 a2 b hmem hag
  have := List.lookup_eq_none_iff.mp hg _ hmem
  simp [hag] at this

end lemmas

/-! ### The claims -/

section claims

variable {K V : Type}

/-- Claim C1. On a well-formed cache, `Set(k, v, ttl)` with `ttl > 0` at time `t_set` does
not fault, and a `Get(k)` at any time `t_get` with `t_set ≤ t_get < t_set + ttl` then returns
`(v, true)`: whether `k` was present or not and whether the `Set` evicted or not. -/
theorem C1_set_then_get [DecidableEq K] [Inhabited K] [Inhabited V] (c : Cache K V)
    (hwf : WF c) (k : K) (v : V) (ttl : Int) (t_set t_get : Time) (httl : 0 < ttl)
    (h1 : t_set ≤ t_get) (h2 : t_get < t_set + ttl) :
    ∃ c2, c.Set k v ttl t_set = some c2 ∧ (c2.Get k t_get).1 = (v, true) := by
  obtain ⟨c2, a, hs, _, hl, hv, he⟩ := Set_entry hwf k v ttl t_set
  refine ⟨c2, hs, ?_⟩
  rw [Get_hit hl (by rw [he]; exact h2), hv]

theorem C1_witness :
    WF exCache ∧ ∃ c2, exCache.Set 4 40 5 0 = some c2 ∧ (c2.Get 4 3).1 = (40, true) :=
  ⟨by decide, C1_set_then_get exCache (by decide) 4 40 5 0 3 (by decide) (by decide)
    (by decide)⟩

/-- Claim C2. On a well-formed cache, a `Get` of a present key at a time `now` at or after
the expiration `e` of its entry (`now = e` included) returns the zero value and `false`, and
the size counter afterwards is exactly one less than before. -/
theorem C2_get_expired [DecidableEq K] [Inhabited V] (c : Cache K V) (hwf : WF c) (k : K)
    (val : V) (e : Time) (hk : c.entry k = some (val, e)) (now : Time) (hexp : e ≤ now) :
    (c.Get k now).1 = (default, false) ∧ (c.Get k now).2.size + 1 = c.size := by
  obtain ⟨a, ha, _, he⟩ := entry_eq_some.mp hk
  exact Get_expired_size c hwf k a ha now (by rw [he]; exact hexp)

theorem C2_witness :
    (WF exCache ∧ exCache.entry 2 = some (20, 5) ∧ (5 : Time) ≤ 5) ∧
      (exCache.Get 2 5).1 = (default, false) ∧ (exCache.Get 2 5).2.size + 1 = exCache.size :=
  ⟨by decide, C2_get_expired exCache (by decide) 2 20 5 (by decide) 5 (by decide)⟩

/-- Claim C3. On a fresh cache of capacity `maxSize ≥ 1`, no sequence of `Set` calls faults,
and after it (hence after each of its calls) the size counter, the number of index keys and
the number of nodes that can be walked from `head` are all at most `maxSize`. -/
theorem C3_capacity [DecidableEq K] [Inhabited K] [Inhabited V] (maxSize : Nat)
    (hmax : 1 ≤ maxSize) (calls : List (K × V × Int × Time)) :
    ∃ c : Cache K V, runSets (NewCache [CacheOption.WithMaxSize maxSize]) calls = some c ∧
      c.size ≤ maxSize ∧ c.index.keys.length ≤ maxSize ∧
      ∀ fuel, (walk c.mem fuel c.head).length ≤ maxSize := by
  have h0 : WF (NewCache [CacheOption.WithMaxSize maxSize] : Cache K V) :=
    WF_of_WFl (NewCache_WF _)
  obtain ⟨c, h1, h2, h3, h4⟩ := runSets_bounded calls _ h0 hmax (Nat.zero_le _)
  have hm : c.maxsize = maxSize := h4
  rw [hm] at h3
  refine ⟨c, h1, h3, by rw [WFl.card_eq h2]; exact h3, fun fuel => ?_⟩
  have := walk_length_le (WFl.links h2) fuel
  rw [← WFl.size_eq h2] at this
  exact le_trans this h3

theorem C3_witness :
    ∃ c : Cache Nat Nat,
      runSets (NewCache [CacheOption.WithMaxSize 2]) [(1, 10, 5, 0), (2, 20, 5, 1), (3, 30, 5, 2)]
        = some c ∧
      c.size ≤ 2 ∧ c.index.keys.length ≤ 2 ∧ ∀ fuel, (walk c.mem fuel c.head).length ≤ 2 :=
  C3_capacity 2 (by decide) [(1, 10, 5, 0), (2, 20, 5, 1), (3, 30, 5, 2)]

/-- Claim C4. On a well-formed cache at full capacity (`size = maxsize ≥ 1`), `Set` of a key
that is not in the index removes exactly the key `ev` at the tail of the list, whatever its
expiration: the new key order is `k` followed by the old order without its last key, every
other entry keeps its value and expiration, `size` stays `maxsize`, and `ev` is gone from the
list and from the index, so that a later `Get` of it misses. -/
theorem C4_evicts_tail [DecidableEq K] [Inhabited K] [Inhabited V] (c : Cache K V)
    (hwf : WF c) (hfull : c.size = c.maxsize) (hmax : 1 ≤ c.maxsize) (k : K)
    (hk : c.index.lookup k = none) (v : V) (ttl : Int) (now : Time) :
    ∃ c2 ev, c.Set k v ttl now = some c2 ∧ c.keys.getLast? = some ev ∧
      c2.keys = k :: c.keys.dropLast ∧ c2.size = c.maxsize ∧
      c2.entry k = some (v, now + ttl) ∧
      (∀ k2 ∈ c.keys.dropLast, (c.entry k2).isSome ∧ c2.entry k2 = c.entry k2) ∧
      ev ∉ c2.keys ∧ c2.index.lookup ev = none ∧
      ∀ tm, (c2.Get ev tm).1 = (default, false) := by
  have hpos : 0 < c.nodes.length := by rw [← WFl.size_eq hwf, hfull]; exact hmax
  rcases List.eq_nil_or_concat c.nodes with h0 | ⟨l0, t, hl⟩
  · rw [h0] at hpos; simp at hpos
  rw [List.concat_eq_append] at hl
  have hw : WFl c (l0 ++ [t]) := by rw [← hl]; exact hwf
  obtain ⟨a, c2, h1, h2, h3, h4, h5, h6, _, h8, h9, h10, h11⟩ :=
    Set_full_WFl hw hfull hk v ttl now
  have hkeys : c.keys = (l0.map fun b => (c.mem b).key) ++ [(c.mem t).key] := by
    rw [keys_of_WFl hw]; simp
  have htl0 : t ∉ l0 := fun hm =>
    (List.nodup_append.mp hw.nodup).2.2 hm (List.mem_singleton_self t)
  have hne : ∀ b ∈ l0, b ≠ a := fun b hb e => h3 (e ▸ hb)
  have hkt : (c.mem t).key ≠ k := by
    intro e
    have := hw.indexed t (by simp)
    rw [e, hk] at this
    exact Option.noConfusion this
  have hkb : ∀ b ∈ l0, (c.mem b).key ≠ k ∧ (c.mem b).key ≠ (c.mem t).key := by
    intro b hb
    constructor
    · intro e
      have := hw.indexed b (List.mem_append_left _ hb)
      rw [e, hk] at this
      exact Option.noConfusion this
    · intro e
      have := hw.key_inj (List.mem_append_left _ hb) (by simp) e
      exact htl0 (this ▸ hb)
  have hlook : c2.index.lookup (c.mem t).key = none := by
    rw [h4, AList.lookup_insert_ne hkt, AList.lookup_erase]
  have hk2 : c2.keys = k :: l0.map fun b => (c.mem b).key := by
    rw [keys_of_WFl h2, List.map_cons, h8]
    congr 1
    exact List.map_congr_left fun b hb => (h11 b (hne b hb)).1
  refine ⟨c2, (c.mem t).key, h1, by rw [hkeys]; simp, ?_, by rw [h5, hfull], ?_, ?_, ?_, hlook,
    fun tm => ?_⟩
  · rw [hk2, hkeys, List.dropLast_concat]
  · have : c2.index.lookup k = some (some a) := by rw [h4, AList.lookup_insert]
    rw [entry_of_lookup this, h9, h10]
  · intro k2 hk2m
    rw [hkeys, List.dropLast_concat] at hk2m
    obtain ⟨b, hb, rfl⟩ := List.mem_map.mp hk2m
    have hlb := hw.indexed b (List.mem_append_left _ hb)
    have hlb2 : c2.index.lookup (c.mem b).key = some (some b) := by
      rw [h4, AList.lookup_insert_ne (hkb b hb).1, AList.lookup_erase_ne (hkb b hb).2]
      exact hlb
    rw [entry_of_lookup hlb, entry_of_lookup hlb2, (h11 b (hne b hb)).2.1,
      (h11 b (hne b hb)).2.2]
    exact ⟨rfl, rfl⟩
  · rw [hk2]
    intro hm
    rcases List.mem_cons.mp hm with e | hm
    · exact hkt e
    · obtain ⟨b, hb, e⟩ := List.mem_map.mp hm
      exact (hkb b hb).2 e
  · rw [Get_absent hlook]

theorem C4_witness :
    (WF exCache ∧ exCache.size = exCache.maxsize ∧ 1 ≤ exCache.maxsize ∧
      exCache.index.lookup 4 = none) ∧
    ∃ c2 ev, exCache.Set 4 40 5 0 = some c2 ∧ exCache.keys.getLast? = some ev ∧
      c2.keys = 4 :: exCache.keys.dropLast ∧ c2.size = exCache.maxsize ∧
      c2.entry 4 = some (40, 0 + 5) ∧
      (∀ k2 ∈ exCache.keys.dropLast, (exCache.entry k2).isSome ∧
        c2.entry k2 = exCache.entry k2) ∧
      ev ∉ c2.keys ∧ c2.index.lookup ev = none ∧
      ∀ tm, (c2.Get ev tm).1 = (default, false) :=
  ⟨by decide, C4_evicts_tail exCache (by decide) (by decide) (by decide) 4 (by decide) 40 5 0⟩

/-- Claim C5, as stated, fails. On a fresh cache of capacity 3 the calls `Set(1)`, `Set(2)`,
`Set(3)`, `Get(2)`, `Get(1)` (no entry expired, both `Get` hit) leave the list 1, 3, 2 with
last touches 5, 3, 4, which is not in decreasing recency; the `Set(4)` that follows at full
capacity evicts key 2, although the resident key 3 was touched less recently. -/
theorem C5_counterexample :
    ∃ r : Run Nat Nat, (freshRun 3).steps exOps = some r ∧ (freshRun 3).hitting exOps = true ∧
      r.cache.keys = [1, 3, 2] ∧ r.cache.keys.map r.touch = [5, 3, 4] ∧ ¬ r.ordered ∧
      r.cache.size = r.cache.maxsize ∧ 4 ∉ r.cache.index.keys ∧
      (∃ c2, r.cache.Set 4 40 5 1 = some c2 ∧ c2.keys = [4, 1, 3] ∧ 2 ∉ c2.keys) ∧
      3 ∈ r.cache.keys ∧ r.touch 3 < r.touch 2 :=
  ⟨_, rfl, by decide, by decide, by decide, by decide, by decide, by decide,
    ⟨_, rfl, by decide, by decide⟩, by decide, by decide⟩

/-- Claim C5, amended. Take a sequence of `Set`, hitting `Get` and `Delete` calls on a fresh
cache of capacity `maxSize ≥ 1` in which every `Set` of a resident key and every `Get` is of
the key at the head or at the tail of the list at that moment. No call faults, afterwards
(hence after each call) the list from head to tail is in strictly decreasing recency of
touch, and a `Set` of a new key at full capacity evicts the key at the tail, which is the
resident key whose most recent touch is the oldest. -/
theorem C5_lru_edge_touches [DecidableEq K] [Inhabited K] [Inhabited V] (maxSize : Nat)
    (hmax : 1 ≤ maxSize) (ops : List (Op K V))
    (hedge : (freshRun maxSize : Run K V).edgeOnly ops = true) :
    ∃ r : Run K V, (freshRun maxSize).steps ops = some r ∧ r.ordered ∧
      ∀ k v ttl now, k ∉ r.cache.index.keys → r.cache.size = r.cache.maxsize →
        ∃ c2 ev, r.cache.Set k v ttl now = some c2 ∧ r.cache.keys.getLast? = some ev ∧
          c2.keys = k :: r.cache.keys.dropLast ∧ ev ∉ c2.keys ∧
          ∀ k2 ∈ r.cache.keys, k2 ≠ ev → r.touch ev < r.touch k2 := by
  obtain ⟨r, h1, h2, h3⟩ := steps_inv ops _ (freshRun_inv maxSize) hedge
  refine ⟨r, h1, h2.ordered, fun k v ttl now hk hfull => ?_⟩
  have hm : r.cache.maxsize = maxSize := h3
  obtain ⟨c2, g1, _, g3⟩ := Set_new_keys h2.wf (lookup_none_of_not_mem hk) v ttl now
  rw [if_pos hfull] at g3
  have hnd := keys_nodup h2.wf
  have hlen : 0 < r.cache.keys.length := by
    rw [keys_length h2.wf, ← WFl.size_eq h2.wf, hfull, hm]; exact hmax
  obtain ⟨ev, hev⟩ : ∃ ev, r.cache.keys.getLast? = some ev := by
    cases h : r.cache.keys.getLast? with
    | none => rw [List.getLast?_eq_none_iff.mp h] at hlen; simp at hlen
    | some ev => exact ⟨ev, rfl⟩
  have hsplit := List.dropLast_append_getLast? ev hev
  have hevd : ev ∉ r.cache.keys.dropLast := by
    intro hm2
    rw [← hsplit] at hnd
    exact (List.nodup_append.mp hnd).2.2 hm2 (List.mem_singleton_self ev)
  have hevk : ev ≠ k := by
    intro e
    apply hk
    rw [← e]
    exact mem_index_of_mem_keys h2.wf (List.mem_of_mem_getLast? hev)
  refine ⟨c2, ev, g1, hev, g3, ?_, last_is_oldest h2.ordered hev⟩
  rw [g3]
  intro hm2
  rcases List.mem_cons.mp hm2 with e | hm2
  · exact hevk e
  · exact hevd hm2

theorem C5_witness :
    (1 ≤ 2 ∧ (freshRun 2 : Run Nat Nat).edgeOnly
      [Op.set 1 10 5 0, Op.set 2 20 5 0, Op.get 1 1, Op.set 2 21 5 2, Op.delete [7]] = true) ∧
    ∃ r : Run Nat Nat, (freshRun 2).steps
        [Op.set 1 10 5 0, Op.set 2 20 5 0, Op.get 1 1, Op.set 2 21 5 2, Op.delete [7]] = some r ∧
      r.ordered ∧
      ∀ k v ttl now, k ∉ r.cache.index.keys → r.cache.size = r.cache.maxsize →
        ∃ c2 ev, r.cache.Set k v ttl now = some c2 ∧ r.cache.keys.getLast? = some ev ∧
          c2.keys = k :: r.cache.keys.dropLast ∧ ev ∉ c2.keys ∧
          ∀ k2 ∈ r.cache.keys, k2 ≠ ev → r.touch ev < r.touch k2 :=
  ⟨by decide, C5_lru_edge_touches 2 (by decide)
    [Op.set 1 10 5 0, Op.set 2 20 5 0, Op.get 1 1, Op.set 2 21 5 2, Op.delete [7]] (by decide)⟩

/-- Claim C6, as stated, fails: in the cache with list 3, 2, 1 the key 2 is present,
and after `Set(2, 99, 5)` its entry holds the new value and expiration but it is not the
head of the list, which is still 3, 2, 1. -/
theorem C6_counterexample :
    WF exCache ∧ 2 ∈ exCache.index.keys ∧
      ∃ c2, exCache.Set 2 99 5 1 = some c2 ∧ c2.entry 2 = some (99, 6) ∧
        c2.keys = [3, 2, 1] ∧ c2.keys.head? ≠ some 2 :=
  ⟨by decide, by decide, _, rfl, by decide, by decide, by decide⟩

/-- Claim C6, amended. On a well-formed cache, `Set` of a key that is present does not
fault and leaves the entry with the value `v` and the new expiration; the key is the head of
the list afterwards when it was the head or the tail before, and when it was neither the
list keeps its order, so the key is not the head. -/
theorem C6_set_present [DecidableEq K] [Inhabited K] [Inhabited V] (c : Cache K V)
    (hwf : WF c) (k : K) (hk : k ∈ c.index.keys) (v : V) (ttl : Int) (now : Time) :
    ∃ c2, c.Set k v ttl now = some c2 ∧ c2.entry k = some (v, now + ttl) ∧
      ((c.keys.head? = some k ∨ c.keys.getLast? = some k) → c2.keys.head? = some k) ∧
      (c.keys.head? ≠ some k → c.keys.getLast? ≠ some k →
        c2.keys = c.keys ∧ c2.keys.head? ≠ some k) := by
  obtain ⟨a, ha, _, _⟩ := WFl.lookup_of_mem_keys hwf hk
  obtain ⟨c2, h1, _, h3, h4⟩ := Set_found_keys hwf ha v ttl now
  have hl2 : c2.index.lookup k = some (some a) := by rw [h3.index_eq]; exact ha
  refine ⟨c2, h1, by rw [entry_of_lookup hl2, h3.value_eq, h3.expiration_eq], ?_, ?_⟩
  · intro hor
    by_cases hc : c.keys.getLast? = some k ∧ 1 < c.keys.length
    · rw [h4, if_pos hc]; rfl
    · rw [h4, if_neg hc]
      rcases hor with h | h
      · exact h
      · exact head_of_getLast_single h (fun hlen => hc ⟨h, hlen⟩)
  · intro hh hl
    have hc : ¬ (c.keys.getLast? = some k ∧ 1 < c.keys.length) := fun h => hl h.1
    rw [h4, if_neg hc]
    exact ⟨rfl, hh⟩

theorem C6_witness :
    (WF exCache ∧ 1 ∈ exCache.index.keys) ∧
    ∃ c2, exCache.Set 1 99 5 1 = some c2 ∧ c2.entry 1 = some (99, 1 + 5) ∧
      ((exCache.keys.head? = some 1 ∨ exCache.keys.getLast? = some 1) →
        c2.keys.head? = some 1) ∧
      (exCache.keys.head? ≠ some 1 → exCache.keys.getLast? ≠ some 1 →
        c2.keys = exCache.keys ∧ c2.keys.head? ≠ some 1) :=
  ⟨by decide, C6_set_present exCache (by decide) 1 (by decide) 99 5 1⟩

/-- Claim C7, as stated, fails: in the cache with list 3, 2, 1 the key 2 is present and
not expired at time 1; `Get(2)` returns its value with `found = true`, but afterwards the list
is still 3, 2, 1: the key is not the head, and the list is unchanged although the key was not
the head. -/
theorem C7_counterexample :
    WF exCache ∧ exCache.entry 2 = some (20, 5) ∧ (exCache.Get 2 1).1 = (20, true) ∧
      (exCache.Get 2 1).2.keys = [3, 2, 1] ∧ (exCache.Get 2 1).2.keys.head? ≠ some 2 ∧
      (exCache.Get 2 1).2.keys = exCache.keys ∧ exCache.keys.head? ≠ some 2 := by
  decide

/-- Claim C7, amended. On a well-formed cache, a `Get` of a present key whose expiration
is after `now` returns its value with `found = true`; the key is the head of the list
afterwards when it was the head or the tail before, and when it was neither the list keeps
its order, so the key is not the head. -/
theorem C7_get_hit [DecidableEq K] [Inhabited V] (c : Cache K V) (hwf : WF c) (k : K)
    (val : V) (e : Time) (hk : c.entry k = some (val, e)) (now : Time) (hnow : now < e) :
    (c.Get k now).1 = (val, true) ∧
      ((c.keys.head? = some k ∨ c.keys.getLast? = some k) →
        (c.Get k now).2.keys.head? = some k) ∧
      (c.keys.head? ≠ some k → c.keys.getLast? ≠ some k →
        (c.Get k now).2.keys = c.keys ∧ (c.Get k now).2.keys.head? ≠ some k) := by
  obtain ⟨a, ha, hv, he⟩ := entry_eq_some.mp hk
  have hlt : now < (c.mem a).expiration := by rw [he]; exact hnow
  obtain ⟨_, _, h4⟩ := Get_hit_keys hwf ha hlt
  refine ⟨by rw [Get_hit ha hlt, hv], ?_, ?_⟩
  · intro hor
    by_cases hc : c.keys.getLast? = some k ∧ 1 < c.keys.length
    · rw [h4, if_pos hc]; rfl
    · rw [h4, if_neg hc]
      rcases hor with h | h
      · exact h
      · exact head_of_getLast_single h (fun hlen => hc ⟨h, hlen⟩)
  · intro hh hl
    have hc : ¬ (c.keys.getLast? = some k ∧ 1 < c.keys.length) := fun h => hl h.1
    rw [h4, if_neg hc]
    exact ⟨rfl, hh⟩

theorem C7_witness :
    (WF exCache ∧ exCache.entry 1 = some (10, 5) ∧ (2 : Time) < 5) ∧
    (exCache.Get 1 2).1 = (10, true) ∧
      ((exCache.keys.head? = some 1 ∨ exCache.keys.getLast? = some 1) →
        (exCache.Get 1 2).2.keys.head? = some 1) ∧
      (exCache.keys.head? ≠ some 1 → exCache.keys.getLast? ≠ some 1 →
        (exCache.Get 1 2).2.keys = exCache.keys ∧ (exCache.Get 1 2).2.keys.head? ≠ some 1) :=
  ⟨by decide, C7_get_hit exCache (by decide) 1 10 5 (by decide) 2 (by decide)⟩

/-- Claim C8. On a well-formed cache, `Set` of a key that is present does not fault, leaves
the index (hence the set of keys) and the size unchanged and evicts nothing (its only event is
one `Update`), also at full capacity; when the key is not the tail the key order is unchanged,
and when it is the tail of a list with more than one entry it becomes the head and the other
keys keep their order. -/
theorem C8_set_present_order [DecidableEq K] [Inhabited K] [Inhabited V] (c : Cache K V)
    (hwf : WF c) (k : K) (hk : k ∈ c.index.keys) (v : V) (ttl : Int) (now : Time) :
    ∃ c2, c.Set k v ttl now = some c2 ∧ c2.index = c.index ∧ c2.size = c.size ∧
      c2.keys.Perm c.keys ∧ c2.metrics = c.metrics ++ [Event.Update] ∧
      (c.keys.getLast? ≠ some k → c2.keys = c.keys) ∧
      (c.keys.getLast? = some k → 1 < c.keys.length → c2.keys = k :: c.keys.dropLast) := by
  obtain ⟨a, ha, _, _⟩ := WFl.lookup_of_mem_keys hwf hk
  obtain ⟨c2, h1, _, h3, h4⟩ := Set_found_keys hwf ha v ttl now
  refine ⟨c2, h1, h3.index_eq, h3.size_eq, ?_, h3.metrics_eq, ?_, ?_⟩
  · by_cases hc : c.keys.getLast? = some k ∧ 1 < c.keys.length
    · rw [h4, if_pos hc]
      have := List.dropLast_append_getLast? k hc.1
      conv_rhs => rw [← this]
      exact (List.perm_append_singleton k _).symm
    · rw [h4, if_neg hc]
  · intro hl
    rw [h4, if_neg (fun h => hl h.1)]
  · intro hl hlen
    rw [h4, if_pos ⟨hl, hlen⟩]

theorem C8_witness :
    (WF exCache ∧ 1 ∈ exCache.index.keys) ∧
    ∃ c2, exCache.Set 1 99 5 1 = some c2 ∧ c2.index = exCache.index ∧
      c2.size = exCache.size ∧ c2.keys.Perm exCache.keys ∧
      c2.metrics = exCache.metrics ++ [Event.Update] ∧
      (exCache.keys.getLast? ≠ some 1 → c2.keys = exCache.keys) ∧
      (exCache.keys.getLast? = some 1 → 1 < exCache.keys.length →
        c2.keys = 1 :: exCache.keys.dropLast) :=
  ⟨by decide, C8_set_present_order exCache (by decide) 1 (by decide) 99 5 1⟩

/-- Claim C9 fails on the code at `now = e`. After `Set(1, 10, 0s)` at clock reading 0 on a
fresh cache the entry of key 1 expires at 0; a `Get(1)` at the same reading 0 misses, deletes
the key from the index, lowers `size` to 0 and recycles the node, but does not unlink it:
the node with key 1 is still the head and the tail, and the cache is no longer well-formed. -/
theorem C9_get_at_expiration_instant :
    ∃ c : Cache Nat Nat, (NewCache [CacheOption.WithMaxSize 3]).Set 1 10 0 0 = some c ∧
      WF c ∧ c.entry 1 = some (10, 0) ∧
      (c.Get 1 0).1 = (0, false) ∧ (c.Get 1 0).2.index.lookup 1 = none ∧
      (c.Get 1 0).2.size = 0 ∧ (c.Get 1 0).2.head = some 0 ∧ (c.Get 1 0).2.tail = some 0 ∧
      ((c.Get 1 0).2.mem 0).key = 1 ∧ walk (c.Get 1 0).2.mem 3 (c.Get 1 0).2.head = [0] ∧
      (c.Get 1 0).2.pool = [some 0] ∧ ¬ WF (c.Get 1 0).2 :=
  ⟨_, rfl, by decide, by decide, by decide, by decide, by decide, by decide, by decide,
    by decide, by decide, by decide, by decide⟩

/-- Claim C10. A fresh cache is well-formed, and on a well-formed cache `Set` does not fault
and gives a well-formed cache, `Delete` gives a well-formed cache, `Reset` ends (within
`size` rounds of its loop), returns a nil error and gives a well-formed cache, and every `Get`
that hits, or that misses on a key that is not in the index, gives a well-formed cache.
Hence every state that a fresh cache reaches through such calls is well-formed. -/
theorem C10_wf_preserved [DecidableEq K] [Inhabited K] [Inhabited V] (c : Cache K V)
    (hwf : WF c) (o : List CacheOption) :
    WF (NewCache o : Cache K V) ∧
    (∀ k v ttl now, ∃ c2, c.Set k v ttl now = some c2 ∧ WF c2) ∧
    (∀ ks, WF (c.Delete ks)) ∧
    (∀ fuel, c.size ≤ fuel → ∃ c2, c.Reset fuel = some (none, c2) ∧ WF c2) ∧
    (∀ k now, ((c.Get k now).1.2 = true ∨ c.index.lookup k = none) → WF (c.Get k now).2) ∧
    (∀ c2 : Cache K V, Reach c2 → WF c2) := by
  refine ⟨WF_of_WFl (NewCache_WF o), fun k v ttl now => Set_WF hwf k v ttl now,
    fun ks => Delete_WF hwf ks, fun fuel hf => ?_,
    fun k now h => Get_WF_of_hit_or_absent hwf k now h, fun c2 h => Reach_WF h⟩
  obtain ⟨c2, h1, h2, _⟩ := Reset_WFl hwf hf
  exact ⟨c2, h1, WF_of_WFl h2⟩

theorem C10_witness :
    WF exCache ∧ WF (NewCache [] : Cache Nat Nat) ∧
    (∃ c2, exCache.Set 4 40 5 0 = some c2 ∧ WF c2) ∧ WF (exCache.Delete [2, 7]) ∧
    (∃ c2, exCache.Reset 3 = some (none, c2) ∧ WF c2) ∧ WF (exCache.Get 1 0).2 ∧
    WF (exCache.Get 9 0).2 :=
  ⟨by decide, (C10_wf_preserved exCache (by decide) []).1,
    (C10_wf_preserved exCache (by decide) []).2.1 4 40 5 0,
    (C10_wf_preserved exCache (by decide) []).2.2.1 [2, 7],
    (C10_wf_preserved exCache (by decide) []).2.2.2.1 3 (by decide),
    (C10_wf_preserved exCache (by decide) []).2.2.2.2.1 1 0 (Or.inl (by decide)),
    (C10_wf_preserved exCache (by decide) []).2.2.2.2.1 9 0 (Or.inr (by decide))⟩

/-- Claim C11. On a well-formed cache, after `Delete(ks...)`, where `ks` may hold absent and
repeated keys, the key order is the previous one without the keys that occur in `ks`, `size`
has gone down by the number of distinct keys of `ks` that were present, the events emitted
are exactly that many `Delete`, and a `Get` of any key of `ks` misses. -/
theorem C11_delete [DecidableEq K] [Inhabited V] (c : Cache K V) (hwf : WF c) (ks : List K) :
    (c.Delete ks).keys = (c.keys.filter fun x => decide (x ∉ ks)) ∧
    (c.Delete ks).size + (ks.dedup.filter fun k => decide (k ∈ c.index.keys)).length
      = c.size ∧
    (c.Delete ks).metrics = c.metrics ++
      List.replicate (ks.dedup.filter fun k => decide (k ∈ c.index.keys)).length Event.Delete ∧
    ∀ k ∈ ks, ∀ now, ((c.Delete ks).Get k now).1 = (default, false) := by
  have hw2 := Delete_WF hwf ks
  have hkeys := Delete_keys hwf ks
  obtain ⟨n, hm, hs⟩ := Delete_count hwf ks
  have hn : n = (ks.dedup.filter fun k => decide (k ∈ c.index.keys)).length := by
    rw [present_count hwf ks]
    have h1 : (c.Delete ks).size = (c.keys.filter fun x => decide (x ∉ ks)).length := by
      rw [← hkeys, keys_length hw2, ← WFl.size_eq hw2]
    have h2 : c.size = c.keys.length := by rw [keys_length hwf, ← WFl.size_eq hwf]
    have h3 := filter_split_length (fun x => decide (x ∈ ks)) c.keys
    simp only [decide_not] at h1
    omega
  refine ⟨hkeys, by rw [← hn]; exact hs, by rw [← hn]; exact hm, fun k hk now => ?_⟩
  have hnot : k ∉ (c.Delete ks).keys := by
    rw [hkeys]
    intro hm2
    have := (List.mem_filter.mp hm2).2
    simp only [decide_eq_true_eq] at this
    exact this hk
  rw [mem_keys_iff_mem_index hw2] at hnot
  rw [Get_absent (lookup_none_of_not_mem hnot)]

theorem C11_witness :
    WF exCache ∧
    (exCache.Delete [2, 7, 2, 3]).keys = (exCache.keys.filter fun x => decide (x ∉ [2, 7, 2, 3])) ∧
    (exCache.Delete [2, 7, 2, 3]).size +
      (([2, 7, 2, 3] : List Nat).dedup.filter fun k => decide (k ∈ exCache.index.keys)).length
      = exCache.size ∧
    (exCache.Delete [2, 7, 2, 3]).metrics = exCache.metrics ++
      List.replicate
        (([2, 7, 2, 3] : List Nat).dedup.filter fun k => decide (k ∈ exCache.index.keys)).length
        Event.Delete ∧
    ∀ k ∈ [2, 7, 2, 3], ∀ now, ((exCache.Delete [2, 7, 2, 3]).Get k now).1 = (default, false) :=
  ⟨by decide, C11_delete exCache (by decide) [2, 7, 2, 3]⟩

/-- Claim C12. On every cache, `Delete(k)` of a key that is not in the index leaves the
whole state as it is: index, list, `head`, `tail`, `size`, and the trace of events, to which
nothing is added, in particular no `Delete` event. -/
theorem C12_delete_absent [DecidableEq K] (c : Cache K V) (k : K) (hk : k ∉ c.index.keys) :
    c.Delete [k] = c := by
  show (c.deleteKey k) = c
  exact deleteKey_absent (lookup_none_of_not_mem hk)

theorem C12_witness : 7 ∉ exCache.index.keys ∧ exCache.Delete [7] = exCache :=
  ⟨by decide, C12_delete_absent exCache 7 (by decide)⟩

/-- Claim C13. On a well-formed cache `Reset` ends, returns a nil error and leaves an empty
cache: `head` and `tail` nil, `size` 0, an empty index, `maxsize` unchanged, so that a `Get`
of every key misses afterwards. `Reset` is idempotent: on the result it returns the same
state again, with no further event. -/
theorem C13_reset [DecidableEq K] [Inhabited V] (c : Cache K V) (hwf : WF c) (fuel : Nat)
    (hf : c.size ≤ fuel) :
    ∃ c2, c.Reset fuel = some (none, c2) ∧ c2.head = none ∧ c2.tail = none ∧ c2.size = 0 ∧
      c2.index = ∅ ∧ c2.maxsize = c.maxsize ∧
      (∀ k now, (c2.Get k now).1 = (default, false)) ∧
      ∀ fuel2, c2.Reset fuel2 = some (none, c2) := by
  obtain ⟨c2, h1, _, h3⟩ := Reset_WFl hwf hf
  refine ⟨c2, h1, h3.head_eq, h3.tail_eq, h3.size_eq, h3.index_eq, h3.maxsize_eq,
    fun k now => ?_, fun fuel2 => ?_⟩
  · have : c2.index.lookup k = none := by rw [h3.index_eq]; exact AList.lookup_empty k
    rw [Get_absent this]
  · unfold Cache.Reset
    rw [resetLoop_head_none h3.head_eq]
    have hi := h3.index_eq
    have ht := h3.tail_eq
    have hs := h3.size_eq
    cases c2
    simp only at hi ht hs
    subst hi ht hs
    rfl

theorem C13_witness :
    (WF exCache ∧ exCache.size ≤ 3) ∧
    ∃ c2, exCache.Reset 3 = some (none, c2) ∧ c2.head = none ∧ c2.tail = none ∧ c2.size = 0 ∧
      c2.index = ∅ ∧ c2.maxsize = exCache.maxsize ∧
      (∀ k now, (c2.Get k now).1 = (default, false)) ∧
      ∀ fuel2, c2.Reset fuel2 = some (none, c2) :=
  ⟨by decide, C13_reset exCache (by decide) 3 (by decide)⟩

/-- Claim C14. On a well-formed cache every `Set` and every `Get` emits exactly one
classification event and no `Error`: `Set` (which does not fault) emits one `Add` and no
`Update` when the key is new and one `Update` and no `Add` when it was present, and neither
`Hit` nor `Miss`; `Get` emits one `Hit` and no `Miss` when it returns `found = true` and one
`Miss` and no `Hit` when it returns `found = false`, and neither `Add` nor `Update`. -/
theorem C14_classification_events [DecidableEq K] [Inhabited K] [Inhabited V]
    (c : Cache K V) (hwf : WF c) :
    (∀ k v ttl now, ∃ c2, c.Set k v ttl now = some c2 ∧
      c2.metrics = c.metrics ++ newEvents c c2 ∧
      (newEvents c c2).count Event.Error = 0 ∧ (newEvents c c2).count Event.Hit = 0 ∧
      (newEvents c c2).count Event.Miss = 0 ∧
      (k ∉ c.index.keys →
        (newEvents c c2).count Event.Add = 1 ∧ (newEvents c c2).count Event.Update = 0) ∧
      (k ∈ c.index.keys →
        (newEvents c c2).count Event.Update = 1 ∧ (newEvents c c2).count Event.Add = 0)) ∧
    (∀ k now, (c.Get k now).2.metrics = c.metrics ++ newEvents c (c.Get k now).2 ∧
      (newEvents c (c.Get k now).2).count Event.Error = 0 ∧
      (newEvents c (c.Get k now).2).count Event.Add = 0 ∧
      (newEvents c (c.Get k now).2).count Event.Update = 0 ∧
      ((c.Get k now).1.2 = true →
        (newEvents c (c.Get k now).2).count Event.Hit = 1 ∧
        (newEvents c (c.Get k now).2).count Event.Miss = 0) ∧
      ((c.Get k now).1.2 = false →
        (newEvents c (c.Get k now).2).count Event.Miss = 1 ∧
        (newEvents c (c.Get k now).2).count Event.Hit = 0)) := by
  constructor
  · intro k v ttl now
    by_cases hk : k ∈ c.index.keys
    · obtain ⟨a, ha, _, _⟩ := WFl.lookup_of_mem_keys hwf hk
      obtain ⟨c2, h1, _, h3⟩ := Set_found_WFl hwf ha v ttl now
      have he := newEvents_of_append h3.metrics_eq
      refine ⟨c2, h1, by rw [he]; exact h3.metrics_eq, ?_⟩
      rw [he]
      exact ⟨by decide, by decide, by decide, fun hn => absurd hk hn,
        fun _ => ⟨by decide, by decide⟩⟩
    · obtain ⟨c2, h1, h2⟩ := Set_new_metrics hwf (lookup_none_of_not_mem hk) v ttl now
      have he := newEvents_of_append h2
      refine ⟨c2, h1, by rw [he]; exact h2, ?_⟩
      rw [he]
      split_ifs
      · exact ⟨by decide, by decide, by decide, fun _ => ⟨by decide, by decide⟩,
          fun hin => absurd hin hk⟩
      · exact ⟨by decide, by decide, by decide, fun _ => ⟨by decide, by decide⟩,
          fun hin => absurd hin hk⟩
  · intro k now
    cases hk : c.index.lookup k with
    | none =>
      have hg := Get_absent hk now
      have hm : (c.Get k now).2.metrics = c.metrics ++ [Event.Miss] := by rw [hg]; rfl
      have he := newEvents_of_append hm
      rw [he]
      refine ⟨hm, by decide, by decide, by decide, fun ht => ?_, fun _ => ⟨by decide, by decide⟩⟩
      rw [hg] at ht
      exact absurd ht (by simp)
    | some item =>
      obtain ⟨a, rfl, _, _⟩ := WFl.lookup_some hwf hk
      by_cases hlt : now < (c.mem a).expiration
      · have hg := Get_hit hk hlt
        have hm := (Get_hit_WFl hwf hk hlt).2.metrics_eq
        have he := newEvents_of_append hm
        rw [he]
        refine ⟨hm, by decide, by decide, by decide, fun _ => ⟨by decide, by decide⟩,
          fun hf => ?_⟩
        rw [hg] at hf
        exact absurd hf (by simp)
      · obtain ⟨hg, hm⟩ := Get_expired_metrics hwf hk (not_lt.mp hlt)
        have he := newEvents_of_append hm
        rw [he]
        refine ⟨hm, by decide, by decide, by decide, fun ht => ?_,
          fun _ => ⟨by decide, by decide⟩⟩
        rw [hg] at ht
        exact absurd ht (by simp)

theorem C14_witness :
    WF exCache ∧
    (∃ c2, exCache.Set 4 40 5 0 = some c2 ∧ (newEvents exCache c2).count Event.Add = 1 ∧
      (newEvents exCache c2).count Event.Update = 0) ∧
    (newEvents exCache (exCache.Get 2 5).2).count Event.Miss = 1 ∧
    (newEvents exCache (exCache.Get 2 5).2).count Event.Hit = 0 :=
  ⟨by decide,
    (let ⟨c2, h1, _, _, _, _, h6, _⟩ :=
      (C14_classification_events exCache (by decide)).1 4 40 5 0
     ⟨c2, h1, (h6 (by decide)).1, (h6 (by decide)).2⟩),
    ((C14_classification_events exCache (by decide)).2 2 5).2.2.2.2.2 (by decide)⟩

/-- Claim C15. On a well-formed cache, the removal of the tail by `Set` of a new key at full
capacity emits exactly one `Delete` and one `Evict` (followed by the `Add`), the removal by a
`Get` at or after the expiration of the entry emits exactly one `Evict` and one `Delete`
(after the `Miss`), and `Delete` of a present key emits exactly one `Delete` and no
`Evict`. -/
theorem C15_removal_events [DecidableEq K] [Inhabited K] [Inhabited V] (c : Cache K V)
    (hwf : WF c) :
    (∀ k v ttl now, k ∉ c.index.keys → c.size = c.maxsize → 0 < c.size →
      ∃ c2, c.Set k v ttl now = some c2 ∧ c2.keys = k :: c.keys.dropLast ∧
        c2.metrics = c.metrics ++ [Event.Delete, Event.Evict, Event.Add]) ∧
    (∀ k val e now, c.entry k = some (val, e) → e ≤ now →
      (c.Get k now).2.metrics = c.metrics ++ [Event.Miss, Event.Evict, Event.Delete]) ∧
    (∀ k, k ∈ c.index.keys → (c.Delete [k]).metrics = c.metrics ++ [Event.Delete]) := by
  refine ⟨fun k v ttl now hk hfull hpos => ?_, fun k val e now hk he => ?_,
    fun k hk => Delete_single_present hwf hk⟩
  · have hl := lookup_none_of_not_mem hk
    obtain ⟨c2, h1, h2⟩ := Set_new_metrics hwf hl v ttl now
    obtain ⟨c3, g1, _, g3⟩ := Set_new_keys hwf hl v ttl now
    rw [h1] at g1
    cases g1
    rw [if_pos ⟨hfull, hpos⟩] at h2
    rw [if_pos hfull] at g3
    exact ⟨c2, h1, g3, h2⟩
  · obtain ⟨a, ha, _, hea⟩ := entry_eq_some.mp hk
    exact (Get_expired_metrics hwf ha (by rw [hea]; exact he)).2

theorem C15_witness :
    WF exCache ∧
    (∃ c2, exCache.Set 4 40 5 0 = some c2 ∧ c2.keys = 4 :: exCache.keys.dropLast ∧
        c2.metrics = exCache.metrics ++ [Event.Delete, Event.Evict, Event.Add]) ∧
    (exCache.Get 2 6).2.metrics = exCache.metrics ++ [Event.Miss, Event.Evict, Event.Delete] ∧
    (exCache.Delete [2]).metrics = exCache.metrics ++ [Event.Delete] :=
  ⟨by decide,
    (C15_removal_events exCache (by decide)).1 4 40 5 0 (by decide) (by decide) (by decide),
    (C15_removal_events exCache (by decide)).2.1 2 20 5 6 (by decide) (by decide),
    (C15_removal_events exCache (by decide)).2.2 2 (by decide)⟩

/-- Claim C16 fails on the code, by the defect of claim C9. On a fresh cache the calls
`Set(1, 10, 0s)` at clock reading 0, `Get(1)` at the same reading 0 and `Reset` do not fault
and leave `size = 0` while the sink has counted one `Add` and two `Delete`, so its counter is
-1: the `Get` at the expiration instant reported a deletion and lowered `size` without
unlinking the node, and `Reset` reported the deletion of the same node again. -/
theorem C16_count_after_get_at_expiration :
    ∃ c2 c3 : Cache Nat Nat,
      (NewCache [CacheOption.WithMaxSize 3]).calls
        [Call.op (Op.set 1 10 0 0), Call.op (Op.get 1 0)] = some c2 ∧
      basicmetricsCount c2 = c2.size ∧ c2.size = 0 ∧ c2.head = some 0 ∧
      (NewCache [CacheOption.WithMaxSize 3]).calls
        [Call.op (Op.set 1 10 0 0), Call.op (Op.get 1 0), Call.reset] = some c3 ∧
      c3.metrics = [Event.Add, Event.Miss, Event.Evict, Event.Delete, Event.Delete] ∧
      basicmetricsCount c3 = -1 ∧ c3.size = 0 ∧ basicmetricsCount c3 ≠ c3.size :=
  ⟨_, _, rfl, by decide, by decide, by decide, rfl, by decide, by decide, by decide, by decide⟩

/-- Claim C17, as stated, fails: `NewCache` with `WithMaxSize(0)` keeps the capacity 0, and
after one `Set` the size 1 exceeds it. -/
theorem C17_counterexample :
    (NewCache [CacheOption.WithMaxSize 0] : Cache Nat Nat).maxsize = 0 ∧
      ∃ c : Cache Nat Nat, runSets (NewCache [CacheOption.WithMaxSize 0]) [(1, 10, 5, 0)] = some c ∧
        c.maxsize = 0 ∧ c.size = 1 ∧ ¬ c.size ≤ c.maxsize :=
  ⟨by decide, _, rfl, by decide, by decide, by decide⟩

/-- Claim C17, amended. `NewCache` uses the capacity 1000 only when no `WithMaxSize` option
is given; with `WithMaxSize(0)` it keeps the capacity 0. On that cache no sequence of `Set`
calls faults or evicts: afterwards `maxsize` is still 0, every key that was set is in the
index, and `size` is the number of distinct keys that were set. -/
theorem C17_zero_capacity_kept [DecidableEq K] [Inhabited K] [Inhabited V]
    (calls : List (K × V × Int × Time)) :
    (NewCache [] : Cache K V).maxsize = 1000 ∧
    (NewCache [CacheOption.WithMaxSize 0] : Cache K V).maxsize = 0 ∧
    ∃ c : Cache K V, runSets (NewCache [CacheOption.WithMaxSize 0]) calls = some c ∧
      c.maxsize = 0 ∧ (∀ x, x ∈ c.index.keys ↔ x ∈ calls.map Prod.fst) ∧
      c.size = (calls.map Prod.fst).dedup.length := by
  refine ⟨rfl, rfl, ?_⟩
  have h0 : WF (NewCache [CacheOption.WithMaxSize 0] : Cache K V) := WF_of_WFl (NewCache_WF _)
  obtain ⟨c, h1, h2, h3, h4⟩ := runSets_zero calls _ h0 rfl
  have hmem : ∀ x, x ∈ c.index.keys ↔ x ∈ calls.map Prod.fst := by
    intro x
    rw [h4]
    constructor
    · rintro (h | h)
      · exact h
      · exact absurd h (List.not_mem_nil x)
    · exact fun h => Or.inl h
  refine ⟨c, h1, h3, hmem, ?_⟩
  rw [← WFl.card_eq h2]
  apply List.Perm.length_eq
  rw [List.perm_ext_iff_of_nodup (AList.keys_nodup _) (List.nodup_dedup _)]
  intro x
  rw [hmem, List.mem_dedup]

/-- Claim C18 fails on the code for `Set`. In the cache with list 3, 2, 1 whose index entry
of key 2 was set to nil, `Set(2, 99, 5)` dereferences the nil node (`item.value = v`) and
faults, whereas `Get(2)`, `Delete(2)` and `Reset` check for nil or do not read the index, and
complete. -/
theorem C18_set_on_nil_entry_faults :
    WF exCache ∧ (exCache.corrupt 2).index.lookup 2 = some none ∧
      (exCache.corrupt 2).Set 2 99 5 1 = none ∧
      ((exCache.corrupt 2).Get 2 1).1 = (0, false) ∧
      ((exCache.corrupt 2).Delete [2]).index.lookup 2 = none ∧
      ((exCache.corrupt 2).Reset 3).isSome = true := by
  refine ⟨by decide, by decide, Set_nil_faults (by decide) 99 5 1, by decide, by decide,
    by decide⟩

/-- Claim C19, as stated, fails: in the cache whose index entry of key 2 was set to nil,
`Get(2)` misses and emits one `Error` and one `Miss`, but afterwards 2 is still a key of the
index, bound to nil. -/
theorem C19_counterexample :
    (exCache.corrupt 2).index.lookup 2 = some none ∧
      ((exCache.corrupt 2).Get 2 1).1 = (0, false) ∧
      newEvents (exCache.corrupt 2) ((exCache.corrupt 2).Get 2 1).2 = [Event.Error, Event.Miss] ∧
      2 ∈ ((exCache.corrupt 2).Get 2 1).2.index.keys ∧
      ((exCache.corrupt 2).Get 2 1).2.index.lookup 2 = some none := by
  decide

/-- Claim C19, amended. On every cache whose index binds the key `k` to nil, `Get(k)` returns
the zero value and `false` and emits exactly one `Error` and then one `Miss`; it does not
remove the entry: the index and the rest of the state are unchanged, and `k` is still a key
of the index, bound to nil. -/
theorem C19_get_nil_entry [DecidableEq K] [Inhabited V] (c : Cache K V) (k : K) (now : Time)
    (hk : c.index.lookup k = some none) :
    (c.Get k now).1 = (default, false) ∧
      (c.Get k now).2 = { c with metrics := c.metrics ++ [Event.Error, Event.Miss] } ∧
      newEvents c (c.Get k now).2 = [Event.Error, Event.Miss] ∧
      (c.Get k now).2.index.lookup k = some none ∧ k ∈ (c.Get k now).2.index.keys := by
  rw [Get_nil hk now]
  refine ⟨rfl, ?_, ?_, hk, mem_keys_of_lookup hk⟩
  · simp [Cache.emit]
  · apply newEvents_of_append
    simp [Cache.emit]

theorem C19_witness :
    (exCache.corrupt 2).index.lookup 2 = some none ∧
    ((exCache.corrupt 2).Get 2 1).1 = (default, false) ∧
      ((exCache.corrupt 2).Get 2 1).2 = { exCache.corrupt 2 with
        metrics := (exCache.corrupt 2).metrics ++ [Event.Error, Event.Miss] } ∧
      newEvents (exCache.corrupt 2) ((exCache.corrupt 2).Get 2 1).2 = [Event.Error, Event.Miss] ∧
      ((exCache.corrupt 2).Get 2 1).2.index.lookup 2 = some none ∧
      2 ∈ ((exCache.corrupt 2).Get 2 1).2.index.keys :=
  ⟨by decide, C19_get_nil_entry (exCache.corrupt 2) 2 1 (by decide)⟩

/-- Claim C20 fails on the code. Two goroutines share the cache with list 3, 2, 1 whose
entries expire at 5. One starts `Get(2)` at time 6, finds the entry expired and releases the
shared lock; the other runs `Set(2, 99)` with ttl 5 at time 6; the first then takes the
exclusive lock and runs `deleteexpired(2, 6)`, which deletes key 2 from the index and lowers
`size` although the refreshed entry expires at 11 and stays linked. With the lock free, the
cache is not well-formed, while it is after every earlier stretch and after the same two
calls run one after the other in either order. In the same way `Get(1)` at time 1 with
`Delete(3, 2)` in the gap makes the sole node its own successor. -/
theorem C20_get_gap_corrupts :
    ∃ s1 s2 s3 s4 s5 s6 : Shared Nat Nat,
      exShared.run exFill = some s1 ∧ WF s1.cache ∧ s1.cache = exCache ∧
      s1.run [Stretch.getShared 0 2 6] = some s2 ∧ WF s2.cache ∧
      s2.gets = [(0, 2, 6, GetPlan.expired)] ∧
      s2.run [Stretch.set 2 99 5 6] = some s3 ∧ WF s3.cache ∧
      s3.cache.entry 2 = some (99, 11) ∧
      s3.run [Stretch.getFinish 0] = some s4 ∧ s4.gets = [] ∧
      s4.cache.index.lookup 2 = none ∧ s4.cache.size = 2 ∧
      walk s4.cache.mem 5 s4.cache.head = [2, 1, 0] ∧ (s4.cache.mem 1).key = 2 ∧
      (s4.cache.mem 1).expiration = 11 ∧ ¬ WF s4.cache ∧
      exShared.run (exFill ++ [Stretch.getShared 0 2 6, Stretch.getFinish 0,
        Stretch.set 2 99 5 6]) = some s5 ∧ WF s5.cache ∧
      exShared.run (exFill ++ [Stretch.set 2 99 5 6, Stretch.getShared 0 2 6,
        Stretch.getFinish 0]) = some s6 ∧ WF s6.cache ∧
      ∃ t2 t3 t4 : Shared Nat Nat,
        s1.run [Stretch.getShared 0 1 1] = some t2 ∧ WF t2.cache ∧
        t2.gets = [(0, 1, 1, GetPlan.hit 10 true)] ∧
        t2.run [Stretch.delete [3, 2]] = some t3 ∧ WF t3.cache ∧ t3.cache.keys = [1] ∧
        t3.run [Stretch.getFinish 0] = some t4 ∧ t4.cache.tail = none ∧
        (t4.cache.mem 0).next = some 0 ∧ ¬ WF t4.cache :=
  ⟨_, _, _, _, _, _, rfl, by decide, rfl, rfl, by decide, rfl, rfl, by decide, by decide,
    rfl, rfl, by decide, by decide, by decide, by decide, by decide, by decide, rfl,
    by decide, rfl, by decide, _, _, _, rfl, by decide, rfl, rfl, by decide, by decide, rfl,
    by decide, by decide, by decide⟩

/-- Claim C21 fails on the code for a superseded entry. In the cache with list 3, 2, 1 whose
entries expire at 5, `deleteexpired(2, 3)` finds an expiration that is not before 3 and does
not unlink the node, but it deletes key 2 from the index, recycles the node and lowers `size`
to 2 all the same: the list walked from `head` still has the three nodes, and the cache is no
longer well-formed (the same at `tm = 5`, the expiration itself). On a key that is not in the
index `deleteexpired` changes nothing. -/
theorem C21_deleteexpired_superseded :
    WF exCache ∧ exCache.entry 2 = some (20, 5) ∧ ¬ ((5 : Time) < 3) ∧
      (exCache.deleteexpired 2 3).index.lookup 2 = none ∧
      (exCache.deleteexpired 2 3).size = 2 ∧ exCache.size = 3 ∧
      (exCache.deleteexpired 2 3).pool = [some 1] ∧
      walk (exCache.deleteexpired 2 3).mem 5 (exCache.deleteexpired 2 3).head = [2, 1, 0] ∧
      ((exCache.deleteexpired 2 3).mem 1).key = 2 ∧
      ¬ WF (exCache.deleteexpired 2 3) ∧ ¬ WF (exCache.deleteexpired 2 5) ∧
      exCache.deleteexpired 7 3 = exCache := by
  refine ⟨by decide, by decide, by decide, by decide, by decide, by decide, by decide,
    by decide, by decide, by decide, by decide, deleteexpired_absent (by decide) 3⟩

/-- Claim C22 fails on the code for a sole entry. In the cache whose only entry is key 1,
`movetohead(1)` finds `item.next == nil` and relinks: `tail` becomes nil and the node becomes
its own successor and predecessor, so the cache is no longer well-formed. (`Get` does not
call `movetohead` there, since it asks for `size > 1`.) On the head of a longer list and on a
key that is not in the index `movetohead` changes nothing. -/
theorem C22_movetohead_sole_entry :
    WF exSole ∧ exSole.keys = [1] ∧ exSole.head = some 0 ∧ exSole.tail = some 0 ∧
      (exSole.movetohead 1).head = some 0 ∧ (exSole.movetohead 1).tail = none ∧
      ((exSole.movetohead 1).mem 0).next = some 0 ∧
      ((exSole.movetohead 1).mem 0).prev = some 0 ∧
      walk (exSole.movetohead 1).mem 4 (exSole.movetohead 1).head = [0, 0, 0, 0] ∧
      ¬ WF (exSole.movetohead 1) ∧ WF (exSole.Get 1 1).2 ∧
      exCache.movetohead 3 = exCache ∧ exCache.movetohead 7 = exCache := by
  refine ⟨by decide, by decide, by decide, by decide, by decide, by decide, by decide,
    by decide, by decide, by decide, by decide, movetohead_head (by decide) (by decide)
      (by decide), movetohead_absent (by decide)⟩

end claims

end prehit
